import Mathlib

/-!
# Trunnel marshaller generator: semantics of the generated code

The generator of `gen/decl.go` walks the AST of a format description and prints, for
every struct, the Go functions `Parse`, `ParseS`, `encodeBinary`, `MarshalBinary` and
`validate`.  This development embeds the printed code shallowly: every printing function
`g.f` of the generator becomes a Lean function `f` that computes what the code printed by
`g.f` does when it runs.  Printing order becomes evaluation order, a printed `return`
becomes an `Outcome`, and the recursion of one generated method into another (a nested
struct) goes through an explicit callee that `Parse`, `encodeBinary` and `validate`
instantiate with themselves at a smaller fuel.  Names of structs and fields are the Go
names, that is the results of the generator's `name`.
-/

namespace Trunnel

/-! ## Bytes and machine integers -/

/-- One octet of a Go byte slice. -/
abbrev Byte := Fin 256

/-- Go conversion `int(x)` of an unsigned value on a 64-bit platform: two's complement. -/
def goInt (x : Nat) : Int :=
  if x % 2 ^ 64 < 2 ^ 63 then ((x % 2 ^ 64 : Nat) : Int) else ((x % 2 ^ 64 : Nat) : Int) - 2 ^ 64

/-- Big-endian value of a byte string, as read by `binary.BigEndian.UintN`. -/
def bigEndian : List Byte → Nat
  | [] => 0
  | b :: bs => b.val * 256 ^ bs.length + bigEndian bs

/-- Big-endian `n` byte representation written by `binary.BigEndian.PutUintN` (and `byte(x)`
for `n = 1`); the most significant byte comes first. -/
def putUint : Nat → Nat → List Byte
  | 0, _ => []
  | n + 1, x => Fin.ofNat (x / 256 ^ n) :: putUint n x

/-- Index of the first zero byte, `bytes.IndexByte(cur, 0)`; `none` stands for `-1`. -/
def indexByte0 : List Byte → Option Nat
  | [] => none
  | b :: bs => if b = 0 then some 0 else (indexByte0 bs).map (· + 1)

/-! ## The AST consumed by the generator -/

/-- Modelled from the spec: the `ast.Integer` variants the generator hands to `g.integer`,
a named constant or a literal. -/
inductive Integer where
  | IntegerConstRef (Name : String)
  | IntegerLiteral (Value : Int)

/-- Modelled from the spec: one entry of a range constraint, a singleton (`High` absent)
or an inclusive range. -/
structure IntegerRange where
  Low : Integer
  High : Option Integer

/-- Modelled from the spec: `ast.IntegerList`, a union of ranges and singletons. -/
structure IntegerList where
  Ranges : List IntegerRange

/-- Modelled from the spec: `ast.IDRef`, a reference to a field of the receiver (empty
scope) or of a context parameter. -/
structure IDRef where
  Scope : String
  Name : String

/-- Modelled from the spec: the non-nil `ast.LengthConstraint` variants that the type
switches of `parseArray`, `encodeArray`, `validateArray` and `constrained` distinguish.
The nil constraint is `Option.none`. -/
inductive LengthConstraint where
  | Integer (i : Integer)
  | IDRef (r : IDRef)
  | Leftover (Num : Integer)

/-- Modelled from the spec: `ast.IntType`, width in bits and optional range constraint. -/
structure IntType where
  Size : Nat
  Constraint : Option IntegerList

/-- Modelled from the spec: `ast.U8`, the unconstrained 8 bit integer type that stands in
for `char`. -/
def U8 : IntType := ⟨8, none⟩

/-- Modelled from the spec: the element types of arrays.  The format language admits
integers, chars and struct references as array bases. -/
inductive ArrayBase where
  | IntType (t : IntType)
  | CharType
  | StructRef (Name : String)

/-- Modelled from the spec: `ast.Type`, the closed set of field types of the type switches
in `parseType`, `encodeType`, `validateType` and `tipe`. -/
inductive Tipe where
  | NulTermString
  | IntType (t : IntType)
  | CharType
  | Ptr
  | StructRef (Name : String)
  | FixedArrayMember (Base : ArrayBase) (Size : Integer)
  | VarArrayMember (Base : ArrayBase) (Constraint : Option LengthConstraint)

mutual
/-- Modelled from the spec: `ast.Member`, the closed set of members of the type switches
in `parseMember`, `encodeMember` and `validateMember`. -/
inductive Member where
  | Field (Name : String) (T : Tipe)
  | UnionMember (Name : String) (Tag : IDRef) (Length : Option LengthConstraint)
      (Cases : List UnionCase)
  | EOS
  | Ignore
  | Fail
/-- Modelled from the spec: `ast.UnionCase`; `Case` is absent for the default case. -/
inductive UnionCase where
  | mk (Case : Option IntegerList) (Members : List Member)
end

/-- Range set of a case. -/
def UnionCase.Case : UnionCase → Option IntegerList
  | .mk c _ => c

/-- Body of a case. -/
def UnionCase.Members : UnionCase → List Member
  | .mk _ ms => ms

/-- Modelled from the spec: `ast.Struct` for a struct that is not extern (for an extern
struct `structure` prints nothing). -/
structure Struct where
  Name : String
  Contexts : List String
  Members : List Member

/-- Modelled from the spec: the resolver contract, `lookupStruct` over the loaded struct
declarations and `evaluateInteger` over the table of named constants. -/
structure Resolver where
  structs : List Struct
  consts : List (String × Int)

/-- Resolver query `Struct(name)`. -/
def Resolver.Struct (r : Resolver) (n : String) : Option Struct :=
  r.structs.find? (fun s => s.Name == n)

/-- Resolver query `Integer(i)`. -/
def Resolver.Integer (r : Resolver) : Integer → Option Int
  | .IntegerLiteral v => some v
  | .IntegerConstRef n => r.consts.lookup n

/-! ## Values of the generated Go types -/

/-- Values of the Go types printed by `tipe`: `uintN` and `byte`, `string`, `int` (for a
position marker), `*T` (nil or a struct) and `[N]T` or `[]T`. -/
inductive Val where
  | int (n : Nat)
  | str (s : List Byte)
  | ptr (n : Int)
  | ref (p : Option (List (String × Val)))
  | arr (xs : List Val)

/-- Value of a generated struct type: its fields in declaration order. -/
abbrev StructVal := List (String × Val)

/-- Errors returned by the generated code, one per message printed by the generator. -/
inductive Err where
  /-- Message "data too short". -/
  | dataTooShort
  /-- Message "trailing data disallowed". -/
  | trailingData
  /-- Message "could not parse nul-term string". -/
  | nulTermString
  /-- Message "integer constraint violated". -/
  | integerConstraint
  /-- Message "disallowed case". -/
  | disallowedCase
  /-- Message "array length constraint violated". -/
  | arrayLength
  deriving DecidableEq

/-- What running a piece of generated code does. -/
inductive Outcome (α : Type) where
  /-- Normal completion. -/
  | ok (a : α)
  /-- The enclosing generated function returns this Go error. -/
  | error (e : Err)
  /-- Go run-time panic: index or slice bound out of range, negative `make` length, nil
  dereference. -/
  | panic
  /-- No runnable code: the generator panics while printing, or what it prints is rejected
  by the Go compiler.  It is reported where the run reaches the piece that cannot be
  printed or compiled; a format with such a piece has no generated code at all. -/
  | nocode
  /-- The step budget of the model ran out. -/
  | fuel

/-- Sequencing of generated statements. -/
def Outcome.bind {α β : Type} : Outcome α → (α → Outcome β) → Outcome β
  | .ok a, f => f a
  | .error e, _ => .error e
  | .panic, _ => .panic
  | .nocode, _ => .nocode
  | .fuel, _ => .fuel

instance : Monad Outcome where
  pure := Outcome.ok
  bind := Outcome.bind

/-- Generation-time lookup: a missing result means no code. -/
def Outcome.ofOption {α : Type} : Option α → Outcome α
  | some a => .ok a
  | none => .nocode

/-- Field selection `recv.name`; a nil receiver panics, an undeclared field does not
compile. -/
def readField (recv : Option StructVal) (name : String) : Outcome Val :=
  match recv with
  | none => .panic
  | some r => Outcome.ofOption (r.lookup name)

/-- Assignment `recv.name = v`. -/
def setField : StructVal → String → Val → StructVal
  | [], _, _ => []
  | (k, w) :: r, name, v => if k == name then (k, v) :: r else (k, w) :: setField r name v

/-! ## Shared pieces: `integer`, `ref`, `conditional`, `lengthCheck`, `assertEnd` -/

/-- The constant `g.integer(i)`; the generator panics when it does not resolve. -/
def integer (res : Resolver) (i : Integer) : Outcome Int :=
  Outcome.ofOption (res.Integer i)

/-- The unsigned integer denoted by the expression `g.ref(r)`: a field of the receiver
for an empty scope, else a field of the context variable named by the scope. -/
def ref (ctxs : List (String × StructVal)) (recv : Option StructVal) (r : IDRef) : Outcome Nat :=
  if r.Scope == "" then
    (readField recv r.Name).bind fun v =>
      match v with
      | .int x => .ok x
      | _ => .nocode
  else
    match ctxs.lookup r.Scope with
    | none => .nocode
    | some c =>
      match c.lookup r.Name with
      | some (.int x) => .ok x
      | _ => .nocode

/-- One clause of `conditional`: `v == low` for a singleton, `(low <= v && v <= high)`
for a range.  The bounds are taken to be representable in the unsigned type of `v`; with
a bound that is not, the Go compiler rejects the comparison. -/
def clause (res : Resolver) (x : Nat) (r : IntegerRange) : Option Bool :=
  match r.High with
  | none => (res.Integer r.Low).map fun lo => decide ((x : Int) = lo)
  | some hi =>
    match res.Integer r.Low, res.Integer hi with
    | some lo, some h => some (decide (lo ≤ (x : Int)) && decide ((x : Int) ≤ h))
    | _, _ => none

/-- The clauses joined by `||`, left to right. -/
def clauses (res : Resolver) (x : Nat) : List IntegerRange → Option Bool
  | [] => some false
  | r :: rs =>
    match clause res x r, clauses res x rs with
    | some b, some bs => some (b || bs)
    | _, _ => none

/-- Truth value of the condition `g.conditional(v, c)` when `v` holds `x`.  The result is
`none` when a bound does not resolve or the list is empty (the joined text is then empty
and `if !()` does not compile). -/
def conditional (res : Resolver) (x : Nat) (c : IntegerList) : Option Bool :=
  match c.Ranges with
  | [] => none
  | r :: rs => clauses res x (r :: rs)

/-- The statement `if len(cur) < min return error "data too short"`. -/
def lengthCheck (cur : List Byte) (min : Int) : Outcome Unit :=
  if (cur.length : Int) < min then .error .dataTooShort else .ok ()

/-- The statement `if len(cur) > 0 return error "trailing data disallowed"`. -/
def assertEnd (cur : List Byte) : Outcome Unit :=
  if cur.length > 0 then .error .trailingData else .ok ()

/-- The check `if !(conditional) return error "integer constraint violated"`, printed only
when a constraint is declared. -/
def checkConstraint (res : Resolver) (x : Nat) : Option IntegerList → Outcome Unit
  | none => .ok ()
  | some c =>
    match conditional res x c with
    | none => .nocode
    | some true => .ok ()
    | some false => .error .integerConstraint

/-- Widths for which `uintN` and `binary.BigEndian.UintN` exist. -/
def validSize (size : Nat) : Bool :=
  size == 8 || size == 16 || size == 32 || size == 64

/-! ## The struct declaration: `structDecl` and the zero value of `new(S)` -/

mutual
/-- Fields declared by `structMemberDecl`; `none` where the generator panics on a member
it does not expect at this place. -/
def structMemberDecl : Member → Option (List (String × Tipe))
  | .Field n t => some [(n, t)]
  | .UnionMember _ _ _ cases => structUnionMemberDecl cases
  | .EOS => some []
  | .Ignore => none
  | .Fail => none
/-- Fields declared by `structUnionMemberDecl`: those of all cases, in order. -/
def structUnionMemberDecl : List UnionCase → Option (List (String × Tipe))
  | [] => some []
  | .mk _ ms :: cs =>
    match caseDecl ms, structUnionMemberDecl cs with
    | some a, some b => some (a ++ b)
    | _, _ => none
/-- Inner loop of `structUnionMemberDecl` over the members of one case: `Fail` and
`Ignore` declare nothing, every other member goes to `structMemberDecl`. -/
def caseDecl : List Member → Option (List (String × Tipe))
  | [] => some []
  | f :: fs =>
    match f with
    | .Fail => caseDecl fs
    | .Ignore => caseDecl fs
    | f =>
      match structMemberDecl f, caseDecl fs with
      | some a, some b => some (a ++ b)
      | _, _ => none
end

/-- Loop of `structDecl` over the members of a struct. -/
def structDecl : List Member → Option (List (String × Tipe))
  | [] => some []
  | m :: ms =>
    match structMemberDecl m, structDecl ms with
    | some a, some b => some (a ++ b)
    | _, _ => none

/-- Zero value of an array element. -/
def zeroBase : ArrayBase → Val
  | .IntType _ => .int 0
  | .CharType => .int 0
  | .StructRef _ => .ref none

/-- Zero value of the Go type `tipe(t)`. -/
def zero (res : Resolver) : Tipe → Option Val
  | .NulTermString => some (.str [])
  | .IntType _ => some (.int 0)
  | .CharType => some (.int 0)
  | .Ptr => some (.ptr 0)
  | .StructRef _ => some (.ref none)
  | .FixedArrayMember b size =>
    (res.Integer size).map fun n => .arr (List.replicate n.toNat (zeroBase b))
  | .VarArrayMember _ _ => some (.arr [])

/-- Zero values of a list of declared fields. -/
def zeroFields (res : Resolver) : List (String × Tipe) → Option StructVal
  | [] => some []
  | (n, t) :: fs =>
    match zero res t, zeroFields res fs with
    | some v, some r => some ((n, v) :: r)
    | _, _ => none

/-- The value `new(S)`. -/
def newStruct (res : Resolver) (s : Struct) : Outcome StructVal :=
  match structDecl s.Members with
  | none => .nocode
  | some fs => Outcome.ofOption (zeroFields res fs)

/-! ## Decode: `parse` and what it calls -/

/-- What the code printed for one `Parse` method can see: the resolver used while printing,
the context parameters, `len(data)`, the budget of the unbounded loop and the `Parse`
methods of other structs. -/
structure ParseEnv where
  res : Resolver
  ctxs : List (String × StructVal)
  dataLen : Nat
  loopFuel : Nat
  callee : Struct → List (String × StructVal) → List Byte → Outcome (StructVal × List Byte)

/-- The arguments `contextArgs(names)`: the caller's variables of these names; a name the
caller does not have does not compile. -/
def contextArgs (ctxs : List (String × StructVal)) : List String → Option (List (String × StructVal))
  | [] => some []
  | n :: ns =>
    match ctxs.lookup n, contextArgs ctxs ns with
    | some c, some cs => some ((n, c) :: cs)
    | _, _ => none

/-- Code of `parseIntType`.  The flag `lhsOk` tells whether the assigned variable exists:
it is false for an element index outside the array. -/
def parseIntType (res : Resolver) (lhsOk : Bool) (t : IntType) (cur : List Byte) :
    Outcome (Val × List Byte) :=
  if validSize t.Size then do
    let n := t.Size / 8
    lengthCheck cur n
    let x := bigEndian (cur.take n)
    if lhsOk then do
      checkConstraint res x t.Constraint
      pure (.int x, cur.drop n)
    else .panic
  else .nocode

/-- Code of the `StructRef` case of `parseType`. -/
def parseStructRef (env : ParseEnv) (lhsOk : Bool) (name : String) (cur : List Byte) :
    Outcome (Val × List Byte) :=
  match env.res.Struct name with
  | none => .nocode
  | some s =>
    match contextArgs env.ctxs s.Contexts with
    | none => .nocode
    | some args =>
      if lhsOk then do
        let (v, cur1) ← env.callee s args cur
        pure (.ref (some v), cur1)
      else .panic

/-- Code of `parseType` at an array base type. -/
def parseBase (env : ParseEnv) (b : ArrayBase) (lhsOk : Bool) (cur : List Byte) :
    Outcome (Val × List Byte) :=
  match b with
  | .IntType t => parseIntType env.res lhsOk t cur
  | .CharType => parseIntType env.res lhsOk U8 cur
  | .StructRef n => parseStructRef env lhsOk n cur

/-- The loop `for idx := i; idx < i + n; idx++ { lhs[idx] = element }`. -/
def parseFor (elem : Bool → List Byte → Outcome (Val × List Byte)) :
    Nat → Nat → List Val → List Byte → Outcome (List Val × List Byte)
  | 0, _, lhs, cur => .ok (lhs, cur)
  | n + 1, idx, lhs, cur => do
    let (v, cur1) ← elem (decide (idx < lhs.length)) cur
    parseFor elem n (idx + 1) (lhs.set idx v) cur1

/-- The loop `for len(cur) > 0 { tmp = element; lhs = append(lhs, tmp) }`, cut off after
the given number of iterations. -/
def parseLoop (elem : Bool → List Byte → Outcome (Val × List Byte)) :
    Nat → List Val → List Byte → Outcome (List Val × List Byte)
  | 0, _, _ => .fuel
  | n + 1, lhs, cur =>
    if cur.length > 0 then do
      let (v, cur1) ← elem true cur
      parseLoop elem n (lhs ++ [v]) cur1
    else .ok (lhs, cur)

/-- Code of `constrained`: the region length `n`, its length check, the split of the
cursor at `n`, the body `f` on the region, `assertEnd` and the restored tail. -/
def constrained {α : Type} (env : ParseEnv) (recv : StructVal) (c : LengthConstraint)
    (f : List Byte → Outcome (α × List Byte)) (cur : List Byte) : Outcome (α × List Byte) := do
  let n ← (match c with
    | .Leftover num => do
      let k ← integer env.res num
      lengthCheck cur k
      pure ((cur.length : Int) - k)
    | .IDRef r => do
      let x ← ref env.ctxs (some recv) r
      lengthCheck cur (goInt x)
      pure (goInt x)
    | .Integer _ => (Outcome.nocode : Outcome Int))
  if n < 0 ∨ (cur.length : Int) < n then .panic
  else do
    let restore := cur.drop n.toNat
    let (a, cur1) ← f (cur.take n.toNat)
    assertEnd cur1
    pure (a, restore)

/-- Code of `parseArray`; `lhs` is the array variable before the code runs.  The
allocation `make([]T, n)` panics for a negative `n` and is taken to succeed otherwise. -/
def parseArray (env : ParseEnv) (recv : StructVal) (lhs : Val) (base : ArrayBase)
    (s : Option LengthConstraint) (cur : List Byte) : Outcome (Val × List Byte) :=
  match s with
  | some (.Integer i) => do
    let n ← integer env.res i
    match lhs with
    | .arr old =>
      let (xs, cur1) ← parseFor (parseBase env base) n.toNat 0 old cur
      pure (.arr xs, cur1)
    | _ => .nocode
  | some (.IDRef r) => do
    let x ← ref env.ctxs (some recv) r
    if goInt x < 0 then .panic
    else do
      let size := (goInt x).toNat
      let (xs, cur1) ← parseFor (parseBase env base) size 0 (List.replicate size (zeroBase base)) cur
      pure (.arr xs, cur1)
  | some (.Leftover num) =>
    constrained env recv (.Leftover num)
      (fun region => do
        let (xs, cur1) ← parseLoop (parseBase env base) env.loopFuel [] region
        pure (.arr xs, cur1)) cur
  | none => do
    let (xs, cur1) ← parseLoop (parseBase env base) env.loopFuel [] cur
    pure (.arr xs, cur1)

/-- Code of `parseType` for the variable `lhs`. -/
def parseType (env : ParseEnv) (recv : StructVal) (lhs : Val) (t : Tipe) (cur : List Byte) :
    Outcome (Val × List Byte) :=
  match t with
  | .NulTermString =>
    match indexByte0 cur with
    | none => .error .nulTermString
    | some i => .ok (.str (cur.take i), cur.drop (i + 1))
  | .IntType t => parseIntType env.res true t cur
  | .CharType => parseIntType env.res true U8 cur
  | .Ptr => .ok (.ptr ((env.dataLen : Int) - (cur.length : Int)), cur)
  | .StructRef n => parseStructRef env true n cur
  | .FixedArrayMember b size => parseArray env recv lhs b (some (.Integer size)) cur
  | .VarArrayMember b c => parseArray env recv lhs b c cur

/-- Index of the first case condition that holds. -/
def firstTrue : List (Option Bool) → Option Nat
  | [] => none
  | some true :: _ => some 0
  | _ :: bs => (firstTrue bs).map (· + 1)

/-- Index of the first default case. -/
def firstDefault : List (Option Bool) → Option Nat
  | [] => none
  | none :: _ => some 0
  | _ :: bs => (firstDefault bs).map (· + 1)

/-- Truth values of the case conditions of a printed `switch`, `none` for `default:`; the
outer `none` when a condition cannot be printed. -/
def caseConds (res : Resolver) (x : Nat) : List UnionCase → Option (List (Option Bool))
  | [] => some []
  | c :: cs =>
    match c.Case, caseConds res x cs with
    | none, some bs => some (none :: bs)
    | some l, some bs => (conditional res x l).map fun b => some b :: bs
    | _, none => none

/-- Case body that the printed expressionless Go `switch` runs when the tag holds `x`: the
first case, top to bottom, whose condition is true; when there is none, the `default:`
case wherever it stands; a second `default:` does not compile. -/
def switchCase (res : Resolver) (x : Nat) (cases : List UnionCase) : Outcome (Option Nat) :=
  match caseConds res x cases with
  | none => .nocode
  | some bs =>
    if bs.count none > 1 then .nocode
    else
      match firstTrue bs with
      | some i => .ok (some i)
      | none => .ok (firstDefault bs)

/-- The `switch` printed by `parseUnionMember` for a union without length constraint:
the tag is read, and the body of the case that the `switch` selects runs; `body i` is the
code printed for the members of case number `i`. -/
def parseSwitch (env : ParseEnv) (tag : IDRef) (cases : List UnionCase)
    (body : Nat → StructVal × List Byte → Outcome (StructVal × List Byte)) :
    StructVal × List Byte → Outcome (StructVal × List Byte)
  | (recv, cur) => do
    let x ← ref env.ctxs (some recv) tag
    let sel ← switchCase env.res x cases
    match sel with
    | none => pure (recv, cur)
    | some i => body i (recv, cur)

/-- Code of `parseUnionMember`: with a length constraint, the union without it inside
`constrained`. -/
def parseUnionMember (env : ParseEnv) (tag : IDRef) (len : Option LengthConstraint)
    (cases : List UnionCase)
    (body : Nat → StructVal × List Byte → Outcome (StructVal × List Byte)) :
    StructVal × List Byte → Outcome (StructVal × List Byte)
  | (recv, cur) =>
    match len with
    | some c =>
      constrained env recv c (fun region => parseSwitch env tag cases body (recv, region)) cur
    | none => parseSwitch env tag cases body (recv, cur)

mutual
/-- Code of `parseMember` acting on the receiver and the cursor. -/
def parseMember (env : ParseEnv) : Member → StructVal × List Byte → Outcome (StructVal × List Byte)
  | .Field name t, (recv, cur) => do
    let lhs ← readField (some recv) name
    let (v, cur1) ← parseType env recv lhs t cur
    pure (setField recv name v, cur1)
  | .UnionMember _ tag len cases, st =>
    parseUnionMember env tag len cases (fun i st1 => parseCase env cases i st1) st
  | .EOS, (recv, cur) => do
    assertEnd cur
    pure (recv, cur)
  | .Ignore, (recv, _) => pure (recv, [])
  | .Fail, _ => .error .disallowedCase
/-- Code printed by a loop `for _, m := range members { g.parseMember(m) }`. -/
def parseMembers (env : ParseEnv) : List Member → StructVal × List Byte → Outcome (StructVal × List Byte)
  | [], st => pure st
  | m :: ms, st => do
    let st1 ← parseMember env m st
    parseMembers env ms st1
/-- Code printed for the members of case number `i` of a union. -/
def parseCase (env : ParseEnv) : List UnionCase → Nat → StructVal × List Byte → Outcome (StructVal × List Byte)
  | [], _, st => pure st
  | .mk _ ms :: _, 0, st => parseMembers env ms st
  | _ :: cs, i + 1, st => parseCase env cs i st
end

/-- The generated method `Parse` of struct `s` on a fresh receiver: value and remainder.
The fuel bounds the nesting of `Parse` calls and the iterations of each unbounded loop.
The method is computed by itself, from the text that `parse` prints.  The generator prints
`encodeBinary` and `validate` of the struct into the same file, so where one of these has
no runnable code (a length or tag reference with a scope) the file does not compile and
there is no `Parse` to call either, whatever this function returns. -/
def Parse (res : Resolver) : Nat → Struct → List (String × StructVal) → List Byte →
    Outcome (StructVal × List Byte)
  | 0, _, _, _ => .fuel
  | n + 1, s, ctxs, data => do
    let recv ← newStruct res s
    parseMembers ⟨res, ctxs, data.length, n, Parse res n⟩ s.Members (recv, data)

/-- The generated constructor `ParseS` printed by `parseConstructor`. -/
def ParseS (res : Resolver) (fuel : Nat) (s : Struct) (ctxs : List (String × StructVal))
    (data : List Byte) : Outcome StructVal := do
  let (recv, _) ← Parse res fuel s ctxs data
  pure recv

/-! ## Encode: `marshalBinary` and what it calls -/

/-- What the code printed for one `encodeBinary` or `validate` method can see: the resolver
used while printing and the same method of other structs.  There are no context
parameters in these methods. -/
structure MethodEnv (α β : Type) where
  res : Resolver
  callee : Struct → α → Outcome β

/-- The array `recv.name`. -/
def readArr (recv : Option StructVal) (name : String) : Outcome (List Val) :=
  (readField recv name).bind fun v =>
    match v with
    | .arr xs => .ok xs
    | _ => .nocode

/-- Bytes appended by the code of `encodeIntType`: `byte(x)` for one byte, else the
big-endian bytes written by `PutUintN`. -/
def encodeIntType (x : Nat) (t : IntType) : Outcome (List Byte) :=
  if validSize t.Size then .ok (putUint (t.Size / 8) x) else .nocode

/-- Bytes appended by the code of `encodeType` at an array base type for the element
value `v`. -/
def encodeBase (env : MethodEnv (Option StructVal) (List Byte)) (b : ArrayBase) (v : Val) :
    Outcome (List Byte) :=
  match b, v with
  | .IntType t, .int x => encodeIntType x t
  | .CharType, .int x => encodeIntType x U8
  | .StructRef n, .ref p =>
    match env.res.Struct n with
    | none => .nocode
    | some s => env.callee s p
  | _, _ => .nocode

/-- The loop `for idx := i; idx < i + n; idx++ { append element rhs[idx] }`; an index
outside `rhs` panics. -/
def encodeFor (elem : Val → Outcome (List Byte)) (rhs : List Val) : Nat → Nat → Outcome (List Byte)
  | 0, _ => .ok []
  | n + 1, idx =>
    match rhs[idx]? with
    | none => .panic
    | some v => do
      let a ← elem v
      let b ← encodeFor elem rhs n (idx + 1)
      pure (a ++ b)

/-- Bytes appended by the code of `encodeArray` for the array field `name`. -/
def encodeArray (env : MethodEnv (Option StructVal) (List Byte)) (recv : Option StructVal)
    (name : String) (base : ArrayBase) (s : Option LengthConstraint) : Outcome (List Byte) :=
  match s with
  | some (.Integer i) => do
    let n ← integer env.res i
    if n ≤ 0 then pure []
    else do
      let rhs ← readArr recv name
      encodeFor (encodeBase env base) rhs n.toNat 0
  | some (.IDRef r) => do
    let x ← ref [] recv r
    if goInt x ≤ 0 then pure []
    else do
      let rhs ← readArr recv name
      encodeFor (encodeBase env base) rhs (goInt x).toNat 0
  | some (.Leftover _) => do
    let rhs ← readArr recv name
    encodeFor (encodeBase env base) rhs rhs.length 0
  | none => do
    let rhs ← readArr recv name
    encodeFor (encodeBase env base) rhs rhs.length 0

/-- Bytes appended by the code of `encodeType` for the field `name`. -/
def encodeType (env : MethodEnv (Option StructVal) (List Byte)) (recv : Option StructVal)
    (name : String) (t : Tipe) : Outcome (List Byte) :=
  match t with
  | .NulTermString =>
    (readField recv name).bind fun v =>
      match v with
      | .str s => .ok (s ++ [0])
      | _ => .nocode
  | .IntType t =>
    (readField recv name).bind fun v =>
      match v with
      | .int x => encodeIntType x t
      | _ => .nocode
  | .CharType =>
    (readField recv name).bind fun v =>
      match v with
      | .int x => encodeIntType x U8
      | _ => .nocode
  | .Ptr => .ok []
  | .StructRef n => (readField recv name).bind (encodeBase env (.StructRef n))
  | .FixedArrayMember b size => encodeArray env recv name b (some (.Integer size))
  | .VarArrayMember b c => encodeArray env recv name b c

/-- Bytes appended by the code of `encodeUnionMember`: the tag is read, and the body of
the case that the `switch` selects runs; `body i` is the code printed for the members of
case number `i`.  A length constraint of the union plays no part. -/
def encodeUnionMember (env : MethodEnv (Option StructVal) (List Byte)) (recv : Option StructVal)
    (tag : IDRef) (cases : List UnionCase) (body : Nat → Outcome (List Byte)) :
    Outcome (List Byte) := do
  let x ← ref [] recv tag
  let sel ← switchCase env.res x cases
  match sel with
  | none => pure []
  | some i => body i

mutual
/-- Bytes appended by the code of `encodeMember`. -/
def encodeMember (env : MethodEnv (Option StructVal) (List Byte)) (recv : Option StructVal) :
    Member → Outcome (List Byte)
  | .Field name t => encodeType env recv name t
  | .UnionMember _ tag _ cases =>
    encodeUnionMember env recv tag cases (fun i => encodeCase env recv cases i)
  | .EOS => pure []
  | .Ignore => pure []
  | .Fail => pure []
/-- Bytes appended by a loop `for _, m := range members { g.encodeMember(m) }`. -/
def encodeMembers (env : MethodEnv (Option StructVal) (List Byte)) (recv : Option StructVal) :
    List Member → Outcome (List Byte)
  | [] => pure []
  | m :: ms => do
    let a ← encodeMember env recv m
    let b ← encodeMembers env recv ms
    pure (a ++ b)
/-- Bytes appended by the code printed for the members of case number `i` of a union. -/
def encodeCase (env : MethodEnv (Option StructVal) (List Byte)) (recv : Option StructVal) :
    List UnionCase → Nat → Outcome (List Byte)
  | [], _ => pure []
  | .mk _ ms :: _, 0 => encodeMembers env recv ms
  | _ :: cs, i + 1 => encodeCase env recv cs i
end

/-- The generated method `encodeBinary` of struct `s` on the receiver `recv` (nil when
`none`): the bytes of `buf` at its return. -/
def encodeBinary (res : Resolver) : Nat → Struct → Option StructVal → Outcome (List Byte)
  | 0, _, _ => .fuel
  | n + 1, s, recv => encodeMembers ⟨res, encodeBinary res n⟩ recv s.Members

/-! ## Validate -/

/-- Code of `validateIntType`; `rhs` is the evaluation of the expression it tests, which
is printed only when a constraint is declared. -/
def validateIntType (res : Resolver) (rhs : Outcome Val) (t : IntType) : Outcome Unit :=
  match t.Constraint with
  | none => .ok ()
  | some c =>
    rhs.bind fun v =>
      match v with
      | .int x => checkConstraint res x (some c)
      | _ => .nocode

/-- Code of the `StructRef` case of `validateType`: a nil reference is skipped. -/
def validateStructRef (env : MethodEnv StructVal Unit) (rhs : Outcome Val) (n : String) :
    Outcome Unit :=
  rhs.bind fun v =>
    match v with
    | .ref none => .ok ()
    | .ref (some p) =>
      match env.res.Struct n with
      | none => .nocode
      | some s => env.callee s p
    | _ => .nocode

/-- Code of `validateType` at an array base type for the element value `v`. -/
def validateBase (env : MethodEnv StructVal Unit) (b : ArrayBase) (v : Val) : Outcome Unit :=
  match b with
  | .IntType t => validateIntType env.res (.ok v) t
  | .CharType => .ok ()
  | .StructRef n => validateStructRef env (.ok v) n

/-- The loop `for idx := 0; idx < len(rhs); idx++ { validate element rhs[idx] }`. -/
def validateElems (elem : Val → Outcome Unit) : List Val → Outcome Unit
  | [] => .ok ()
  | v :: vs => do
    elem v
    validateElems elem vs

/-- The check `if len(rhs) != n return error "array length constraint violated"`. -/
def checkLength (rhs : List Val) (n : Int) : Outcome Unit :=
  if (rhs.length : Int) ≠ n then .error .arrayLength else .ok ()

/-- The length `expectedSize` that `validateArray` compares `len(rhs)` with: the constant,
or `int(...)` of the referenced field; none for a Leftover or unbounded array. -/
def expectedSize (res : Resolver) (recv : StructVal) : Option LengthConstraint → Outcome (Option Int)
  | some (.Integer i) => (integer res i).bind fun n => .ok (some n)
  | some (.IDRef r) => (ref [] (some recv) r).bind fun x => .ok (some (goInt x))
  | some (.Leftover _) => .ok none
  | none => .ok none

/-- Code of `validateArray` for the array field `name`. -/
def validateArray (env : MethodEnv StructVal Unit) (recv : StructVal) (name : String)
    (base : ArrayBase) (s : Option LengthConstraint) : Outcome Unit := do
  let rhs ← readArr (some recv) name
  let size ← expectedSize env.res recv s
  (match size with
    | some n => checkLength rhs n
    | none => pure ())
  validateElems (validateBase env base) rhs

/-- Code of `validateType` for the field `name`. -/
def validateType (env : MethodEnv StructVal Unit) (recv : StructVal) (name : String)
    (t : Tipe) : Outcome Unit :=
  match t with
  | .IntType t => validateIntType env.res (readField (some recv) name) t
  | .StructRef n => validateStructRef env (readField (some recv) name) n
  | .FixedArrayMember b size => validateArray env recv name b (some (.Integer size))
  | .VarArrayMember b c => validateArray env recv name b c
  | .NulTermString => .ok ()
  | .CharType => .ok ()
  | .Ptr => .ok ()

/-- Code of `validateUnionMember`: the tag is read, and the body of the case that the
`switch` selects runs; `body i` is the code printed for the members of case number `i`. -/
def validateUnionMember (env : MethodEnv StructVal Unit) (recv : StructVal) (tag : IDRef)
    (cases : List UnionCase) (body : Nat → Outcome Unit) : Outcome Unit := do
  let x ← ref [] (some recv) tag
  let sel ← switchCase env.res x cases
  match sel with
  | none => pure ()
  | some i => body i

mutual
/-- Code of `validateMember`. -/
def validateMember (env : MethodEnv StructVal Unit) (recv : StructVal) : Member → Outcome Unit
  | .Field name t => validateType env recv name t
  | .UnionMember _ tag _ cases =>
    validateUnionMember env recv tag cases (fun i => validateCase env recv cases i)
  | .EOS => pure ()
  | .Ignore => pure ()
  | .Fail => pure ()
/-- Code printed by a loop `for _, m := range members { g.validateMember(m) }`. -/
def validateMembers (env : MethodEnv StructVal Unit) (recv : StructVal) : List Member → Outcome Unit
  | [] => pure ()
  | m :: ms => do
    validateMember env recv m
    validateMembers env recv ms
/-- Code printed for the members of case number `i` of a union. -/
def validateCase (env : MethodEnv StructVal Unit) (recv : StructVal) :
    List UnionCase → Nat → Outcome Unit
  | [], _ => pure ()
  | .mk _ ms :: _, 0 => validateMembers env recv ms
  | _ :: cs, i + 1 => validateCase env recv cs i
end

/-- The generated method `validate` of struct `s` on a non-nil receiver. -/
def validate (res : Resolver) : Nat → Struct → StructVal → Outcome Unit
  | 0, _, _ => .fuel
  | n + 1, s, recv => validateMembers ⟨res, validate res n⟩ recv s.Members

/-- The generated method `MarshalBinary`: `validate`, whose error is returned with nil
bytes, then `encodeBinary`. -/
def MarshalBinary (res : Resolver) (fuel : Nat) (s : Struct) (recv : StructVal) :
    Outcome (List Byte) :=
  match validate res fuel s recv with
  | .ok _ => encodeBinary res fuel s (some recv)
  | .error e => .error e
  | .panic => .panic
  | .nocode => .nocode
  | .fuel => .fuel

/-! ## Example formats

The formats exercised by the tests of the repository, written with the Go names of the
generated fields, and small formats used as concrete inputs below. -/

/-- Literal integer of a format description. -/
def lit (n : Int) : Integer := .IntegerLiteral n

/-- Unconstrained integer type of the given width. -/
def uint (size : Nat) : IntType := ⟨size, none⟩

/-- Unscoped reference to a field of the receiver. -/
def field (name : String) : IDRef := ⟨"", name⟩

/-- Format of `TestSimpleArrayRoundTrip`: `u8 count; u8 data[count];`. -/
def SimpleArray : Struct :=
  ⟨"SimpleArray", [],
    [.Field "Count" (.IntType (uint 8)),
     .Field "Data" (.VarArrayMember (.IntType (uint 8)) (some (.IDRef (field "Count"))))]⟩

/-- Cases of the union of the union tests: 1, 2, 3 and `default: fail`. -/
def packetCases : List UnionCase :=
  [.mk (some ⟨[⟨lit 1, none⟩]⟩) [.Field "ByteData" (.IntType (uint 8))],
   .mk (some ⟨[⟨lit 2, none⟩]⟩) [.Field "WordData" (.IntType (uint 16))],
   .mk (some ⟨[⟨lit 3, none⟩]⟩) [.Field "StringData" .NulTermString],
   .mk none [.Fail]]

/-- Format of the union tests: `u8 type; union data[type]` with the cases `packetCases`. -/
def Packet : Struct :=
  ⟨"Packet", [],
    [.Field "Type" (.IntType (uint 8)), .UnionMember "Data" (field "Type") none packetCases]⟩

/-- Format of the nested tests: `u8 value; u16 number;`. -/
def Inner : Struct :=
  ⟨"Inner", [], [.Field "Value" (.IntType (uint 8)), .Field "Number" (.IntType (uint 16))]⟩

/-- Format of the nested tests: `u8 tag; struct inner data; u8 count; struct inner
items[count];`. -/
def Outer : Struct :=
  ⟨"Outer", [],
    [.Field "Tag" (.IntType (uint 8)),
     .Field "Data" (.StructRef "Inner"),
     .Field "Count" (.IntType (uint 8)),
     .Field "Items" (.VarArrayMember (.StructRef "Inner") (some (.IDRef (field "Count"))))]⟩

/-- Format of `TestSocks5ClientVersionRoundTrip`: `u8 version IN [5]; u8 n_methods;
u8 methods[n_methods];`. -/
def Socks5ClientVersion : Struct :=
  ⟨"Socks5ClientVersion", [],
    [.Field "Version" (.IntType ⟨8, some ⟨[⟨lit 5, none⟩]⟩⟩),
     .Field "NMethods" (.IntType (uint 8)),
     .Field "Methods" (.VarArrayMember (.IntType (uint 8)) (some (.IDRef (field "NMethods"))))]⟩

/-- The single case `1: u8 a;`. -/
def oneCase : List UnionCase :=
  [.mk (some ⟨[⟨lit 1, none⟩]⟩) [.Field "A" (.IntType (uint 8))]]

/-- A union without default case: `u8 tag; union u[tag] { 1: u8 a; }`. -/
def NoDefault : Struct :=
  ⟨"NoDefault", [],
    [.Field "Tag" (.IntType (uint 8)), .UnionMember "U" (field "Tag") none oneCase]⟩

/-- A counted array whose count is 64 bits wide: `u64 n; u8 data[n];`. -/
def Counted64 : Struct :=
  ⟨"Counted64", [],
    [.Field "N" (.IntType (uint 64)),
     .Field "Data" (.VarArrayMember (.IntType (uint 8)) (some (.IDRef (field "N"))))]⟩

/-- A length-delimited union whose length is 64 bits wide: `u8 tag; u64 len;
union u[tag] with length len { 1: u8 a; default: fail; }`. -/
def Region64 : Struct :=
  ⟨"Region64", [],
    [.Field "Tag" (.IntType (uint 8)),
     .Field "Len" (.IntType (uint 64)),
     .UnionMember "U" (field "Tag") (some (.IDRef (field "Len")))
       [.mk (some ⟨[⟨lit 1, none⟩]⟩) [.Field "A" (.IntType (uint 8))],
        .mk none [.Fail]]]⟩

/-- A length-delimited union as in `Region64` with a one byte length. -/
def Region8 : Struct :=
  ⟨"Region8", [],
    [.Field "Tag" (.IntType (uint 8)),
     .Field "Len" (.IntType (uint 8)),
     .UnionMember "U" (field "Tag") (some (.IDRef (field "Len")))
       [.mk (some ⟨[⟨lit 1, none⟩]⟩) [.Field "A" (.IntType (uint 8))],
        .mk none [.Fail]]]⟩

/-- A union with a counted array inside a case: `u8 type; union u[type] { 1: u8 count;
u8 data[count]; 2: u8 other; }`. -/
def CaseArray : Struct :=
  ⟨"CaseArray", [],
    [.Field "Type" (.IntType (uint 8)),
     .UnionMember "U" (field "Type") none
       [.mk (some ⟨[⟨lit 1, none⟩]⟩)
          [.Field "Count" (.IntType (uint 8)),
           .Field "Data" (.VarArrayMember (.IntType (uint 8)) (some (.IDRef (field "Count"))))],
        .mk (some ⟨[⟨lit 2, none⟩]⟩) [.Field "Other" (.IntType (uint 8))]]]⟩

/-- A byte followed by the rest of the input: `u8 tag; u8 rest[];`. -/
def Rest : Struct :=
  ⟨"Rest", [],
    [.Field "Tag" (.IntType (uint 8)),
     .Field "Rest" (.VarArrayMember (.IntType (uint 8)) none)]⟩

/-- The loaded declarations of the examples; there are no named constants. -/
def exampleRes : Resolver :=
  ⟨[SimpleArray, Packet, Inner, Outer, Socks5ClientVersion, NoDefault, Counted64, Region64,
    Region8, CaseArray, Rest], []⟩

/-- Environment of a `Parse` call on two bytes of input with the example declarations. -/
def exampleEnv : ParseEnv := ⟨exampleRes, [], 2, 1, Parse exampleRes 1⟩

/-- The value `{Count: 3, Data: [10, 20, 30]}` of `TestSimpleArrayRoundTrip`. -/
def simpleArray3 : StructVal := [("Count", .int 3), ("Data", .arr [.int 10, .int 20, .int 30])]

/-- The value `{Count: 5, Data: [1, 2, 3]}` of `TestSimpleArrayValidation`. -/
def simpleArrayBad : StructVal := [("Count", .int 5), ("Data", .arr [.int 1, .int 2, .int 3])]

/-- The value of `TestUnionByteDataRoundTrip`: type 1 with the fields of the other cases
set as well. -/
def packetByte : StructVal :=
  [("Type", .int 1), ("ByteData", .int 255), ("WordData", .int 999),
   ("StringData", .str [105, 103, 110, 111, 114, 101, 100])]

/-- What `ParsePacket` returns for the bytes `[1, 255]`. -/
def packetByteParsed : StructVal :=
  [("Type", .int 1), ("ByteData", .int 255), ("WordData", .int 0), ("StringData", .str [])]

/-! ## In-memory values of a generated struct type

The Go type system fixes which values a generated method can receive.  `typed` is that
typing, together with what the printed `validate` and `encodeBinary` need to compile:
constants resolve, references name unsigned fields of the receiver, a `switch` has at most
one default. -/

/-- The condition of a declared constraint can be printed. -/
def constraintOK (res : Resolver) : Option IntegerList → Bool
  | none => true
  | some c => (conditional res 0 c).isSome

/-- The `switch` of a union can be printed and compiles. -/
def switchOK (res : Resolver) (cases : List UnionCase) : Bool :=
  match switchCase res 0 cases with
  | .ok _ => true
  | _ => false

/-- The reference denotes an unsigned field of the receiver. -/
def refOK (recv : StructVal) (r : IDRef) : Bool :=
  match ref [] (some recv) r with
  | .ok _ => true
  | _ => false

/-- The value `v` has the Go type of the array base `b`.  With `nilOK` false a struct
reference must be set. -/
def typedBase (res : Resolver) (nilOK : Bool) (callee : Struct → StructVal → Bool) :
    ArrayBase → Val → Bool
  | .IntType t, .int x => validSize t.Size && decide (x < 2 ^ t.Size) && constraintOK res t.Constraint
  | .CharType, .int x => decide (x < 256)
  | .StructRef n, .ref none => nilOK && (res.Struct n).isSome
  | .StructRef n, .ref (some p) =>
    match res.Struct n with
    | some s => callee s p
    | none => false
  | _, _ => false

/-- The length constraint of an array can be printed and compiles. -/
def lengthOK (res : Resolver) (recv : StructVal) : Option LengthConstraint → Bool
  | none => true
  | some (.Integer i) => (res.Integer i).isSome
  | some (.Leftover i) => (res.Integer i).isSome
  | some (.IDRef r) => refOK recv r

/-- The value `v` has the Go type `tipe(t)`, as a field of the receiver `recv`. -/
def typedVal (res : Resolver) (nilOK : Bool) (callee : Struct → StructVal → Bool)
    (recv : StructVal) : Tipe → Val → Bool
  | .NulTermString, .str _ => true
  | .IntType t, v => typedBase res nilOK callee (.IntType t) v
  | .CharType, v => typedBase res nilOK callee .CharType v
  | .Ptr, .ptr _ => true
  | .StructRef n, v => typedBase res nilOK callee (.StructRef n) v
  | .FixedArrayMember b size, .arr xs =>
    (match res.Integer size with
      | some n => decide ((xs.length : Int) = n)
      | none => false) && xs.all (typedBase res nilOK callee b)
  | .VarArrayMember b c, .arr xs => lengthOK res recv c && xs.all (typedBase res nilOK callee b)
  | _, _ => false

mutual
/-- The receiver has a well-typed field for every field this member declares. -/
def typedMember (res : Resolver) (nilOK : Bool) (callee : Struct → StructVal → Bool)
    (recv : StructVal) : Member → Bool
  | .Field name t =>
    match recv.lookup name with
    | some v => typedVal res nilOK callee recv t v
    | none => false
  | .UnionMember _ tag _ cases =>
    refOK recv tag && switchOK res cases && typedCases res nilOK callee recv cases
  | .EOS => true
  | .Ignore => true
  | .Fail => true
/-- Typing of the fields declared by a list of members. -/
def typedMembers (res : Resolver) (nilOK : Bool) (callee : Struct → StructVal → Bool)
    (recv : StructVal) : List Member → Bool
  | [] => true
  | m :: ms => typedMember res nilOK callee recv m && typedMembers res nilOK callee recv ms
/-- Typing of the fields declared by the cases of a union. -/
def typedCases (res : Resolver) (nilOK : Bool) (callee : Struct → StructVal → Bool)
    (recv : StructVal) : List UnionCase → Bool
  | [] => true
  | .mk _ ms :: cs => typedMembers res nilOK callee recv ms && typedCases res nilOK callee recv cs
end

/-- The value `v` is a value of the Go struct type generated for `s`: it has exactly the
declared fields, under distinct names, each of its type; nested struct values are typed
at a smaller fuel, so that `typed res nilOK fuel s v` bounds the nesting depth of `v` by
`fuel`. -/
def typed (res : Resolver) (nilOK : Bool) : Nat → Struct → StructVal → Bool
  | 0, _, _ => false
  | n + 1, s, v =>
    (match structDecl s.Members with
      | some fs => decide (fs.map Prod.fst = v.map Prod.fst)
      | none => false) &&
    decide (v.map Prod.fst).Nodup &&
    typedMembers res nilOK (typed res nilOK n) v s.Members

/-- The generated function returns to its caller, with a result or with an error. -/
def Outcome.returns {α : Type} : Outcome α → Prop
  | .ok _ => True
  | .error _ => True
  | _ => False

/-- The value `{Version: 4, NMethods: 1, Methods: [0]}` of `TestSocks5ConstraintValidation`. -/
def socks5BadVersion : StructVal :=
  [("Version", .int 4), ("NMethods", .int 1), ("Methods", .arr [.int 0])]

/-- A value of `CaseArray` that selects case 2 while the array of case 1 holds three
elements under the count 5. -/
def caseArrayOther : StructVal :=
  [("Type", .int 2), ("Count", .int 5), ("Data", .arr [.int 1, .int 2, .int 3]),
   ("Other", .int 9)]

/-! ## The plain fragment

Formats whose members are integer and char fields, fixed arrays, arrays counted by an
integer field declared earlier in the same struct, and references to structs without
context parameters; values of such formats in which every struct reference is set. -/

/-- The type is one of the plain fragment; `seen` lists the fields declared before it. -/
def plainType (seen : List String) : Tipe → Bool
  | .IntType _ => true
  | .CharType => true
  | .StructRef _ => true
  | .FixedArrayMember _ _ => true
  | .VarArrayMember _ (some (.IDRef r)) => r.Scope == "" && decide (r.Name ∈ seen)
  | _ => false

/-- All members are fields of plain type. -/
def plainMembers : List String → List Member → Bool
  | _, [] => true
  | seen, .Field name t :: ms => plainType seen t && plainMembers (seen ++ [name]) ms
  | _, _ => false

/-- The value `v` is a value of the plain struct `s` with all struct references set, the
structs of nested values being plain as well; the fuel bounds the nesting depth. -/
def plain (res : Resolver) : Nat → Struct → StructVal → Bool
  | 0, _, _ => false
  | n + 1, s, v =>
    s.Contexts.isEmpty && plainMembers [] s.Members &&
    (match structDecl s.Members with
      | some fs => decide (fs.map Prod.fst = v.map Prod.fst)
      | none => false) &&
    decide (v.map Prod.fst).Nodup &&
    typedMembers res false (plain res n) v s.Members

/-- The value of `TestNestedStructRoundTrip`. -/
def outerValue : StructVal :=
  [("Tag", .int 42),
   ("Data", .ref (some [("Value", .int 10), ("Number", .int 256)])),
   ("Count", .int 2),
   ("Items", .arr [.ref (some [("Value", .int 20), ("Number", .int 512)]),
                   .ref (some [("Value", .int 30), ("Number", .int 1024)])])]

/-- What the round trip needs of the methods of nested structs. -/
def CalleeRoundTrip (tc : Struct → StructVal → Bool) (venv : MethodEnv StructVal Unit)
    (eenv : MethodEnv (Option StructVal) (List Byte)) (penv : ParseEnv) : Prop :=
  ∀ s p, tc s p = true → venv.callee s p = .ok () →
    s.Contexts = [] ∧ ∃ bs, eenv.callee s (some p) = .ok bs ∧
      ∀ rest, penv.callee s [] (bs ++ rest) = .ok (p, rest)

/-- What the rejection of truncated input needs of the methods of nested structs. -/
def CalleeTruncated (tc : Struct → StructVal → Bool) (venv : MethodEnv StructVal Unit)
    (eenv : MethodEnv (Option StructVal) (List Byte)) (penv : ParseEnv) : Prop :=
  ∀ s p bs, tc s p = true → venv.callee s p = .ok () → eenv.callee s (some p) = .ok bs →
    ∀ k, k < bs.length → penv.callee s [] (bs.take k) = .error .dataTooShort

/-- A value of `Rest`: the byte 1 followed by the rest `[2, 3]`. -/
def restValue : StructVal := [("Tag", .int 1), ("Rest", .arr [.int 2, .int 3])]

/-- The value `{Count: c, Data: ds}` of the struct type generated for `SimpleArray`: the
count is a `uint8` and the elements are `uint8`. -/
def simpleArrayValue (c : Byte) (ds : List Byte) : StructVal :=
  [("Count", .int c.val), ("Data", .arr (ds.map fun d => .int d.val))]

/-- Format of the string tests: `u8 type; nulterm text; u8 padding;`. -/
def Message : Struct :=
  ⟨"Message", [],
    [.Field "Type" (.IntType (uint 8)), .Field "Text" .NulTermString,
     .Field "Padding" (.IntType (uint 8))]⟩

/-- The value `{Type: t, Text: text, Padding: p}` of the struct type generated for
`Message`; a Go string holds arbitrary bytes. -/
def messageValue (t : Byte) (text : List Byte) (p : Byte) : StructVal :=
  [("Type", .int t.val), ("Text", .str text), ("Padding", .int p.val)]

/-- The bytes of the text `"Hello"`. -/
def hello : List Byte := [72, 101, 108, 108, 111]

/-- Membership of a value in one entry of a range set, in the words of the specification:
the value equals the singleton, or lies between the two inclusive bounds. -/
def specInRange (res : Resolver) (x : Nat) (r : IntegerRange) : Bool :=
  match r.High with
  | none =>
    match res.Integer r.Low with
    | some lo => decide ((x : Int) = lo)
    | none => false
  | some hi =>
    match res.Integer r.Low, res.Integer hi with
    | some lo, some h => decide (lo ≤ (x : Int) ∧ (x : Int) ≤ h)
    | _, _ => false

/-- A value satisfies a range constraint, in the words of the specification: it is a member
of one of the entries of the set. -/
def specInRangeSet (res : Resolver) (x : Nat) (c : IntegerList) : Bool :=
  c.Ranges.any (specInRange res x)

/-- The constrained type `u8 IN [5]` of the version field of `Socks5ClientVersion`. -/
def versionType : IntType := ⟨8, some ⟨[⟨lit 5, none⟩]⟩⟩

/-- Environment of a `Parse` call on five bytes of input whose unbounded loops may run
eight times. -/
def loopEnv : ParseEnv := ⟨exampleRes, [], 5, 8, Parse exampleRes 0⟩

/-- The members of case number `i` of a union, none when there is no such case. -/
def caseMembers : List UnionCase → Nat → List Member
  | [], _ => []
  | .mk _ ms :: _, 0 => ms
  | _ :: cs, i + 1 => caseMembers cs i

/-- A case matches a discriminant value, in the words of the specification: its range set
contains the value, and a case with no range set is the catch-all default. -/
def specCaseMatches (res : Resolver) (x : Nat) (c : UnionCase) : Bool :=
  match c.Case with
  | none => true
  | some l => specInRangeSet res x l

/-- The case selected for a discriminant value, in the words of the specification: the
first case in declaration order that matches; none when no case matches. -/
def specSelect (res : Resolver) (x : Nat) : List UnionCase → Option Nat
  | [] => none
  | c :: cs => if specCaseMatches res x c then some 0 else (specSelect res x cs).map (· + 1)

/-- The default case of the union, if there is one, is its last case. -/
def defaultLast : List UnionCase → Bool
  | [] => true
  | c :: cs =>
    match cs with
    | [] => true
    | _ :: _ => c.Case.isSome && defaultLast cs

/-- A struct with a constrained field: `u8 version IN [5];`. -/
def Checked : Struct := ⟨"Checked", [], [.Field "Version" (.IntType versionType)]⟩

/-- A reference to `Checked` and a counted array of such references: `struct checked item;
u8 n; struct checked items[n];`. -/
def Holder : Struct :=
  ⟨"Holder", [],
    [.Field "Item" (.StructRef "Checked"),
     .Field "N" (.IntType (uint 8)),
     .Field "Items" (.VarArrayMember (.StructRef "Checked") (some (.IDRef (field "N"))))]⟩

/-- The declarations `Checked` and `Holder`. -/
def holderRes : Resolver := ⟨[Checked, Holder], []⟩

/-- A value of `Holder` whose reference is unset and whose array holds an unset reference,
a valid element and an element that violates the constraint of `Checked`. -/
def holderValue : StructVal :=
  [("Item", .ref none), ("N", .int 3),
   ("Items", .arr [.ref none, .ref (some [("Version", .int 5)]),
                   .ref (some [("Version", .int 4)])])]

/-- A value of `Packet` that selects case 2. -/
def packetWord : StructVal :=
  [("Type", .int 2), ("ByteData", .int 0), ("WordData", .int 4660), ("StringData", .str [])]

/-- A position marker inside a length-delimited union: `u8 tag; u8 len; union u[tag] with
length len { 1: u8 a; @ptr pos; u8 b; }; u8 end;`. -/
def Marked : Struct :=
  ⟨"Marked", [],
    [.Field "Tag" (.IntType (uint 8)),
     .Field "Len" (.IntType (uint 8)),
     .UnionMember "U" (field "Tag") (some (.IDRef (field "Len")))
       [.mk (some ⟨[⟨lit 1, none⟩]⟩)
          [.Field "A" (.IntType (uint 8)), .Field "Pos" .Ptr, .Field "B" (.IntType (uint 8))]],
     .Field "End" (.IntType (uint 8))]⟩

/-- The format `Marked` without the length constraint on its union. -/
def MarkedFree : Struct :=
  ⟨"MarkedFree", [],
    [.Field "Tag" (.IntType (uint 8)),
     .Field "Len" (.IntType (uint 8)),
     .UnionMember "U" (field "Tag") none
       [.mk (some ⟨[⟨lit 1, none⟩]⟩)
          [.Field "A" (.IntType (uint 8)), .Field "Pos" .Ptr, .Field "B" (.IntType (uint 8))]],
     .Field "End" (.IntType (uint 8))]⟩

/-- The value decoded from `[1, 2, 7, 8, 9]` with the marker holding `pos`. -/
def markedValue (pos : Int) : StructVal :=
  [("Tag", .int 1), ("Len", .int 2), ("A", .int 7), ("Pos", .ptr pos), ("B", .int 8),
   ("End", .int 9)]

/-- Fields of the receiver that the code of `encodeType` reads for the field `name`: the
field itself and, for an array counted by a field, that field too. -/
def selectedNamesType (name : String) : Tipe → List String
  | .VarArrayMember _ (some (.IDRef r)) => [name, r.Name]
  | _ => [name]

mutual
/-- Fields that belong to the selected part of the value `recv` at this member: a field
outside any union, or the discriminant of a union and the fields of the case that the
`switch` selects for the value of the discriminant in `recv`. -/
def selectedNamesMember (res : Resolver) (recv : StructVal) : Member → List String
  | .Field name t => selectedNamesType name t
  | .UnionMember _ tag _ cases =>
    tag.Name ::
      (match ref [] (some recv) tag with
        | .ok x =>
          (match switchCase res x cases with
            | .ok (some i) => selectedNamesCase res recv cases i
            | _ => [])
        | _ => [])
  | .EOS => []
  | .Ignore => []
  | .Fail => []
/-- Selected fields of a list of members. -/
def selectedNamesMembers (res : Resolver) (recv : StructVal) : List Member → List String
  | [] => []
  | m :: ms => selectedNamesMember res recv m ++ selectedNamesMembers res recv ms
/-- Selected fields of case number `i` of a union. -/
def selectedNamesCase (res : Resolver) (recv : StructVal) : List UnionCase → Nat → List String
  | [], _ => []
  | .mk _ ms :: _, 0 => selectedNamesMembers res recv ms
  | _ :: cs, i + 1 => selectedNamesCase res recv cs i
end

mutual
/-- The fields that decode assigns for the value `v` at this member, when they are plain:
a field of plain type under a name not met before, or the fields of the selected case of
a union without length constraint whose discriminant is a field met before.  The result is
`none` when the selected part holds anything else. -/
def pathMember (res : Resolver) (v : StructVal) : List String → Member →
    Option (List (String × Tipe))
  | seen, .Field name t =>
    if plainType seen t && decide (name ∉ seen) then some [(name, t)] else none
  | seen, .UnionMember _ tag len cases =>
    match len with
    | some _ => none
    | none =>
      if tag.Scope == "" && decide (tag.Name ∈ seen) then
        match ref [] (some v) tag with
        | .ok x =>
          (match switchCase res x cases with
            | .ok (some i) => pathCase res v seen cases i
            | .ok none => some []
            | _ => none)
        | _ => none
      else none
  | _, .EOS => none
  | _, .Ignore => none
  | _, .Fail => none
/-- The plain selected fields of a list of members, in decode order. -/
def pathMembers (res : Resolver) (v : StructVal) : List String → List Member →
    Option (List (String × Tipe))
  | _, [] => some []
  | seen, m :: ms =>
    match pathMember res v seen m with
    | none => none
    | some a =>
      match pathMembers res v (seen ++ a.map Prod.fst) ms with
      | none => none
      | some b => some (a ++ b)
/-- The plain selected fields of case number `i` of a union. -/
def pathCase (res : Resolver) (v : StructVal) : List String → List UnionCase → Nat →
    Option (List (String × Tipe))
  | _, [], _ => some []
  | seen, .mk _ ms :: _, 0 => pathMembers res v seen ms
  | seen, _ :: cs, i + 1 => pathCase res v seen cs i
end

/-- Every listed field of the value `v` has its Go type, struct references being set. -/
def typedFields (res : Resolver) (callee : Struct → StructVal → Bool) (v : StructVal) :
    List (String × Tipe) → Bool
  | [] => true
  | (name, t) :: fs =>
    (match v.lookup name with
      | some x => typedVal res false callee v t x
      | none => false) && typedFields res callee v fs

/-- The value `v` is a value of the struct `s` without context parameters whose selected
part is plain: outside unions and in the selected case of every union (none of which has
a length constraint) there are only fields of the plain fragment, all of their Go types,
with struct references set to plain values; the struct type has a zero value (the sizes of
its fixed arrays resolve); the fuel bounds the nesting depth. -/
def selectedPlain (res : Resolver) : Nat → Struct → StructVal → Bool
  | 0, _, _ => false
  | n + 1, s, v =>
    s.Contexts.isEmpty &&
    (match structDecl s.Members with
      | some fs => decide (fs.map Prod.fst = v.map Prod.fst) && (zeroFields res fs).isSome
      | none => false) &&
    decide (v.map Prod.fst).Nodup &&
    (match pathMembers res v [] s.Members with
      | some fs => typedFields res (plain res n) v fs
      | none => false)

/-- Two values agree on the listed fields. -/
def agreeOn (names : List String) (v w : StructVal) : Prop :=
  ∀ n ∈ names, v.lookup n = w.lookup n

/-- A value of `Packet` with the discriminant 4, which only `default: fail` matches. -/
def packetOther : StructVal :=
  [("Type", .int 4), ("ByteData", .int 0), ("WordData", .int 0), ("StringData", .str [])]

/-- An array in one case counted by a field of another case: `u8 tag; union u[tag] {
1: u8 n; 2: u8 data[n]; }`. -/
def CaseCount : Struct :=
  ⟨"CaseCount", [],
    [.Field "Tag" (.IntType (uint 8)),
     .UnionMember "U" (field "Tag") none
       [.mk (some ⟨[⟨lit 1, none⟩]⟩) [.Field "N" (.IntType (uint 8))],
        .mk (some ⟨[⟨lit 2, none⟩]⟩)
          [.Field "Data" (.VarArrayMember (.IntType (uint 8)) (some (.IDRef (field "N"))))]]]⟩

/-- The value `{Tag: 2, N: n, Data: [7, 8]}` of `CaseCount`, which selects case 2. -/
def caseCountValue (n : Nat) : StructVal :=
  [("Tag", .int 2), ("N", .int n), ("Data", .arr [.int 7, .int 8])]

/-- Format of `TestFixedArrayRoundTrip`: `u8 values[4]; u16 numbers[3];`. -/
def FixedArray : Struct :=
  ⟨"FixedArray", [],
    [.Field "Values" (.FixedArrayMember (.IntType (uint 8)) (lit 4)),
     .Field "Numbers" (.FixedArrayMember (.IntType (uint 16)) (lit 3))]⟩

/-- The value of `TestFixedArrayRoundTrip`. -/
def fixedArrayValue : StructVal :=
  [("Values", .arr [.int 1, .int 2, .int 3, .int 4]),
   ("Numbers", .arr [.int 256, .int 512, .int 1024])]

/-- The value `{Version: 5, NMethods: 2, Methods: [0, 2]}` of `Socks5ClientVersion`. -/
def socks5Value : StructVal :=
  [("Version", .int 5), ("NMethods", .int 2), ("Methods", .arr [.int 0, .int 2])]

/-- The encodings of the elements of a sequence, one after the other, in the words of the
specification: each element of the in-memory sequence is appended in order. -/
def specEncodeAll (elem : Val → Outcome (List Byte)) : List Val → Outcome (List Byte)
  | [] => .ok []
  | v :: vs => do
    let a ← elem v
    let b ← specEncodeAll elem vs
    pure (a ++ b)

/-- The value `{Count: 2, Data: [10, 20, 30]}` of `SimpleArray`: three elements under the
count 2. -/
def simpleArrayShort : StructVal := [("Count", .int 2), ("Data", .arr [.int 10, .int 20, .int 30])]

/-- The member is not `Fail`. -/
def notFail : Member → Bool
  | .Fail => false
  | _ => true

/-- The range set `[1, 4..9]`: a singleton and an inclusive range. -/
def rangeList : IntegerList := ⟨[⟨lit 1, none⟩, ⟨lit 4, some (lit 9)⟩]⟩

/-- A struct with no members, `struct hollow {}`: its `Parse` consumes no byte. -/
def Hollow : Struct := ⟨"Hollow", [], []⟩

/-- An unbounded array of such structs, `struct hollows { struct hollow items[]; }`. -/
def Hollows : Struct :=
  ⟨"Hollows", [], [.Field "Items" (.VarArrayMember (.StructRef "Hollow") none)]⟩

/-- The resolver of a file that declares `Hollow` and `Hollows`. -/
def hollowRes : Resolver := ⟨[Hollow, Hollows], []⟩

/-! ## The generator itself: where printing panics

The run of the generator on a format description, as far as its own control flow goes:
every printing function `g.f` becomes a function `genF` that tells whether `g.f` runs to
completion or panics, in the order in which the source evaluates.  What is printed is the
subject of the definitions above. -/

/-- The panics of the generator. -/
inductive GenPanic where
  /-- The statement `panic("struct not found")` of `parseType`. -/
  | structNotFound
  /-- The statement `panic(err)` of `integer`, for an integer that does not resolve. -/
  | integer
  /-- A statement `panic(unexpected(x))` in the default branch of a type switch. -/
  | unexpected
  /-- The slice `s.Name[:1]` of `structure`, out of range for an empty name. -/
  | sliceBounds
  deriving DecidableEq

/-- A piece of the generator runs to completion or panics. -/
abbrev Gen := Except GenPanic Unit

/-- Run of `g.integer(i)`. -/
def genInteger (res : Resolver) (i : Integer) : Gen :=
  match res.Integer i with
  | some _ => .ok ()
  | none => .error .integer

/-- Run of the loop of `g.conditional` over the ranges: the low bound, then the high bound
if there is one. -/
def genRanges (res : Resolver) : List IntegerRange → Gen
  | [] => .ok ()
  | r :: rs => do
    genInteger res r.Low
    (match r.High with
      | none => pure ()
      | some hi => genInteger res hi)
    genRanges res rs

/-- Run of `g.conditional(v, c)`. -/
def genConditional (res : Resolver) (c : IntegerList) : Gen :=
  genRanges res c.Ranges

/-- Run of the condition printed for an optional constraint. -/
def genConstraint (res : Resolver) : Option IntegerList → Gen
  | none => .ok ()
  | some c => genConditional res c

/-- Run of `g.tipe(t)`: only the size of a fixed array is evaluated. -/
def genTipe (res : Resolver) : Tipe → Gen
  | .FixedArrayMember _ size => genInteger res size
  | _ => .ok ()

mutual
/-- Run of `g.structMemberDecl(m)`. -/
def genStructMemberDecl (res : Resolver) : Member → Gen
  | .Field _ t => genTipe res t
  | .UnionMember _ _ _ cases => genStructUnionMemberDecl res cases
  | .EOS => .ok ()
  | .Ignore => .error .unexpected
  | .Fail => .error .unexpected
/-- Run of `g.structUnionMemberDecl(m)`, the loop over the cases. -/
def genStructUnionMemberDecl (res : Resolver) : List UnionCase → Gen
  | [] => .ok ()
  | .mk _ ms :: cs => do
    genCaseDecl res ms
    genStructUnionMemberDecl res cs
/-- Inner loop of `g.structUnionMemberDecl` over the members of one case. -/
def genCaseDecl (res : Resolver) : List Member → Gen
  | [] => .ok ()
  | f :: fs =>
    match f with
    | .Fail => genCaseDecl res fs
    | .Ignore => genCaseDecl res fs
    | f => do
      genStructMemberDecl res f
      genCaseDecl res fs
end

/-- Run of a loop `for _, m := range members { g.structMemberDecl(m) }`, as in
`g.structDecl` and `g.context`. -/
def genStructDecl (res : Resolver) : List Member → Gen
  | [] => .ok ()
  | m :: ms => do
    genStructMemberDecl res m
    genStructDecl res ms

/-- Run of `g.parseType` at an array base type: an integer type prints its constraint, a
struct reference is looked up in the resolver. -/
def genParseBase (res : Resolver) : ArrayBase → Gen
  | .IntType t => genConstraint res t.Constraint
  | .CharType => .ok ()
  | .StructRef n =>
    match res.Struct n with
    | some _ => .ok ()
    | none => .error .structNotFound

/-- Run of `g.constrained(c, f)` up to the call of `f`. -/
def genConstrained (res : Resolver) : LengthConstraint → Gen
  | .Leftover num => do
    genInteger res num
    genInteger res num
  | .IDRef _ => .ok ()
  | .Integer _ => .error .unexpected

/-- Run of `g.parseArray(lhs, base, s)`. -/
def genParseArray (res : Resolver) (base : ArrayBase) : Option LengthConstraint → Gen
  | some (.Integer i) => do
    genInteger res i
    genParseBase res base
  | some (.IDRef _) => genParseBase res base
  | some (.Leftover num) => do
    genConstrained res (.Leftover num)
    genParseBase res base
  | none => genParseBase res base

/-- Run of `g.parseType(lhs, t)`. -/
def genParseType (res : Resolver) : Tipe → Gen
  | .NulTermString => .ok ()
  | .IntType t => genConstraint res t.Constraint
  | .CharType => .ok ()
  | .Ptr => .ok ()
  | .StructRef n => genParseBase res (.StructRef n)
  | .FixedArrayMember b size => genParseArray res b (some (.Integer size))
  | .VarArrayMember b c => genParseArray res b c

mutual
/-- Run of `g.parseMember(m)`. -/
def genParseMember (res : Resolver) : Member → Gen
  | .Field _ t => genParseType res t
  | .UnionMember _ _ len cases => do
    (match len with
      | none => pure ()
      | some c => genConstrained res c)
    genParseCases res cases
  | .EOS => .ok ()
  | .Ignore => .ok ()
  | .Fail => .ok ()
/-- Run of a loop `for _, m := range members { g.parseMember(m) }`. -/
def genParseMembers (res : Resolver) : List Member → Gen
  | [] => .ok ()
  | m :: ms => do
    genParseMember res m
    genParseMembers res ms
/-- Run of the loop of `g.parseUnionMember` over the cases: the condition of the case,
then its members. -/
def genParseCases (res : Resolver) : List UnionCase → Gen
  | [] => .ok ()
  | .mk c ms :: cs => do
    genConstraint res c
    genParseMembers res ms
    genParseCases res cs
end

/-- Run of `g.encodeType(rhs, t)`: only the constant length of an array is evaluated; a
struct reference is not looked up. -/
def genEncodeType (res : Resolver) : Tipe → Gen
  | .FixedArrayMember _ size => genInteger res size
  | .VarArrayMember _ (some (.Integer i)) => genInteger res i
  | _ => .ok ()

mutual
/-- Run of `g.encodeMember(m)`. -/
def genEncodeMember (res : Resolver) : Member → Gen
  | .Field _ t => genEncodeType res t
  | .UnionMember _ _ _ cases => genEncodeCases res cases
  | .EOS => .ok ()
  | .Ignore => .ok ()
  | .Fail => .ok ()
/-- Run of a loop `for _, m := range members { g.encodeMember(m) }`. -/
def genEncodeMembers (res : Resolver) : List Member → Gen
  | [] => .ok ()
  | m :: ms => do
    genEncodeMember res m
    genEncodeMembers res ms
/-- Run of the loop of `g.encodeUnionMember` over the cases. -/
def genEncodeCases (res : Resolver) : List UnionCase → Gen
  | [] => .ok ()
  | .mk c ms :: cs => do
    genConstraint res c
    genEncodeMembers res ms
    genEncodeCases res cs
end

/-- Run of `g.validateType` at an array base type. -/
def genValidateBase (res : Resolver) : ArrayBase → Gen
  | .IntType t => genConstraint res t.Constraint
  | _ => .ok ()

/-- Run of `g.validateArray(rhs, base, s)`. -/
def genValidateArray (res : Resolver) (base : ArrayBase) : Option LengthConstraint → Gen
  | some (.Integer i) => do
    genInteger res i
    genValidateBase res base
  | _ => genValidateBase res base

/-- Run of `g.validateType(rhs, t)`. -/
def genValidateType (res : Resolver) : Tipe → Gen
  | .IntType t => genConstraint res t.Constraint
  | .FixedArrayMember b size => genValidateArray res b (some (.Integer size))
  | .VarArrayMember b c => genValidateArray res b c
  | _ => .ok ()

mutual
/-- Run of `g.validateMember(m)`. -/
def genValidateMember (res : Resolver) : Member → Gen
  | .Field _ t => genValidateType res t
  | .UnionMember _ _ _ cases => genValidateCases res cases
  | .EOS => .ok ()
  | .Ignore => .ok ()
  | .Fail => .ok ()
/-- Run of a loop `for _, m := range members { g.validateMember(m) }`. -/
def genValidateMembers (res : Resolver) : List Member → Gen
  | [] => .ok ()
  | m :: ms => do
    genValidateMember res m
    genValidateMembers res ms
/-- Run of the loop of `g.validateUnionMember` over the cases. -/
def genValidateCases (res : Resolver) : List UnionCase → Gen
  | [] => .ok ()
  | .mk c ms :: cs => do
    genConstraint res c
    genValidateMembers res ms
    genValidateCases res cs
end

/-- Run of `g.structure(s)` for a struct that is not extern: `structDecl`, `parse`,
`parseConstructor` (which cannot panic), then `marshalBinary` with its `encodeBinary`
and `validate`. -/
def genStructure (res : Resolver) (s : Struct) : Gen := do
  (if s.Name.isEmpty then .error .sliceBounds else pure ())
  genStructDecl res s.Members
  genParseMembers res s.Members
  genEncodeMembers res s.Members
  genValidateMembers res s.Members

/-- Modelled from the spec: `ast.Context`, a named record of fields. -/
structure Context where
  Name : String
  Members : List Member

/-- Modelled from the spec: `ast.File`, the contexts and structs of one loaded file. -/
structure File where
  Contexts : List Context
  Structs : List Struct

/-- Run of a loop over contexts, `g.context(c)` for each. -/
def genContexts (res : Resolver) : List Context → Gen
  | [] => .ok ()
  | c :: cs => do
    genStructDecl res c.Members
    genContexts res cs

/-- Run of a loop over structs, `g.structure(s)` for each. -/
def genStructs (res : Resolver) : List Struct → Gen
  | [] => .ok ()
  | s :: ss => do
    genStructure res s
    genStructs res ss

/-- Run of the loop of `g.files` over the loaded files, `g.file(f)` for each, once
`g.init` has built the resolver `res`. -/
def genFiles (res : Resolver) : List File → Gen
  | [] => .ok ()
  | f :: fs => do
    genContexts res f.Contexts
    genStructs res f.Structs
    genFiles res fs

/-- What a call of `Marshallers` does. -/
inductive Generated where
  /-- All structs are printed and `Marshallers` returns what `g.imported()` returns for
  the printed text. -/
  | printed
  /-- It returns nil and the error of `g.init`, the only error that `g.files` returns. -/
  | initError
  /-- It does not return: the generator panicked. -/
  | panic (p : GenPanic)
  deriving DecidableEq

/-- The function `Marshallers` on the loaded files, given what `g.init` obtains for them:
the resolver `res`, or none with an error. -/
def Marshallers (res : Option Resolver) (fs : List File) : Generated :=
  match res with
  | none => .initError
  | some r =>
    match genFiles r fs with
    | .ok _ => .printed
    | .error p => .panic p

/-- A struct that refers to a struct that is declared nowhere: `struct missing x;`. -/
def Dangling : Struct := ⟨"Dangling", [], [.Field "X" (.StructRef "Missing")]⟩

/-- The file that declares `Dangling` alone, and its resolver. -/
def danglingFile : File := ⟨[], [Dangling]⟩

/-- The resolver of `danglingFile`: it holds `Dangling` and no constant. -/
def danglingRes : Resolver := ⟨[Dangling], []⟩

/-- A struct with a context parameter that gives the length of its array:
`struct keyed with context ctx { u8 data[ctx.n]; }`. -/
def Keyed : Struct :=
  ⟨"Keyed", ["ctx"], [.Field "Data" (.VarArrayMember (.IntType (uint 8)) (some (.IDRef ⟨"ctx", "N"⟩)))]⟩

/-- A struct without context parameter that refers to `Keyed`:
`struct wrapper { struct keyed k; }`. -/
def Wrapper : Struct := ⟨"Wrapper", [], [.Field "K" (.StructRef "Keyed")]⟩

/-- The file `context ctx { u8 n; }` with the structs `Keyed` and `Wrapper`. -/
def keyedFile : File := ⟨[⟨"ctx", [.Field "N" (.IntType (uint 8))]⟩], [Keyed, Wrapper]⟩

/-- The resolver of `keyedFile`. -/
def keyedRes : Resolver := ⟨[Keyed, Wrapper], []⟩

/-- A value of the context `ctx`. -/
def ctxValue (n : Nat) : StructVal := [("N", .int n)]

/-- Parameters that `contextSignature(names)` appends to a signature: one per name, the
variable `n` of type `name(n)`. -/
def contextSignature (names : List String) : List String := names

/-- Parameter names in the signature that `parse` prints, `Parse(data []byte%s)` with
`contextSignature(s.Contexts)`. -/
def parseParams (s : Struct) : List String := "data" :: contextSignature s.Contexts

/-- Parameter names in the signature that `parseConstructor` prints,
`ParseS(data []byte%s)` with `contextSignature(s.Contexts)`. -/
def parseConstructorParams (s : Struct) : List String := "data" :: contextSignature s.Contexts

/-- Parameter names in the signature `encodeBinary()` that `marshalBinary` prints. -/
def encodeBinaryParams (_ : Struct) : List String := []

/-- Parameter names in the signature `MarshalBinary()` that `marshalBinary` prints. -/
def marshalBinaryParams (_ : Struct) : List String := []

/-- Parameter names in the signature `validate()` that `validate` prints. -/
def validateParams (_ : Struct) : List String := []

/-- The `Parse` methods of other structs return a suffix of their input. -/
def CalleeSuffix (callee : Struct → List (String × StructVal) → List Byte →
    Outcome (StructVal × List Byte)) : Prop :=
  ∀ s args cur v rest, callee s args cur = .ok (v, rest) → rest <:+ cur

/-! ## Well-formed structs

The well-formedness of a struct declaration that the decode-then-validate and
decode-then-encode properties speak of: distinct field names, and every array length and
union tag reference naming a field of the struct itself that is declared earlier. -/

mutual
/-- The fields that a member declares in the generated struct type, wherever it stands:
a field declares itself, a union the fields of all its cases. -/
def fieldsMember : Member → List (String × Tipe)
  | .Field n t => [(n, t)]
  | .UnionMember _ _ _ cases => fieldsCases cases
  | .EOS => []
  | .Ignore => []
  | .Fail => []
/-- The fields that a list of members declares. -/
def fieldsMembers : List Member → List (String × Tipe)
  | [] => []
  | m :: ms => fieldsMember m ++ fieldsMembers ms
/-- The fields that the cases of a union declare. -/
def fieldsCases : List UnionCase → List (String × Tipe)
  | [] => []
  | .mk _ ms :: cs => fieldsMembers ms ++ fieldsCases cs
end

/-- A length or tag reference is well formed after the fields `seen`: it has no scope and
names one of them. -/
def wfRef (seen : List String) (r : IDRef) : Bool :=
  r.Scope == "" && decide (r.Name ∈ seen)

/-- A constant array length is well formed: with the flag `sz` set, it is not negative. -/
def wfSize (res : Resolver) (sz : Bool) (i : Integer) : Bool :=
  match res.Integer i with
  | some n => !sz || decide (0 ≤ n)
  | none => true

/-- A length constraint of an array is well formed after the fields `seen`. -/
def wfLength (res : Resolver) (sz : Bool) (seen : List String) :
    Option LengthConstraint → Bool
  | some (.Integer i) => wfSize res sz i
  | some (.IDRef r) => wfRef seen r
  | _ => true

/-- An element type is well formed: the struct that a struct reference resolves to is
`good`. -/
def wfBase (res : Resolver) (good : Struct → Bool) : ArrayBase → Bool
  | .StructRef n =>
    match res.Struct n with
    | some t => good t
    | none => true
  | _ => true

/-- A field type is well formed after the fields `seen`. -/
def wfType (res : Resolver) (sz : Bool) (good : Struct → Bool) (seen : List String) :
    Tipe → Bool
  | .StructRef n => wfBase res good (.StructRef n)
  | .FixedArrayMember b size => wfBase res good b && wfSize res sz size
  | .VarArrayMember b c => wfBase res good b && wfLength res sz seen c
  | _ => true

mutual
/-- A member is well formed after the fields `seen`: a field has a new name and a well
formed type, a union a well formed tag and well formed cases. -/
def wfMember (res : Resolver) (sz : Bool) (good : Struct → Bool) :
    List String → Member → Bool
  | seen, .Field n t => decide (n ∉ seen) && wfType res sz good seen t
  | seen, .UnionMember _ tag _ cases => wfRef seen tag && wfCases res sz good seen cases
  | _, .EOS => true
  | _, .Ignore => true
  | _, .Fail => true
/-- The members are well formed in their order of declaration. -/
def wfMembers (res : Resolver) (sz : Bool) (good : Struct → Bool) :
    List String → List Member → Bool
  | _, [] => true
  | seen, m :: ms =>
    wfMember res sz good seen m && wfMembers res sz good (seen ++ (fieldsMember m).map Prod.fst) ms
/-- The cases of a union are well formed; the fields of all cases are fields of the one
struct type, so their names differ across cases too. -/
def wfCases (res : Resolver) (sz : Bool) (good : Struct → Bool) :
    List String → List UnionCase → Bool
  | _, [] => true
  | seen, .mk _ ms :: cs =>
    wfMembers res sz good seen ms &&
      wfCases res sz good (seen ++ (fieldsMembers ms).map Prod.fst) cs
end

mutual
/-- The member holds no `Ignore`. -/
def noIgnoreMember : Member → Bool
  | .Ignore => false
  | .UnionMember _ _ _ cases => noIgnoreCases cases
  | _ => true
/-- The members hold no `Ignore`. -/
def noIgnoreMembers : List Member → Bool
  | [] => true
  | m :: ms => noIgnoreMember m && noIgnoreMembers ms
/-- The cases hold no `Ignore`. -/
def noIgnoreCases : List UnionCase → Bool
  | [] => true
  | .mk _ ms :: cs => noIgnoreMembers ms && noIgnoreCases cs
end

/-- The struct `s` is well formed, and so are the structs that its fields refer to,
directly or through other structs, as far as a run of nesting depth `fuel` can reach them.
With the flag `sz` set, their constant array lengths are not negative; with the flag `ni`
set, none of these structs holds an `Ignore` member. -/
def wellFormed (res : Resolver) (sz ni : Bool) : Nat → Struct → Bool
  | 0, _ => true
  | n + 1, s =>
    wfMembers res sz (wellFormed res sz ni n) [] s.Members &&
      (!ni || noIgnoreMembers s.Members)

/-- What decode returns for a `good` struct encodes; where `vok` holds it is valid, and
where `canon` holds the encoding is the consumed bytes: the property of the `Parse`,
`validate` and `encodeBinary` methods of other structs that the methods of one struct rely
on. -/
def CalleeValid (vok canon : Prop) (good : Struct → Bool) (penv : ParseEnv)
    (venv : MethodEnv StructVal Unit) (eenv : MethodEnv (Option StructVal) (List Byte)) : Prop :=
  ∀ s, good s = true → ∀ (args : List (String × StructVal)) (cur : List Byte) (v : StructVal)
    (rest : List Byte), penv.callee s args cur = .ok (v, rest) →
      (vok → venv.callee s v = .ok ()) ∧
        ∃ bs, eenv.callee s (some v) = .ok bs ∧ (canon → bs ++ rest = cur)

/-- A union whose tag is a field of a context:
`struct tagged with context ctx { union u[ctx.n] { 1: u8 a; default: fail; } }`. -/
def Tagged : Struct :=
  ⟨"Tagged", ["ctx"],
    [.UnionMember "U" ⟨"ctx", "N"⟩ none
      [.mk (some ⟨[⟨lit 1, none⟩]⟩) [.Field "A" (.IntType (uint 8))], .mk none [.Fail]]]⟩

/-- The resolver of a file that declares `Tagged`. -/
def taggedRes : Resolver := ⟨[Tagged], []⟩

/-- A struct with an `Ignore` member in a case of its union:
`struct skipper { u8 tag; union u[tag] { 1: ignore; default: u8 a; } }`. -/
def Skipper : Struct :=
  ⟨"Skipper", [],
    [.Field "Tag" (.IntType (uint 8)),
     .UnionMember "U" (field "Tag") none
       [.mk (some ⟨[⟨lit 1, none⟩]⟩) [.Ignore], .mk none [.Field "A" (.IntType (uint 8))]]]⟩

/-- A struct without `Ignore` member that refers to `Skipper`:
`struct carrier { struct skipper s; }`. -/
def Carrier : Struct := ⟨"Carrier", [], [.Field "S" (.StructRef "Skipper")]⟩

/-- The resolver of a file that declares `Skipper` and `Carrier`. -/
def carrierRes : Resolver := ⟨[Skipper, Carrier], []⟩

/-- What `Carrier.Parse` returns for the bytes `[1, 9, 9]`. -/
def carrierParsed : StructVal := [("S", .ref (some [("Tag", .int 1), ("A", .int 0)]))]

/-- The bytes of `outerValue`. -/
def outerBytes : List Byte := [42, 10, 1, 0, 2, 20, 2, 0, 30, 4, 0]

/-- A union whose region length is a field of a context, the one place where decode alone
reads a reference: `struct bounded with context ctx { u8 tag; union u[tag] with length
ctx.n { 1: u8 a; default: fail; } }`. -/
def Bounded : Struct :=
  ⟨"Bounded", ["ctx"],
    [.Field "Tag" (.IntType (uint 8)),
     .UnionMember "U" (field "Tag") (some (.IDRef ⟨"ctx", "N"⟩))
       [.mk (some ⟨[⟨lit 1, none⟩]⟩) [.Field "A" (.IntType (uint 8))], .mk none [.Fail]]]⟩

/-- The resolver of a file that declares `Bounded`. -/
def boundedRes : Resolver := ⟨[Bounded], []⟩

/-! # Properties of the generated code -/

/-! ## Sequencing lemmas -/

@[simp] theorem bind_eq {α β : Type} (x : Outcome α) (f : α → Outcome β) : (x >>= f) = x.bind f := rfl
@[simp] theorem pure_eq {α : Type} (a : α) : (pure a : Outcome α) = .ok a := rfl
@[simp] theorem ok_bind {α β : Type} (a : α) (f : α → Outcome β) : (Outcome.ok a).bind f = f a := rfl
@[simp] theorem error_bind {α β : Type} (e : Err) (f : α → Outcome β) : (Outcome.error e).bind f = .error e := rfl
@[simp] theorem panic_bind {α β : Type} (f : α → Outcome β) : (Outcome.panic).bind f = .panic := rfl
@[simp] theorem nocode_bind {α β : Type} (f : α → Outcome β) : (Outcome.nocode).bind f = .nocode := rfl
@[simp] theorem fuel_bind {α β : Type} (f : α → Outcome β) : (Outcome.fuel).bind f = .fuel := rfl

theorem bind_eq_error {α β : Type} {x : Outcome α} {f : α → Outcome β} {e : Err}
    (h : x.bind f = .error e) : x = .error e ∨ ∃ a, x = .ok a ∧ f a = .error e := by
  cases x <;> simp_all

theorem bind_eq_ok {α β : Type} {x : Outcome α} {f : α → Outcome β} {b : β}
    (h : x.bind f = .ok b) : ∃ a, x = .ok a ∧ f a = .ok b := by
  cases x <;> simp_all

theorem ofOption_ne_error {α : Type} (o : Option α) (e : Err) : Outcome.ofOption o ≠ .error e := by
  cases o <;> simp [Outcome.ofOption]

theorem readField_ne_error (recv : Option StructVal) (name : String) (e : Err) :
    readField recv name ≠ .error e := by
  unfold readField
  cases recv with
  | none => simp
  | some r => exact ofOption_ne_error _ _

theorem readArr_ne_error (recv : Option StructVal) (name : String) (e : Err) :
    readArr recv name ≠ .error e := by
  unfold readArr
  intro h
  rcases bind_eq_error h with h | ⟨a, _, h⟩
  · exact readField_ne_error _ _ _ h
  · cases a <;> simp at h

theorem integer_ne_error (res : Resolver) (i : Integer) (e : Err) : integer res i ≠ .error e :=
  ofOption_ne_error _ _

theorem encodeIntType_ne_error (x : Nat) (t : IntType) (e : Err) : encodeIntType x t ≠ .error e := by
  unfold encodeIntType; split <;> simp

theorem ref_ne_error (ctxs) (recv : Option StructVal) (r : IDRef) (e : Err) : ref ctxs recv r ≠ .error e := by
  unfold ref
  split
  · intro h
    rcases bind_eq_error h with h | ⟨a, _, h⟩
    · exact readField_ne_error _ _ _ h
    · cases a <;> simp at h
  · split
    · simp
    · split <;> simp

theorem switchCase_ne_error (res : Resolver) (x : Nat) (cases : List UnionCase) (e : Err) :
    switchCase res x cases ≠ .error e := by
  unfold switchCase
  split
  · simp
  · split
    · simp
    · split <;> simp

theorem encodeBase_ne_error (env : MethodEnv (Option StructVal) (List Byte))
    (hc : ∀ s p e, env.callee s p ≠ .error e) (b : ArrayBase) (v : Val) (e : Err) :
    encodeBase env b v ≠ .error e := by
  unfold encodeBase
  split
  · exact encodeIntType_ne_error _ _ _
  · exact encodeIntType_ne_error _ _ _
  · split
    · simp
    · exact hc _ _ _
  · simp

theorem encodeFor_ne_error (elem : Val → Outcome (List Byte)) (he : ∀ v e, elem v ≠ .error e)
    (rhs : List Val) : ∀ (n idx : Nat) (e : Err), encodeFor elem rhs n idx ≠ .error e
  | 0, _, e => by simp [encodeFor]
  | n + 1, idx, e => by
    intro h
    simp only [encodeFor] at h
    split at h
    · simp at h
    · simp only [bind_eq, pure_eq] at h
      rcases bind_eq_error h with h | ⟨a, _, h⟩
      · exact he _ _ h
      · rcases bind_eq_error h with h | ⟨b, _, h⟩
        · exact encodeFor_ne_error elem he rhs n (idx + 1) e h
        · simp at h

theorem encodeArray_ne_error (env : MethodEnv (Option StructVal) (List Byte))
    (hc : ∀ s p e, env.callee s p ≠ .error e) (recv : Option StructVal) (name : String)
    (b : ArrayBase) (s : Option LengthConstraint) (e : Err) :
    encodeArray env recv name b s ≠ .error e := by
  have hf := encodeFor_ne_error (encodeBase env b) (encodeBase_ne_error env hc b)
  intro h
  unfold encodeArray at h
  split at h
  · simp only [bind_eq, pure_eq] at h
    rcases bind_eq_error h with h | ⟨n, _, h⟩
    · exact integer_ne_error _ _ _ h
    · split at h
      · simp at h
      · rcases bind_eq_error h with h | ⟨rhs, _, h⟩
        · exact readArr_ne_error _ _ _ h
        · exact hf _ _ _ _ h
  · simp only [bind_eq, pure_eq] at h
    rcases bind_eq_error h with h | ⟨n, _, h⟩
    · exact ref_ne_error _ _ _ _ h
    · split at h
      · simp at h
      · rcases bind_eq_error h with h | ⟨rhs, _, h⟩
        · exact readArr_ne_error _ _ _ h
        · exact hf _ _ _ _ h
  · simp only [bind_eq, pure_eq] at h
    rcases bind_eq_error h with h | ⟨rhs, _, h⟩
    · exact readArr_ne_error _ _ _ h
    · exact hf _ _ _ _ h
  · simp only [bind_eq, pure_eq] at h
    rcases bind_eq_error h with h | ⟨rhs, _, h⟩
    · exact readArr_ne_error _ _ _ h
    · exact hf _ _ _ _ h

theorem encodeType_ne_error (env : MethodEnv (Option StructVal) (List Byte))
    (hc : ∀ s p e, env.callee s p ≠ .error e) (recv : Option StructVal) (name : String)
    (t : Tipe) (e : Err) : encodeType env recv name t ≠ .error e := by
  intro h
  cases t with
  | NulTermString =>
    rcases bind_eq_error h with h | ⟨a, _, h⟩
    · exact readField_ne_error _ _ _ h
    · cases a <;> simp at h
  | IntType t =>
    rcases bind_eq_error h with h | ⟨a, _, h⟩
    · exact readField_ne_error _ _ _ h
    · cases a <;> simp at h
      exact encodeIntType_ne_error _ _ _ h
  | CharType =>
    rcases bind_eq_error h with h | ⟨a, _, h⟩
    · exact readField_ne_error _ _ _ h
    · cases a <;> simp at h
      exact encodeIntType_ne_error _ _ _ h
  | Ptr => simp [encodeType] at h
  | StructRef n =>
    rcases bind_eq_error h with h | ⟨a, _, h⟩
    · exact readField_ne_error _ _ _ h
    · exact encodeBase_ne_error env hc _ _ _ h
  | FixedArrayMember b size => exact encodeArray_ne_error env hc recv name b (some (.Integer size)) e h
  | VarArrayMember b c => exact encodeArray_ne_error env hc recv name b c e h

mutual
theorem encodeMember_ne_error (env : MethodEnv (Option StructVal) (List Byte)) (recv : Option StructVal)
    (hc : ∀ s p e, env.callee s p ≠ .error e) : ∀ (m : Member) (e : Err), encodeMember env recv m ≠ .error e
  | .Field name t, e => by
    simp only [encodeMember]
    exact encodeType_ne_error env hc _ _ _ _
  | .UnionMember _ tag _ cases, e => by
    intro h
    simp only [encodeMember, encodeUnionMember, bind_eq, pure_eq] at h
    rcases bind_eq_error h with h | ⟨x, _, h⟩
    · exact ref_ne_error _ _ _ _ h
    · rcases bind_eq_error h with h | ⟨sel, _, h⟩
      · exact switchCase_ne_error _ _ _ _ h
      · cases sel with
        | none => simp at h
        | some i => exact encodeCase_ne_error env recv hc cases i e h
  | .EOS, e => by simp [encodeMember]
  | .Ignore, e => by simp [encodeMember]
  | .Fail, e => by simp [encodeMember]
theorem encodeMembers_ne_error (env : MethodEnv (Option StructVal) (List Byte)) (recv : Option StructVal)
    (hc : ∀ s p e, env.callee s p ≠ .error e) : ∀ (ms : List Member) (e : Err), encodeMembers env recv ms ≠ .error e
  | [], e => by simp [encodeMembers]
  | m :: ms, e => by
    intro h
    simp only [encodeMembers, bind_eq, pure_eq] at h
    rcases bind_eq_error h with h | ⟨a, _, h⟩
    · exact encodeMember_ne_error env recv hc m e h
    · rcases bind_eq_error h with h | ⟨b, _, h⟩
      · exact encodeMembers_ne_error env recv hc ms e h
      · simp at h
theorem encodeCase_ne_error (env : MethodEnv (Option StructVal) (List Byte)) (recv : Option StructVal)
    (hc : ∀ s p e, env.callee s p ≠ .error e) : ∀ (cs : List UnionCase) (i : Nat) (e : Err), encodeCase env recv cs i ≠ .error e
  | [], _, e => by simp [encodeCase]
  | .mk _ ms :: _, 0, e => by
    simp only [encodeCase]
    exact encodeMembers_ne_error env recv hc ms e
  | .mk _ _ :: cs, i + 1, e => by
    simp only [encodeCase]
    exact encodeCase_ne_error env recv hc cs i e
end

theorem encodeBinary_ne_error (res : Resolver) : ∀ (fuel : Nat) (s : Struct) (recv : Option StructVal) (e : Err),
    encodeBinary res fuel s recv ≠ .error e
  | 0, _, _, _ => by simp [encodeBinary]
  | n + 1, s, recv, e => by
    simp only [encodeBinary]
    exact encodeMembers_ne_error _ recv (fun s p e => encodeBinary_ne_error res n s p e) _ e

/-! ## The constructor and the checked encoder -/

/-- C2, as the code has it: the constructor `ParseS` returns the value of `Parse` whenever
`Parse` succeeds, whatever remainder `Parse` leaves, and fails exactly with the error of
`Parse`; it performs no check of its own on the remainder. -/
theorem ParseS_discards_remainder (res : Resolver) (fuel : Nat) (s : Struct)
    (ctxs : List (String × StructVal)) (data : List Byte) :
    (∀ v, ParseS res fuel s ctxs data = .ok v ↔ ∃ rest, Parse res fuel s ctxs data = .ok (v, rest)) ∧
    (∀ e, ParseS res fuel s ctxs data = .error e ↔ Parse res fuel s ctxs data = .error e) := by
  unfold ParseS
  cases h : Parse res fuel s ctxs data with
  | ok a => obtain ⟨v, rest⟩ := a; simp
  | error e => simp
  | panic => simp
  | nocode => simp
  | fuel => simp

/-- C2 fails as stated: the encoding `[3, 10, 20, 30]` of a valid value followed by a zero
byte is accepted by `ParseSimpleArray`, although `Parse` leaves the remainder `[0]`. -/
theorem ParseS_accepts_trailing_byte :
    MarshalBinary exampleRes 2 SimpleArray simpleArray3 = .ok [3, 10, 20, 30] ∧
    Parse exampleRes 2 SimpleArray [] ([3, 10, 20, 30] ++ [0]) = .ok (simpleArray3, [0]) ∧
    ParseS exampleRes 2 SimpleArray [] ([3, 10, 20, 30] ++ [0]) = .ok simpleArray3 :=
  ⟨rfl, rfl, rfl⟩

/-- C3: `MarshalBinary` returns the error of `validate` unchanged when `validate` fails,
and otherwise what `encodeBinary` returns; `encodeBinary` has no error of its own, so an
error of `MarshalBinary` is always the error of `validate` and bytes are returned only
after `validate` succeeded. -/
theorem MarshalBinary_validate_then_encode (res : Resolver) (fuel : Nat) (s : Struct)
    (v : StructVal) :
    (∀ e, validate res fuel s v = .error e → MarshalBinary res fuel s v = .error e) ∧
    (validate res fuel s v = .ok () →
      MarshalBinary res fuel s v = encodeBinary res fuel s (some v)) ∧
    (∀ e, MarshalBinary res fuel s v = .error e → validate res fuel s v = .error e) ∧
    (∀ bs, MarshalBinary res fuel s v = .ok bs →
      validate res fuel s v = .ok () ∧ encodeBinary res fuel s (some v) = .ok bs) := by
  unfold MarshalBinary
  cases h : validate res fuel s v with
  | ok u =>
    refine ⟨by simp, by simp, ?_, by simp⟩
    intro e he
    exact absurd he (encodeBinary_ne_error res fuel s (some v) e)
  | error e => simp
  | panic => simp
  | nocode => simp
  | fuel => simp

/-- C3 at `{Count: 5, Data: [1, 2, 3]}`: the error of `validate` is what `MarshalBinary`
returns. -/
theorem MarshalBinary_validate_then_encode_witness :
    validate exampleRes 2 SimpleArray simpleArrayBad = .error .arrayLength ∧
    MarshalBinary exampleRes 2 SimpleArray simpleArrayBad = .error .arrayLength :=
  ⟨rfl, (MarshalBinary_validate_then_encode exampleRes 2 SimpleArray simpleArrayBad).1
    .arrayLength rfl⟩

/-- C9 fails on the code: a length read from a 64 bit field is converted with `int(...)`
and used unguarded.  With the count `2^63` the conversion is negative, so that the
allocation `make([]uint8, int(r.N))` panics; with the region length `2^63` the length
check `len(cur) < int(r.Len)` passes and the slice expression `cur[int(r.Len):]`
panics. -/
theorem Parse_panics_on_large_length :
    Parse exampleRes 2 Counted64 [] [128, 0, 0, 0, 0, 0, 0, 0] = .panic ∧
    Parse exampleRes 2 Region64 [] [1, 128, 0, 0, 0, 0, 0, 0, 0, 7] = .panic :=
  ⟨rfl, rfl⟩

/-! ## Unions in decode -/

theorem parseCase_get (env : ParseEnv) :
    ∀ (cases : List UnionCase) (i : Nat) (c : Option IntegerList) (body : List Member)
      (st : StructVal × List Byte),
      cases[i]? = some (.mk c body) → parseCase env cases i st = parseMembers env body st
  | [], _, _, _, _, h => by simp at h
  | .mk _ ms :: _, 0, c, body, st, h => by
    simp at h
    simp [parseCase, h.2]
  | .mk _ _ :: cs, i + 1, c, body, st, h => by
    simp at h
    simp only [parseCase]
    exact parseCase_get env cs i c body st h

theorem parseMembers_Fail_ne_ok (env : ParseEnv) :
    ∀ (body : List Member), Member.Fail ∈ body →
      ∀ (st st1 : StructVal × List Byte), parseMembers env body st ≠ .ok st1
  | [], h, _, _ => by simp at h
  | m :: ms, h, st, st1 => by
    intro hp
    simp only [parseMembers, bind_eq] at hp
    obtain ⟨st2, h1, h2⟩ := bind_eq_ok hp
    rcases List.mem_cons.1 h with h | h
    · subst h
      simp [parseMember] at h1
    · exact parseMembers_Fail_ne_ok env ms h st2 st1 h2

theorem constrained_ne_ok {α : Type} (env : ParseEnv) (recv : StructVal) (c : LengthConstraint)
    (f : List Byte → Outcome (α × List Byte)) (cur : List Byte)
    (hf : ∀ region a, f region ≠ .ok a) (b : α × List Byte) :
    constrained env recv c f cur ≠ .ok b := by
  intro h
  unfold constrained at h
  simp only [bind_eq, pure_eq] at h
  obtain ⟨n, _, h⟩ := bind_eq_ok h
  split at h
  · simp at h
  · obtain ⟨a, h1, _⟩ := bind_eq_ok h
    exact hf _ _ h1

theorem caseConds_no_match (res : Resolver) (x : Nat) :
    ∀ (cases : List UnionCase),
      (∀ c ∈ cases, ∃ l, c.Case = some l ∧ conditional res x l = some false) →
      caseConds res x cases = some (List.replicate cases.length (some false))
  | [], _ => by simp [caseConds]
  | c :: cs, h => by
    obtain ⟨l, hl, hc⟩ := h c (List.mem_cons_self _ _)
    have ih := caseConds_no_match res x cs (fun c1 h1 => h c1 (List.mem_cons_of_mem _ h1))
    simp [caseConds, hl, ih, hc, List.replicate_succ]

theorem firstTrue_replicate_false : ∀ n : Nat, firstTrue (List.replicate n (some false)) = none
  | 0 => rfl
  | n + 1 => by simp [List.replicate_succ, firstTrue, firstTrue_replicate_false n]

theorem firstDefault_replicate_false : ∀ n : Nat, firstDefault (List.replicate n (some false)) = none
  | 0 => rfl
  | n + 1 => by simp [List.replicate_succ, firstDefault, firstDefault_replicate_false n]

theorem switchCase_no_match (res : Resolver) (x : Nat) (cases : List UnionCase)
    (h : ∀ c ∈ cases, ∃ l, c.Case = some l ∧ conditional res x l = some false) :
    switchCase res x cases = .ok none := by
  unfold switchCase
  rw [caseConds_no_match res x cases h]
  simp [firstTrue_replicate_false, firstDefault_replicate_false, List.count_replicate]

theorem lengthCheck_ne_disallowed (cur : List Byte) (n : Int) :
    lengthCheck cur n ≠ .error .disallowedCase := by
  unfold lengthCheck
  split <;> simp

theorem constrained_ok_ne_disallowed (env : ParseEnv) (recv : StructVal) (c : LengthConstraint)
    (cur : List Byte) :
    constrained env recv c (fun region => .ok (recv, region)) cur ≠ .error .disallowedCase := by
  intro h
  unfold constrained at h
  simp only [bind_eq, pure_eq] at h
  rcases bind_eq_error h with h | ⟨n, _, h⟩
  · cases c with
    | Integer i => simp at h
    | IDRef r =>
      rcases bind_eq_error h with h | ⟨x, _, h⟩
      · exact ref_ne_error _ _ _ _ h
      · rcases bind_eq_error h with h | ⟨_, _, h⟩
        · exact lengthCheck_ne_disallowed _ _ h
        · simp at h
    | Leftover num =>
      rcases bind_eq_error h with h | ⟨k, _, h⟩
      · exact integer_ne_error _ _ _ h
      · rcases bind_eq_error h with h | ⟨_, _, h⟩
        · exact lengthCheck_ne_disallowed _ _ h
        · simp at h
  · split at h
    · simp at h
    · simp only [ok_bind] at h
      rcases bind_eq_error h with h | ⟨_, _, h⟩
      · unfold assertEnd at h
        split at h <;> simp at h
      · simp at h

/-- C6, as the code has it: when the union has no default case and the discriminant lies
in none of the range sets of its cases, the printed `switch` runs no case body.  Decode of
the union then decodes no member and leaves the receiver unchanged; without a length
constraint the cursor is unchanged as well, with one the union is the empty body inside
`constrained`.  In no case does it report a disallowed case. -/
theorem parseUnionMember_no_case (env : ParseEnv) (name : String) (tag : IDRef)
    (len : Option LengthConstraint) (cases : List UnionCase) (recv : StructVal)
    (cur : List Byte) (x : Nat)
    (htag : ref env.ctxs (some recv) tag = .ok x)
    (hcases : ∀ c ∈ cases, ∃ l, c.Case = some l ∧ conditional env.res x l = some false) :
    parseMember env (.UnionMember name tag len cases) (recv, cur) =
      (match len with
       | none => .ok (recv, cur)
       | some c => constrained env recv c (fun region => .ok (recv, region)) cur) ∧
    parseMember env (.UnionMember name tag len cases) (recv, cur) ≠ .error .disallowedCase := by
  have hs := switchCase_no_match env.res x cases hcases
  cases len with
  | none => simp [parseMember, parseUnionMember, parseSwitch, htag, hs]
  | some c =>
    have h : parseMember env (.UnionMember name tag (some c) cases) (recv, cur) =
        constrained env recv c (fun region => .ok (recv, region)) cur := by
      simp [parseMember, parseUnionMember, parseSwitch, htag, hs]
    exact ⟨h, by rw [h]; exact constrained_ok_ne_disallowed env recv c cur⟩

/-- C6 at the union `{ 1: u8 a; }` with discriminant 7, on any cursor. -/
theorem parseUnionMember_no_case_witness :
    parseMember exampleEnv (.UnionMember "U" (field "Tag") none oneCase)
      ([("Tag", .int 7), ("A", .int 0)], [9]) = .ok ([("Tag", .int 7), ("A", .int 0)], [9]) :=
  (parseUnionMember_no_case exampleEnv "U" (field "Tag") none oneCase
    [("Tag", .int 7), ("A", .int 0)] [9] 7 rfl
    (by
      intro c hc
      simp [oneCase] at hc
      subst hc
      exact ⟨_, rfl, rfl⟩)).1

/-- C6 fails as stated: for `u8 tag; union u[tag] { 1: u8 a; }` the input `[7, 9]`, whose
discriminant 7 matches no case, decodes successfully; no case is decoded and the byte 9
is left over. -/
theorem Parse_no_case_succeeds :
    Parse exampleRes 2 NoDefault [] [7, 9] = .ok ([("Tag", .int 7), ("A", .int 0)], [9]) ∧
    ParseS exampleRes 2 NoDefault [] [7, 9] = .ok [("Tag", .int 7), ("A", .int 0)] :=
  ⟨rfl, rfl⟩

/-- C10, as the code has it: when the discriminant selects a case whose body contains a
`Fail` member, decode of the union never succeeds, whatever the cursor holds.  The error
is the disallowed-case error when the union has no length constraint and `Fail` is the
first member of the body; otherwise a check printed before `Fail` (the length check of
the region, a member that precedes `Fail`) can fail first with its own error. -/
theorem parseUnionMember_Fail (env : ParseEnv) (name : String) (tag : IDRef)
    (len : Option LengthConstraint) (cases : List UnionCase) (recv : StructVal)
    (cur : List Byte) (x i : Nat) (c : Option IntegerList) (body : List Member)
    (htag : ref env.ctxs (some recv) tag = .ok x)
    (hsel : switchCase env.res x cases = .ok (some i))
    (hcase : cases[i]? = some (.mk c body))
    (hfail : Member.Fail ∈ body) :
    (∀ st, parseMember env (.UnionMember name tag len cases) (recv, cur) ≠ .ok st) ∧
    (len = none → (∃ rest, body = Member.Fail :: rest) →
      parseMember env (.UnionMember name tag len cases) (recv, cur) = .error .disallowedCase) := by
  constructor
  · intro st
    cases len with
    | none =>
      simp only [parseMember, parseUnionMember, parseSwitch, htag, hsel, bind_eq, ok_bind]
      rw [parseCase_get env cases i c body _ hcase]
      exact parseMembers_Fail_ne_ok env body hfail _ _
    | some l =>
      simp only [parseMember, parseUnionMember]
      apply constrained_ne_ok
      intro region a
      simp only [parseSwitch, htag, hsel, bind_eq, ok_bind]
      rw [parseCase_get env cases i c body _ hcase]
      exact parseMembers_Fail_ne_ok env body hfail _ _
  · rintro rfl ⟨rest, rfl⟩
    simp only [parseMember, parseUnionMember, parseSwitch, htag, hsel, bind_eq, ok_bind]
    rw [parseCase_get env cases i c _ _ hcase]
    simp [parseMembers, parseMember]

/-- C10 on the union of the tests, cases 1, 2, 3 and `default: fail`, with discriminant 4
and the cursor `[123]`. -/
theorem parseUnionMember_Fail_witness :
    parseMember exampleEnv (.UnionMember "Data" (field "Type") none packetCases)
      ([("Type", .int 4), ("ByteData", .int 0), ("WordData", .int 0), ("StringData", .str [])],
        [123]) = .error .disallowedCase :=
  (parseUnionMember_Fail exampleEnv "Data" (field "Type") none packetCases
    [("Type", .int 4), ("ByteData", .int 0), ("WordData", .int 0), ("StringData", .str [])]
    [123] 4 3 none [.Fail] rfl rfl rfl (List.mem_cons_self _ _)).2 rfl ⟨[], rfl⟩

/-- C10 fails as stated: for `u8 tag; u8 len; union u[tag] with length len { 1: u8 a;
default: fail; }` the input `[4, 5, 1]` selects `default: fail`, yet decode returns the
data-too-short error of the region's length check, not the disallowed-case error. -/
theorem Parse_Fail_case_other_error :
    Parse exampleRes 2 Region8 [] [4, 5, 1] = .error .dataTooShort ∧
    Parse exampleRes 2 Region8 [] [4, 5, 1] ≠ .error .disallowedCase := by
  have h : Parse exampleRes 2 Region8 [] [4, 5, 1] = .error .dataTooShort := rfl
  exact ⟨h, by rw [h]; simp⟩

/-! ## Printing does not depend on run-time values -/

theorem clause_isSome (res : Resolver) (x y : Nat) (r : IntegerRange) :
    (clause res x r).isSome = (clause res y r).isSome := by
  unfold clause
  cases r.High with
  | none => cases res.Integer r.Low <;> simp
  | some hi =>
    simp only []
    generalize res.Integer r.Low = a
    generalize res.Integer hi = b
    cases a <;> cases b <;> rfl

theorem clauses_isSome (res : Resolver) (x y : Nat) :
    ∀ rs : List IntegerRange, (clauses res x rs).isSome = (clauses res y rs).isSome
  | [] => rfl
  | r :: rs => by
    have h1 := clause_isSome res x y r
    have h2 := clauses_isSome res x y rs
    simp only [clauses]
    cases hx : clause res x r <;> cases hy : clause res y r <;>
      cases hxs : clauses res x rs <;> cases hys : clauses res y rs <;> simp_all

theorem conditional_isSome (res : Resolver) (x y : Nat) (c : IntegerList) :
    (conditional res x c).isSome = (conditional res y c).isSome := by
  unfold conditional
  cases c.Ranges with
  | nil => rfl
  | cons r rs => exact clauses_isSome res x y (r :: rs)

theorem conditional_of_constraintOK (res : Resolver) (x : Nat) (c : IntegerList)
    (h : constraintOK res (some c) = true) : ∃ b, conditional res x c = some b := by
  simp only [constraintOK] at h
  rw [conditional_isSome res 0 x c] at h
  exact Option.isSome_iff_exists.1 h

theorem checkConstraint_returns (res : Resolver) (x : Nat) (c : Option IntegerList)
    (h : constraintOK res c = true) : (checkConstraint res x c).returns := by
  cases c with
  | none => simp [checkConstraint, Outcome.returns]
  | some c =>
    obtain ⟨b, hb⟩ := conditional_of_constraintOK res x c h
    cases b <;> simp [checkConstraint, hb, Outcome.returns]

theorem caseConds_shape (res : Resolver) (x y : Nat) :
    ∀ (cases : List UnionCase) (bs : List (Option Bool)), caseConds res x cases = some bs →
      ∃ bs1, caseConds res y cases = some bs1 ∧ bs1.map Option.isNone = bs.map Option.isNone ∧
        bs.length = cases.length
  | [], bs, h => by
    simp [caseConds] at h
    subst h
    exact ⟨[], rfl, rfl, rfl⟩
  | c :: cs, bs, h => by
    simp only [caseConds] at h
    cases hc : c.Case with
    | none =>
      cases hcs : caseConds res x cs with
      | none => simp [hc, hcs] at h
      | some bs0 =>
        simp [hc, hcs] at h
        subst h
        obtain ⟨bs1, h1, h2, h3⟩ := caseConds_shape res x y cs bs0 hcs
        exact ⟨none :: bs1, by simp [caseConds, hc, h1], by simp [h2], by simp [h3]⟩
    | some l =>
      cases hcs : caseConds res x cs with
      | none => simp [hc, hcs] at h
      | some bs0 =>
        cases hb : conditional res x l with
        | none => simp [hc, hcs, hb] at h
        | some b =>
          simp [hc, hcs, hb] at h
          subst h
          obtain ⟨bs1, h1, h2, h3⟩ := caseConds_shape res x y cs bs0 hcs
          have hy : (conditional res y l).isSome = true := by
            rw [conditional_isSome res y x l, hb]; rfl
          obtain ⟨b1, hb1⟩ := Option.isSome_iff_exists.1 hy
          exact ⟨some b1 :: bs1, by simp [caseConds, hc, h1, hb1], by simp [h2], by simp [h3]⟩

theorem count_none_eq (bs : List (Option Bool)) :
    bs.count none = (bs.map Option.isNone).count true := by
  induction bs with
  | nil => rfl
  | cons b bs ih => cases b <;> simp [List.count_cons, ih]

theorem firstTrue_lt : ∀ (bs : List (Option Bool)) (i : Nat), firstTrue bs = some i → i < bs.length
  | [], _, h => by simp [firstTrue] at h
  | some true :: _, i, h => by
    simp [firstTrue] at h
    subst h
    simp
  | some false :: bs, i, h => by
    simp [firstTrue] at h
    obtain ⟨j, hj, rfl⟩ := h
    have := firstTrue_lt bs j hj
    simp
    omega
  | none :: bs, i, h => by
    simp [firstTrue] at h
    obtain ⟨j, hj, rfl⟩ := h
    have := firstTrue_lt bs j hj
    simp
    omega

theorem firstDefault_lt : ∀ (bs : List (Option Bool)) (i : Nat), firstDefault bs = some i → i < bs.length
  | [], _, h => by simp [firstDefault] at h
  | none :: _, i, h => by
    simp [firstDefault] at h
    subst h
    simp
  | some _ :: bs, i, h => by
    simp [firstDefault] at h
    obtain ⟨j, hj, rfl⟩ := h
    have := firstDefault_lt bs j hj
    simp
    omega

theorem switchCase_lt (res : Resolver) (x : Nat) (cases : List UnionCase) (i : Nat)
    (h : switchCase res x cases = .ok (some i)) : i < cases.length := by
  unfold switchCase at h
  cases hc : caseConds res x cases with
  | none => simp [hc] at h
  | some bs =>
    obtain ⟨_, _, _, hlen⟩ := caseConds_shape res x x cases bs hc
    simp only [hc] at h
    split at h
    · simp at h
    · cases ht : firstTrue bs with
      | some j =>
        simp [ht] at h
        subst h
        have := firstTrue_lt bs j ht
        omega
      | none =>
        simp [ht] at h
        have := firstDefault_lt bs i h
        omega

theorem switchCase_of_switchOK (res : Resolver) (x : Nat) (cases : List UnionCase)
    (h : switchOK res cases = true) : ∃ sel, switchCase res x cases = .ok sel := by
  unfold switchOK at h
  unfold switchCase at h ⊢
  cases hc : caseConds res 0 cases with
  | none => simp [hc] at h
  | some bs =>
    obtain ⟨bs1, h1, h2, _⟩ := caseConds_shape res 0 x cases bs hc
    simp only [hc] at h
    simp only [h1]
    rw [count_none_eq, h2, ← count_none_eq]
    by_cases hcount : List.count none bs > 1
    · simp [hcount] at h
    · simp only [hcount, if_false]
      cases firstTrue bs1 <;> simp

/-! ## Validate returns on typed values -/

theorem returns_bind {α β : Type} {x : Outcome α} {f : α → Outcome β} (hx : x.returns)
    (hf : ∀ a, x = .ok a → (f a).returns) : (x.bind f).returns := by
  cases x with
  | ok a => exact hf a rfl
  | error e => simp [Outcome.returns]
  | panic => simp [Outcome.returns] at hx
  | nocode => simp [Outcome.returns] at hx
  | fuel => simp [Outcome.returns] at hx

theorem returns_iff {α : Type} (o : Outcome α) :
    o.returns ↔ (∃ a, o = .ok a) ∨ ∃ e, o = .error e := by
  cases o <;> simp [Outcome.returns]

theorem ref_of_refOK (recv : StructVal) (r : IDRef) (h : refOK recv r = true) :
    ∃ x, ref [] (some recv) r = .ok x := by
  unfold refOK at h
  cases hr : ref [] (some recv) r with
  | ok x => exact ⟨x, rfl⟩
  | error e => simp [hr] at h
  | panic => simp [hr] at h
  | nocode => simp [hr] at h
  | fuel => simp [hr] at h

theorem readField_some (recv : StructVal) (name : String) (v : Val)
    (h : recv.lookup name = some v) : readField (some recv) name = .ok v := by
  simp [readField, h, Outcome.ofOption]

theorem readArr_some (recv : StructVal) (name : String) (xs : List Val)
    (h : recv.lookup name = some (.arr xs)) : readArr (some recv) name = .ok xs := by
  simp [readArr, readField_some recv name _ h]

theorem validateBase_returns (res : Resolver) (nilOK : Bool) (tc : Struct → StructVal → Bool)
    (env : MethodEnv StructVal Unit) (hres : env.res = res)
    (hc : ∀ s p, tc s p = true → (env.callee s p).returns) (b : ArrayBase) (v : Val)
    (h : typedBase res nilOK tc b v = true) : (validateBase env b v).returns := by
  subst hres
  cases b with
  | IntType t =>
    cases v <;> simp [typedBase] at h
    simp only [validateBase, validateIntType]
    cases hcn : t.Constraint with
    | none => simp [Outcome.returns]
    | some c =>
      simp only [ok_bind]
      exact checkConstraint_returns _ _ _ (by rw [← hcn]; exact h.2)
  | CharType => simp [validateBase, Outcome.returns]
  | StructRef n =>
    cases v with
    | ref p =>
      cases p with
      | none => simp [validateBase, validateStructRef, Outcome.returns]
      | some p =>
        simp only [typedBase] at h
        cases hs : env.res.Struct n with
        | none => simp [hs] at h
        | some s =>
          simp only [hs] at h
          simpa [validateBase, validateStructRef, hs] using hc s p h
    | _ => simp [typedBase] at h

theorem validateElems_returns (elem : Val → Outcome Unit) :
    ∀ xs : List Val, (∀ v ∈ xs, (elem v).returns) → (validateElems elem xs).returns
  | [], _ => by simp [validateElems, Outcome.returns]
  | v :: vs, h => by
    simp only [validateElems, bind_eq]
    exact returns_bind (h v (List.mem_cons_self _ _))
      (fun _ _ => validateElems_returns elem vs (fun w hw => h w (List.mem_cons_of_mem _ hw)))

theorem checkLength_returns (rhs : List Val) (n : Int) : (checkLength rhs n).returns := by
  unfold checkLength
  split <;> simp [Outcome.returns]

theorem expectedSize_of_lengthOK (res : Resolver) (recv : StructVal) (c : Option LengthConstraint)
    (h : lengthOK res recv c = true) : ∃ n, expectedSize res recv c = .ok n := by
  cases c with
  | none => exact ⟨none, rfl⟩
  | some c =>
    cases c with
    | Integer i =>
      simp only [lengthOK] at h
      obtain ⟨n, hn⟩ := Option.isSome_iff_exists.1 h
      exact ⟨some n, by simp [expectedSize, integer, hn, Outcome.ofOption]⟩
    | IDRef r =>
      obtain ⟨x, hx⟩ := ref_of_refOK recv r h
      exact ⟨some (goInt x), by simp [expectedSize, hx]⟩
    | Leftover i => exact ⟨none, rfl⟩

theorem validateArray_returns (res : Resolver) (nilOK : Bool) (tc : Struct → StructVal → Bool)
    (env : MethodEnv StructVal Unit) (hres : env.res = res)
    (hc : ∀ s p, tc s p = true → (env.callee s p).returns) (recv : StructVal) (name : String)
    (b : ArrayBase) (c : Option LengthConstraint) (xs : List Val)
    (hl : recv.lookup name = some (.arr xs)) (hlen : lengthOK res recv c = true)
    (hxs : xs.all (typedBase res nilOK tc b) = true) :
    (validateArray env recv name b c).returns := by
  obtain ⟨n, hn⟩ := expectedSize_of_lengthOK res recv c hlen
  have hel : (validateElems (validateBase env b) xs).returns :=
    validateElems_returns _ xs (fun v hv =>
      validateBase_returns res nilOK tc env hres hc b v (List.all_eq_true.1 hxs v hv))
  simp only [validateArray, bind_eq, readArr_some recv name xs hl, ok_bind, hres, hn]
  cases n with
  | none => simpa using hel
  | some k => exact returns_bind (checkLength_returns xs k) (fun _ _ => hel)

theorem validateType_returns (res : Resolver) (nilOK : Bool) (tc : Struct → StructVal → Bool)
    (env : MethodEnv StructVal Unit) (hres : env.res = res)
    (hc : ∀ s p, tc s p = true → (env.callee s p).returns) (recv : StructVal) (name : String)
    (t : Tipe) (v : Val) (hl : recv.lookup name = some v)
    (h : typedVal res nilOK tc recv t v = true) : (validateType env recv name t).returns := by
  cases t with
  | NulTermString => simp [validateType, Outcome.returns]
  | CharType => simp [validateType, Outcome.returns]
  | Ptr => simp [validateType, Outcome.returns]
  | IntType t =>
    have := validateBase_returns res nilOK tc env hres hc (.IntType t) v (by simpa [typedVal] using h)
    simpa [validateType, validateBase, readField_some recv name v hl] using this
  | StructRef n =>
    have := validateBase_returns res nilOK tc env hres hc (.StructRef n) v (by simpa [typedVal] using h)
    simpa [validateType, validateBase, readField_some recv name v hl] using this
  | FixedArrayMember b size =>
    cases v with
    | arr xs =>
      simp only [typedVal, Bool.and_eq_true] at h
      have hlen : lengthOK res recv (some (.Integer size)) = true := by
        simp only [lengthOK]
        cases hi : res.Integer size with
        | none => simp [hi] at h
        | some n => rfl
      exact validateArray_returns res nilOK tc env hres hc recv name b _ xs hl hlen h.2
    | _ => simp [typedVal] at h
  | VarArrayMember b c =>
    cases v with
    | arr xs =>
      simp only [typedVal, Bool.and_eq_true] at h
      exact validateArray_returns res nilOK tc env hres hc recv name b c xs hl h.1 h.2
    | _ => simp [typedVal] at h

mutual
theorem validateMember_returns (res : Resolver) (nilOK : Bool) (tc : Struct → StructVal → Bool)
    (env : MethodEnv StructVal Unit) (hres : env.res = res)
    (hc : ∀ s p, tc s p = true → (env.callee s p).returns) (recv : StructVal) :
    ∀ m : Member, typedMember res nilOK tc recv m = true → (validateMember env recv m).returns
  | .Field name t, h => by
    simp only [typedMember] at h
    cases hl : recv.lookup name with
    | none => simp [hl] at h
    | some v =>
      simp only [hl] at h
      simpa [validateMember] using validateType_returns res nilOK tc env hres hc recv name t v hl h
  | .UnionMember _ tag _ cases, h => by
    simp only [typedMember, Bool.and_eq_true] at h
    obtain ⟨x, hx⟩ := ref_of_refOK recv tag h.1.1
    obtain ⟨sel, hsel⟩ := switchCase_of_switchOK res x cases h.1.2
    simp only [validateMember, validateUnionMember, bind_eq, hx, ok_bind, hres, hsel]
    cases sel with
    | none => simp [Outcome.returns]
    | some i => exact validateCase_returns res nilOK tc env hres hc recv cases i h.2
  | .EOS, _ => by simp [validateMember, Outcome.returns]
  | .Ignore, _ => by simp [validateMember, Outcome.returns]
  | .Fail, _ => by simp [validateMember, Outcome.returns]
theorem validateMembers_returns (res : Resolver) (nilOK : Bool) (tc : Struct → StructVal → Bool)
    (env : MethodEnv StructVal Unit) (hres : env.res = res)
    (hc : ∀ s p, tc s p = true → (env.callee s p).returns) (recv : StructVal) :
    ∀ ms : List Member, typedMembers res nilOK tc recv ms = true →
      (validateMembers env recv ms).returns
  | [], _ => by simp [validateMembers, Outcome.returns]
  | m :: ms, h => by
    simp only [typedMembers, Bool.and_eq_true] at h
    simp only [validateMembers, bind_eq]
    exact returns_bind (validateMember_returns res nilOK tc env hres hc recv m h.1)
      (fun _ _ => validateMembers_returns res nilOK tc env hres hc recv ms h.2)
theorem validateCase_returns (res : Resolver) (nilOK : Bool) (tc : Struct → StructVal → Bool)
    (env : MethodEnv StructVal Unit) (hres : env.res = res)
    (hc : ∀ s p, tc s p = true → (env.callee s p).returns) (recv : StructVal) :
    ∀ (cs : List UnionCase) (i : Nat), typedCases res nilOK tc recv cs = true →
      (validateCase env recv cs i).returns
  | [], _, _ => by simp [validateCase, Outcome.returns]
  | .mk _ ms :: _, 0, h => by
    simp only [typedCases, Bool.and_eq_true] at h
    simpa [validateCase] using validateMembers_returns res nilOK tc env hres hc recv ms h.1
  | .mk _ _ :: cs, i + 1, h => by
    simp only [typedCases, Bool.and_eq_true] at h
    simpa [validateCase] using validateCase_returns res nilOK tc env hres hc recv cs i h.2
end

theorem typed_members (res : Resolver) (nilOK : Bool) (n : Nat) (s : Struct) (v : StructVal)
    (h : typed res nilOK (n + 1) s v = true) :
    typedMembers res nilOK (typed res nilOK n) v s.Members = true := by
  simp only [typed, Bool.and_eq_true] at h
  exact h.2

theorem validate_returns (res : Resolver) (nilOK : Bool) :
    ∀ (fuel : Nat) (s : Struct) (v : StructVal), typed res nilOK fuel s v = true →
      (validate res fuel s v).returns
  | 0, _, _, h => by simp [typed] at h
  | n + 1, s, v, h => by
    simp only [validate]
    exact validateMembers_returns res nilOK (typed res nilOK n) _ rfl
      (fun s p hp => validate_returns res nilOK n s p hp) v s.Members
      (typed_members res nilOK n s v h)

/-! ## Constraint enforcement by `validate` -/

theorem validateMembers_append (env : MethodEnv StructVal Unit) (recv : StructVal) :
    ∀ (pre rest : List Member), validateMembers env recv (pre ++ rest) =
      (validateMembers env recv pre).bind fun _ => validateMembers env recv rest
  | [], rest => by simp [validateMembers]
  | m :: pre, rest => by
    simp only [List.cons_append, validateMembers, bind_eq]
    cases validateMember env recv m <;> simp [validateMembers_append env recv pre rest]

theorem validateMembers_error_of_mem (res : Resolver) (nilOK : Bool)
    (tc : Struct → StructVal → Bool) (env : MethodEnv StructVal Unit) (hres : env.res = res)
    (hc : ∀ s p, tc s p = true → (env.callee s p).returns) (recv : StructVal) (m : Member)
    (hm : ∃ e, validateMember env recv m = .error e) :
    ∀ ms : List Member, typedMembers res nilOK tc recv ms = true → m ∈ ms →
      ∃ e, validateMembers env recv ms = .error e
  | [], _, h => by simp at h
  | m1 :: ms, ht, h => by
    simp only [typedMembers, Bool.and_eq_true] at ht
    simp only [validateMembers, bind_eq]
    rcases List.mem_cons.1 h with h | h
    · subst h
      obtain ⟨e, he⟩ := hm
      exact ⟨e, by simp [he]⟩
    · have h1 := validateMember_returns res nilOK tc env hres hc recv m1 ht.1
      rcases (returns_iff _).1 h1 with ⟨a, ha⟩ | ⟨e, he⟩
      · simpa [ha] using validateMembers_error_of_mem res nilOK tc env hres hc recv m hm ms ht.2 h
      · exact ⟨e, by simp [he]⟩

theorem MarshalBinary_of_validate_error (res : Resolver) (fuel : Nat) (s : Struct) (v : StructVal)
    (e : Err) (h : validate res fuel s v = .error e) : MarshalBinary res fuel s v = .error e := by
  simp [MarshalBinary, h]

/-- C4: when a struct has a range-constrained integer field among its members (not inside
a union) and the value stored in that field satisfies none of the declared ranges and
singletons, `validate` and therefore `MarshalBinary` return an error, and `MarshalBinary`
returns no bytes.  The value is any in-memory value of the struct type (`typed`, with
unset struct references allowed); the fuel bounds its nesting depth. -/
theorem MarshalBinary_rejects_out_of_range (res : Resolver) (fuel : Nat) (s : Struct)
    (v : StructVal) (name : String) (t : IntType) (c : IntegerList) (x : Nat)
    (hv : typed res true fuel s v = true)
    (hm : Member.Field name (.IntType t) ∈ s.Members)
    (hc : t.Constraint = some c)
    (hx : v.lookup name = some (.int x))
    (hout : conditional res x c = some false) :
    (∃ e, validate res fuel s v = .error e ∧ MarshalBinary res fuel s v = .error e) ∧
    ∀ bs, MarshalBinary res fuel s v ≠ .ok bs := by
  have key : ∃ e, validate res fuel s v = .error e := by
    cases fuel with
    | zero => simp [typed] at hv
    | succ n =>
      simp only [validate]
      refine validateMembers_error_of_mem res true (typed res true n) _ rfl
        (fun s p hp => validate_returns res true n s p hp) v _ ?_ s.Members
        (typed_members res true n s v hv) hm
      exact ⟨.integerConstraint, by
        simp [validateMember, validateType, validateIntType, hc, readField_some v name _ hx,
          checkConstraint, hout]⟩
  obtain ⟨e, he⟩ := key
  have hM := MarshalBinary_of_validate_error res fuel s v e he
  exact ⟨⟨e, he, hM⟩, fun bs h => by rw [hM] at h; cases h⟩

/-- C4 at the value `{Version: 4, NMethods: 1, Methods: [0]}` of the format
`u8 version IN [5]; ...` from the tests. -/
theorem MarshalBinary_rejects_out_of_range_witness :
    (∃ e, validate exampleRes 1 Socks5ClientVersion socks5BadVersion = .error e ∧
      MarshalBinary exampleRes 1 Socks5ClientVersion socks5BadVersion = .error e) ∧
    ∀ bs, MarshalBinary exampleRes 1 Socks5ClientVersion socks5BadVersion ≠ .ok bs :=
  MarshalBinary_rejects_out_of_range exampleRes 1 Socks5ClientVersion socks5BadVersion
    "Version" ⟨8, some ⟨[⟨lit 5, none⟩]⟩⟩ ⟨[⟨lit 5, none⟩]⟩ 4 (by decide)
    (List.mem_cons_self _ _) rfl rfl rfl

/-- C5, as the code has it: for a variable array that is a member of the struct (not
inside a union) and whose length is a constant or a referenced integer field, `validate`
and `MarshalBinary` fail whenever the element count differs from that length; the error
is the array-length error when the members before the array validate, else the error of
the first member that fails.  A Leftover or unbounded array has no expected size: its
validation is that of its elements alone, whatever their number.  (A fixed array `[N]T`
always has `N` elements.) -/
theorem validate_rejects_length_mismatch (res : Resolver) (n : Nat) (s : Struct)
    (v : StructVal) (name : String) (b : ArrayBase) (lc : Option LengthConstraint)
    (xs : List Val)
    (hv : typed res true (n + 1) s v = true)
    (hm : Member.Field name (.VarArrayMember b lc) ∈ s.Members)
    (hx : v.lookup name = some (.arr xs)) :
    (∀ k, expectedSize res v lc = .ok (some k) → (xs.length : Int) ≠ k →
      (∃ e, validate res (n + 1) s v = .error e ∧ MarshalBinary res (n + 1) s v = .error e) ∧
      (∀ pre post, s.Members = pre ++ Member.Field name (.VarArrayMember b lc) :: post →
        validateMembers ⟨res, validate res n⟩ v pre = .ok () →
        validate res (n + 1) s v = .error .arrayLength)) ∧
    (expectedSize res v lc = .ok none →
      validateMember ⟨res, validate res n⟩ v (.Field name (.VarArrayMember b lc)) =
        validateElems (validateBase ⟨res, validate res n⟩ b) xs) := by
  constructor
  · intro k hk hne
    have hfield : validateMember ⟨res, validate res n⟩ v (.Field name (.VarArrayMember b lc)) =
        .error .arrayLength := by
      simp [validateMember, validateType, validateArray, readArr_some v name xs hx, hk,
        checkLength, hne]
    constructor
    · obtain ⟨e, he⟩ := validateMembers_error_of_mem res true (typed res true n)
        ⟨res, validate res n⟩ rfl (fun s p hp => validate_returns res true n s p hp) v _
        ⟨_, hfield⟩ s.Members (typed_members res true n s v hv) hm
      exact ⟨e, he, MarshalBinary_of_validate_error res (n + 1) s v e he⟩
    · intro pre post hsplit hpre
      simp only [validate, hsplit, validateMembers_append, hpre, ok_bind]
      simp only [validateMembers, bind_eq, hfield, error_bind]
  · intro hk
    simp [validateMember, validateType, validateArray, readArr_some v name xs hx, hk]

/-- C5 at `{Count: 5, Data: [1, 2, 3]}` of the format `u8 count; u8 data[count];`. -/
theorem validate_rejects_length_mismatch_witness :
    validate exampleRes 1 SimpleArray simpleArrayBad = .error .arrayLength :=
  ((validate_rejects_length_mismatch exampleRes 0 SimpleArray simpleArrayBad "Data"
    (.IntType (uint 8)) (some (.IDRef (field "Count"))) [.int 1, .int 2, .int 3]
    (by decide) (List.mem_cons_of_mem _ (List.mem_cons_self _ _)) rfl).1 5 rfl
    (by decide)).2 [.Field "Count" (.IntType (uint 8))] [] rfl rfl

/-- C5 fails as stated: in `u8 type; union u[type] { 1: u8 count; u8 data[count]; 2: u8
other; }` the value with type 2, count 5 and three elements of data has an array whose
element count differs from the referenced length, and `validate` and `MarshalBinary`
accept it, because the array is validated only when its case is selected. -/
theorem validate_skips_unselected_array :
    validate exampleRes 1 CaseArray caseArrayOther = .ok () ∧
    MarshalBinary exampleRes 1 CaseArray caseArrayOther = .ok [2, 9] :=
  ⟨rfl, rfl⟩

/-! ## The unchecked encoder on validated values -/

theorem validateElems_ok (elem : Val → Outcome Unit) :
    ∀ xs : List Val, validateElems elem xs = .ok () → ∀ v ∈ xs, elem v = .ok ()
  | [], _, v, hv => by simp at hv
  | w :: ws, h, v, hv => by
    simp only [validateElems, bind_eq] at h
    obtain ⟨_, h1, h2⟩ := bind_eq_ok h
    rcases List.mem_cons.1 hv with hv | hv
    · subst hv; exact h1
    · exact validateElems_ok elem ws h2 v hv

theorem encodeIntType_ok (x : Nat) (t : IntType) (h : validSize t.Size = true) :
    encodeIntType x t = .ok (putUint (t.Size / 8) x) := by
  simp [encodeIntType, h]

theorem encodeBase_ok (res : Resolver) (tc : Struct → StructVal → Bool)
    (venv : MethodEnv StructVal Unit) (eenv : MethodEnv (Option StructVal) (List Byte))
    (hv : venv.res = res) (he : eenv.res = res)
    (hc : ∀ s p, tc s p = true → venv.callee s p = .ok () → ∃ bs, eenv.callee s (some p) = .ok bs)
    (b : ArrayBase) (v : Val) (ht : typedBase res false tc b v = true)
    (hval : validateBase venv b v = .ok ()) : ∃ bs, encodeBase eenv b v = .ok bs := by
  subst hv
  cases b with
  | IntType t =>
    cases v <;> simp [typedBase] at ht
    simp [encodeBase, encodeIntType_ok _ t ht.1.1]
  | CharType =>
    cases v <;> simp [typedBase] at ht
    simp [encodeBase, encodeIntType, U8, validSize]
  | StructRef n =>
    cases v with
    | ref p =>
      cases p with
      | none => simp [typedBase] at ht
      | some p =>
        simp only [typedBase] at ht
        cases hs : venv.res.Struct n with
        | none => simp [hs] at ht
        | some s =>
          simp only [hs] at ht
          simp only [validateBase, validateStructRef, ok_bind, hs] at hval
          simpa [encodeBase, he, hs] using hc s p ht hval
    | _ => simp [typedBase] at ht

theorem encodeFor_ok (elem : Val → Outcome (List Byte)) (rhs : List Val)
    (h : ∀ v ∈ rhs, ∃ bs, elem v = .ok bs) :
    ∀ (n idx : Nat), idx + n ≤ rhs.length → ∃ bs, encodeFor elem rhs n idx = .ok bs
  | 0, _, _ => ⟨[], rfl⟩
  | n + 1, idx, hle => by
    have hidx : idx < rhs.length := by omega
    obtain ⟨a, ha⟩ := h rhs[idx] (List.getElem_mem _)
    obtain ⟨b, hb⟩ := encodeFor_ok elem rhs h n (idx + 1) (by omega)
    exact ⟨a ++ b, by simp [encodeFor, List.getElem?_eq_getElem hidx, ha, hb]⟩

theorem encodeArray_ok (res : Resolver) (tc : Struct → StructVal → Bool)
    (venv : MethodEnv StructVal Unit) (eenv : MethodEnv (Option StructVal) (List Byte))
    (hv : venv.res = res) (he : eenv.res = res)
    (hc : ∀ s p, tc s p = true → venv.callee s p = .ok () → ∃ bs, eenv.callee s (some p) = .ok bs)
    (recv : StructVal) (name : String) (b : ArrayBase) (c : Option LengthConstraint)
    (xs : List Val) (hl : recv.lookup name = some (.arr xs))
    (hxs : xs.all (typedBase res false tc b) = true)
    (hval : validateArray venv recv name b c = .ok ()) :
    ∃ bs, encodeArray eenv (some recv) name b c = .ok bs := by
  simp only [validateArray, bind_eq, readArr_some recv name xs hl, ok_bind] at hval
  obtain ⟨size, hsize, hval⟩ := bind_eq_ok hval
  obtain ⟨_, hlen, hval⟩ := bind_eq_ok hval
  have helem : ∀ v ∈ xs, ∃ bs, encodeBase eenv b v = .ok bs := fun v hmem =>
    encodeBase_ok res tc venv eenv hv he hc b v (List.all_eq_true.1 hxs v hmem)
      (validateElems_ok _ xs hval v hmem)
  have hfor := encodeFor_ok (encodeBase eenv b) xs helem
  rw [hv] at hsize
  cases c with
  | none => simpa [encodeArray, readArr_some recv name xs hl] using hfor xs.length 0 (by omega)
  | some c =>
    cases c with
    | Leftover num =>
      simpa [encodeArray, readArr_some recv name xs hl] using hfor xs.length 0 (by omega)
    | Integer i =>
      simp only [expectedSize] at hsize
      obtain ⟨k, hk, hsize⟩ := bind_eq_ok hsize
      simp only [Outcome.ok.injEq] at hsize
      subst hsize
      have hlen1 : (xs.length : Int) = k := by
        simp only [checkLength] at hlen
        by_contra hne
        simp [hne] at hlen
      simp only [encodeArray, bind_eq, he, hk, ok_bind, pure_eq]
      split
      · exact ⟨[], rfl⟩
      · simpa [readArr_some recv name xs hl] using hfor k.toNat 0 (by omega)
    | IDRef r =>
      simp only [expectedSize] at hsize
      obtain ⟨x, hx, hsize⟩ := bind_eq_ok hsize
      simp only [Outcome.ok.injEq] at hsize
      subst hsize
      have hlen1 : (xs.length : Int) = goInt x := by
        simp only [checkLength] at hlen
        by_contra hne
        simp [hne] at hlen
      simp only [encodeArray, bind_eq, hx, ok_bind, pure_eq]
      split
      · exact ⟨[], rfl⟩
      · simpa [readArr_some recv name xs hl] using hfor (goInt x).toNat 0 (by omega)

theorem encodeType_ok (res : Resolver) (tc : Struct → StructVal → Bool)
    (venv : MethodEnv StructVal Unit) (eenv : MethodEnv (Option StructVal) (List Byte))
    (hv : venv.res = res) (he : eenv.res = res)
    (hc : ∀ s p, tc s p = true → venv.callee s p = .ok () → ∃ bs, eenv.callee s (some p) = .ok bs)
    (recv : StructVal) (name : String) (t : Tipe) (v : Val)
    (hl : recv.lookup name = some v) (ht : typedVal res false tc recv t v = true)
    (hval : validateType venv recv name t = .ok ()) :
    ∃ bs, encodeType eenv (some recv) name t = .ok bs := by
  have hr := readField_some recv name v hl
  cases t with
  | NulTermString =>
    cases v <;> simp [typedVal] at ht
    simp [encodeType, hr]
  | CharType =>
    cases v <;> simp [typedVal, typedBase] at ht
    simp [encodeType, hr, encodeIntType, U8, validSize]
  | Ptr => exact ⟨[], rfl⟩
  | IntType t =>
    cases v <;> simp [typedVal, typedBase] at ht
    simp [encodeType, hr, encodeIntType_ok _ t ht.1.1]
  | StructRef n =>
    have := encodeBase_ok res tc venv eenv hv he hc (.StructRef n) v (by simpa [typedVal] using ht)
      (by simpa [validateType, validateBase, hr] using hval)
    simpa [encodeType, hr] using this
  | FixedArrayMember b size =>
    cases v with
    | arr xs =>
      simp only [typedVal, Bool.and_eq_true] at ht
      exact encodeArray_ok res tc venv eenv hv he hc recv name b _ xs hl ht.2 hval
    | _ => simp [typedVal] at ht
  | VarArrayMember b c =>
    cases v with
    | arr xs =>
      simp only [typedVal, Bool.and_eq_true] at ht
      exact encodeArray_ok res tc venv eenv hv he hc recv name b c xs hl ht.2 hval
    | _ => simp [typedVal] at ht

mutual
theorem encodeMember_ok (res : Resolver) (tc : Struct → StructVal → Bool)
    (venv : MethodEnv StructVal Unit) (eenv : MethodEnv (Option StructVal) (List Byte))
    (hv : venv.res = res) (he : eenv.res = res)
    (hc : ∀ s p, tc s p = true → venv.callee s p = .ok () → ∃ bs, eenv.callee s (some p) = .ok bs)
    (recv : StructVal) :
    ∀ m : Member, typedMember res false tc recv m = true → validateMember venv recv m = .ok () →
      ∃ bs, encodeMember eenv (some recv) m = .ok bs
  | .Field name t, ht, hval => by
    simp only [typedMember] at ht
    cases hl : recv.lookup name with
    | none => simp [hl] at ht
    | some v =>
      simp only [hl] at ht
      simpa [encodeMember] using
        encodeType_ok res tc venv eenv hv he hc recv name t v hl ht (by simpa [validateMember] using hval)
  | .UnionMember _ tag _ cases, ht, hval => by
    simp only [typedMember, Bool.and_eq_true] at ht
    obtain ⟨x, hx⟩ := ref_of_refOK recv tag ht.1.1
    obtain ⟨sel, hsel⟩ := switchCase_of_switchOK res x cases ht.1.2
    simp only [validateMember, validateUnionMember, bind_eq, hx, ok_bind, hv, hsel] at hval
    simp only [encodeMember, encodeUnionMember, bind_eq, hx, ok_bind, he, hsel]
    cases sel with
    | none => exact ⟨[], rfl⟩
    | some i => exact encodeCase_ok res tc venv eenv hv he hc recv cases i ht.2 hval
  | .EOS, _, _ => ⟨[], rfl⟩
  | .Ignore, _, _ => ⟨[], rfl⟩
  | .Fail, _, _ => ⟨[], rfl⟩
theorem encodeMembers_ok (res : Resolver) (tc : Struct → StructVal → Bool)
    (venv : MethodEnv StructVal Unit) (eenv : MethodEnv (Option StructVal) (List Byte))
    (hv : venv.res = res) (he : eenv.res = res)
    (hc : ∀ s p, tc s p = true → venv.callee s p = .ok () → ∃ bs, eenv.callee s (some p) = .ok bs)
    (recv : StructVal) :
    ∀ ms : List Member, typedMembers res false tc recv ms = true →
      validateMembers venv recv ms = .ok () → ∃ bs, encodeMembers eenv (some recv) ms = .ok bs
  | [], _, _ => ⟨[], rfl⟩
  | m :: ms, ht, hval => by
    simp only [typedMembers, Bool.and_eq_true] at ht
    simp only [validateMembers, bind_eq] at hval
    obtain ⟨_, h1, h2⟩ := bind_eq_ok hval
    obtain ⟨a, ha⟩ := encodeMember_ok res tc venv eenv hv he hc recv m ht.1 h1
    obtain ⟨b, hb⟩ := encodeMembers_ok res tc venv eenv hv he hc recv ms ht.2 h2
    exact ⟨a ++ b, by simp [encodeMembers, ha, hb]⟩
theorem encodeCase_ok (res : Resolver) (tc : Struct → StructVal → Bool)
    (venv : MethodEnv StructVal Unit) (eenv : MethodEnv (Option StructVal) (List Byte))
    (hv : venv.res = res) (he : eenv.res = res)
    (hc : ∀ s p, tc s p = true → venv.callee s p = .ok () → ∃ bs, eenv.callee s (some p) = .ok bs)
    (recv : StructVal) :
    ∀ (cs : List UnionCase) (i : Nat), typedCases res false tc recv cs = true →
      validateCase venv recv cs i = .ok () → ∃ bs, encodeCase eenv (some recv) cs i = .ok bs
  | [], _, _, _ => ⟨[], rfl⟩
  | .mk _ ms :: _, 0, ht, hval => by
    simp only [typedCases, Bool.and_eq_true] at ht
    simpa [encodeCase] using
      encodeMembers_ok res tc venv eenv hv he hc recv ms ht.1 (by simpa [validateCase] using hval)
  | .mk _ _ :: cs, i + 1, ht, hval => by
    simp only [typedCases, Bool.and_eq_true] at ht
    simpa [encodeCase] using
      encodeCase_ok res tc venv eenv hv he hc recv cs i ht.2 (by simpa [validateCase] using hval)
end

theorem encodeBinary_ok (res : Resolver) :
    ∀ (fuel : Nat) (s : Struct) (v : StructVal), typed res false fuel s v = true →
      validate res fuel s v = .ok () → ∃ bs, encodeBinary res fuel s (some v) = .ok bs
  | 0, _, _, h, _ => by simp [typed] at h
  | n + 1, s, v, ht, hval => by
    obtain ⟨bs, hbs⟩ := encodeMembers_ok res (typed res false n) ⟨res, validate res n⟩
      ⟨res, encodeBinary res n⟩ rfl rfl (fun s p h1 h2 => encodeBinary_ok res n s p h1 h2)
      v s.Members (typed_members res false n s v ht) (by simpa [validate] using hval)
    exact ⟨bs, by simpa [encodeBinary] using hbs⟩

/-- C8, as the code has it: on every in-memory value of the struct type in which all
struct references are set and on which `validate` succeeds, the unchecked encoder
`encodeBinary` returns a byte sequence: it neither panics nor runs out of the fuel that
bounds the nesting depth of the value.  The same bytes are what `MarshalBinary` returns. -/
theorem encodeBinary_total_on_valid (res : Resolver) (fuel : Nat) (s : Struct) (v : StructVal)
    (ht : typed res false fuel s v = true) (hval : validate res fuel s v = .ok ()) :
    ∃ bs, encodeBinary res fuel s (some v) = .ok bs ∧ MarshalBinary res fuel s v = .ok bs := by
  obtain ⟨bs, he⟩ := encodeBinary_ok res fuel s v ht hval
  exact ⟨bs, he, by simp [MarshalBinary, hval, he]⟩

/-- C8 at the value `{Count: 3, Data: [10, 20, 30]}` of the tests. -/
theorem encodeBinary_total_on_valid_witness :
    ∃ bs, encodeBinary exampleRes 1 SimpleArray (some simpleArray3) = .ok bs ∧
      MarshalBinary exampleRes 1 SimpleArray simpleArray3 = .ok bs :=
  encodeBinary_total_on_valid exampleRes 1 SimpleArray simpleArray3 (by decide) rfl

/-- C8 fails as stated: on `{Count: 5, Data: [1, 2, 3]}` the loop printed by `encodeArray`
runs `idx` up to the count and indexes `Data[3]`, a run-time panic. -/
theorem encodeBinary_panics_on_count_mismatch :
    encodeBinary exampleRes 1 SimpleArray (some simpleArrayBad) = .panic :=
  rfl

/-! ## Big-endian integers -/

theorem putUint_length : ∀ (n x : Nat), (putUint n x).length = n
  | 0, _ => rfl
  | n + 1, x => by simp [putUint, putUint_length n x]

theorem bigEndian_putUint : ∀ (n x : Nat), bigEndian (putUint n x) = x % 256 ^ n
  | 0, x => by simp [putUint, bigEndian, Nat.mod_one]
  | n + 1, x => by
    have hv : (Fin.ofNat (x / 256 ^ n) : Fin 256).val = x / 256 ^ n % 256 := rfl
    simp only [putUint, bigEndian, putUint_length, bigEndian_putUint n x, hv]
    rw [Nat.mod_pow_succ]
    ring

theorem bigEndian_take_putUint (n x : Nat) (rest : List Byte) (h : x < 256 ^ n) :
    bigEndian ((putUint n x ++ rest).take n) = x := by
  rw [List.take_left' (putUint_length n x), bigEndian_putUint, Nat.mod_eq_of_lt h]

theorem drop_putUint (n x : Nat) (rest : List Byte) : (putUint n x ++ rest).drop n = rest :=
  List.drop_left' (putUint_length n x)

theorem validSize_pow (size : Nat) (h : validSize size = true) : 2 ^ size = 256 ^ (size / 8) := by
  simp only [validSize, Bool.or_eq_true, beq_iff_eq] at h
  rcases h with ((h | h) | h) | h <;> subst h <;> norm_num

/-! ## Round trip on the plain fragment -/

theorem validateBase_int (venv : MethodEnv StructVal Unit) (t : IntType) (x : Nat) :
    validateBase venv (.IntType t) (.int x) = checkConstraint venv.res x t.Constraint := by
  simp only [validateBase, validateIntType]
  cases t.Constraint <;> simp [checkConstraint]

theorem lengthCheck_ok (cur : List Byte) (n : Nat) (h : n ≤ cur.length) :
    lengthCheck cur (n : Int) = .ok () := by
  simp only [lengthCheck]
  rw [if_neg]
  omega

theorem parseIntType_putUint (res : Resolver) (t : IntType) (x : Nat) (rest : List Byte)
    (hs : validSize t.Size = true) (hx : x < 2 ^ t.Size)
    (hc : checkConstraint res x t.Constraint = .ok ()) :
    parseIntType res true t (putUint (t.Size / 8) x ++ rest) = .ok (.int x, rest) := by
  rw [validSize_pow t.Size hs] at hx
  simp only [parseIntType, hs, if_true, bind_eq, pure_eq]
  rw [lengthCheck_ok _ _ (by simp [putUint_length])]
  simp [bigEndian_take_putUint _ _ _ hx, hc, drop_putUint]

theorem parseBase_encodeBase (res : Resolver) (tc : Struct → StructVal → Bool)
    (venv : MethodEnv StructVal Unit) (eenv : MethodEnv (Option StructVal) (List Byte))
    (penv : ParseEnv) (hv : venv.res = res) (he : eenv.res = res) (hp : penv.res = res)
    (hctx : penv.ctxs = []) (hc : CalleeRoundTrip tc venv eenv penv)
    (b : ArrayBase) (x : Val) (ht : typedBase res false tc b x = true)
    (hval : validateBase venv b x = .ok ()) :
    ∃ bs, encodeBase eenv b x = .ok bs ∧
      ∀ rest, parseBase penv b true (bs ++ rest) = .ok (x, rest) := by
  cases b with
  | IntType t =>
    cases x <;> simp [typedBase] at ht
    rename_i k
    rw [validateBase_int, hv] at hval
    exact ⟨putUint (t.Size / 8) k, by simp [encodeBase, encodeIntType_ok _ t ht.1.1], fun rest => by
      simpa [parseBase, hp] using parseIntType_putUint res t k rest ht.1.1 ht.1.2 hval⟩
  | CharType =>
    cases x <;> simp [typedBase] at ht
    rename_i k
    exact ⟨putUint (U8.Size / 8) k, by simp [encodeBase, encodeIntType_ok _ U8 rfl], fun rest => by
      simpa [parseBase, hp] using parseIntType_putUint res U8 k rest rfl (by simpa [U8] using ht) rfl⟩
  | StructRef n =>
    cases x with
    | ref p =>
      cases p with
      | none => simp [typedBase] at ht
      | some p =>
        simp only [typedBase] at ht
        cases hs : res.Struct n with
        | none => simp [hs] at ht
        | some s =>
          simp only [hs] at ht
          simp only [validateBase, validateStructRef, ok_bind, hv, hs] at hval
          obtain ⟨hcx, bs, hbs, hparse⟩ := hc s p ht hval
          exact ⟨bs, by simp [encodeBase, he, hs, hbs], fun rest => by
            simp [parseBase, parseStructRef, hp, hs, hctx, hcx, contextArgs, hparse rest]⟩
    | _ => simp [typedBase] at ht

theorem parseFor_encodeFor (eelem : Val → Outcome (List Byte))
    (pelem : Bool → List Byte → Outcome (Val × List Byte)) (xs : List Val)
    (h : ∀ x ∈ xs, ∃ bs, eelem x = .ok bs ∧ ∀ rest, pelem true (bs ++ rest) = .ok (x, rest)) :
    ∀ (n idx : Nat) (zs : List Val), idx + n = xs.length → zs.length = n →
      ∃ bs, encodeFor eelem xs n idx = .ok bs ∧
        ∀ rest, parseFor pelem n idx (xs.take idx ++ zs) (bs ++ rest) = .ok (xs, rest)
  | 0, idx, zs, hi, hz => by
    have hzs : zs = [] := List.length_eq_zero.1 hz
    subst hzs
    refine ⟨[], rfl, fun rest => ?_⟩
    have : xs.take idx = xs := List.take_of_length_le (by omega)
    simp [parseFor, this]
  | n + 1, idx, zs, hi, hz => by
    have hidx : idx < xs.length := by omega
    obtain ⟨a, ha, hpa⟩ := h xs[idx] (List.getElem_mem _)
    cases zs with
    | nil => simp at hz
    | cons z zs1 =>
      obtain ⟨b, hb, hpb⟩ := parseFor_encodeFor eelem pelem xs h n (idx + 1) zs1 (by omega)
        (by simpa using hz)
      refine ⟨a ++ b, by simp [encodeFor, List.getElem?_eq_getElem hidx, ha, hb], fun rest => ?_⟩
      have hlen : (xs.take idx).length = idx := by simp; omega
      have hlt : idx < (xs.take idx ++ z :: zs1).length := by simp; omega
      have hset : (xs.take idx ++ z :: zs1).set idx xs[idx] = xs.take (idx + 1) ++ zs1 := by
        rw [List.set_append_right _ _ (by omega), hlen, Nat.sub_self, List.set_cons_zero,
          List.take_succ, List.getElem?_eq_getElem hidx]
        simp only [Option.toList, List.append_assoc, List.cons_append, List.nil_append]
      simp only [parseFor, hlt, decide_True, bind_eq, List.append_assoc, hpa, ok_bind, hset]
      exact hpb rest

theorem validateArray_ok_inv (venv : MethodEnv StructVal Unit) (recv : StructVal) (name : String)
    (b : ArrayBase) (c : Option LengthConstraint) (xs : List Val)
    (hl : recv.lookup name = some (.arr xs)) (h : validateArray venv recv name b c = .ok ()) :
    ∃ size, expectedSize venv.res recv c = .ok size ∧
      (∀ k, size = some k → (xs.length : Int) = k) ∧
      validateElems (validateBase venv b) xs = .ok () := by
  simp only [validateArray, bind_eq, readArr_some recv name xs hl, ok_bind] at h
  obtain ⟨size, hsize, h⟩ := bind_eq_ok h
  obtain ⟨_, hlen, h⟩ := bind_eq_ok h
  refine ⟨size, hsize, ?_, h⟩
  intro k hk
  subst hk
  simp only [checkLength] at hlen
  by_contra hne
  simp [hne] at hlen

theorem parseFor_array (res : Resolver) (tc : Struct → StructVal → Bool)
    (venv : MethodEnv StructVal Unit) (eenv : MethodEnv (Option StructVal) (List Byte))
    (penv : ParseEnv) (hv : venv.res = res) (he : eenv.res = res) (hp : penv.res = res)
    (hctx : penv.ctxs = []) (hc : CalleeRoundTrip tc venv eenv penv)
    (b : ArrayBase) (xs : List Val) (hxs : xs.all (typedBase res false tc b) = true)
    (hval : validateElems (validateBase venv b) xs = .ok ()) (zs : List Val)
    (hzs : zs.length = xs.length) :
    ∃ bs, encodeFor (encodeBase eenv b) xs xs.length 0 = .ok bs ∧
      ∀ rest, parseFor (parseBase penv b) xs.length 0 zs (bs ++ rest) = .ok (xs, rest) := by
  have h := parseFor_encodeFor (encodeBase eenv b) (parseBase penv b) xs (fun x hx =>
    parseBase_encodeBase res tc venv eenv penv hv he hp hctx hc b x
      (List.all_eq_true.1 hxs x hx) (validateElems_ok _ xs hval x hx)) xs.length 0 zs
      (by omega) hzs
  simpa using h

theorem parseType_encodeType (res : Resolver) (tc : Struct → StructVal → Bool)
    (venv : MethodEnv StructVal Unit) (eenv : MethodEnv (Option StructVal) (List Byte))
    (penv : ParseEnv) (hv : venv.res = res) (he : eenv.res = res) (hp : penv.res = res)
    (hctx : penv.ctxs = []) (hc : CalleeRoundTrip tc venv eenv penv)
    (v recv : StructVal) (name : String) (t : Tipe) (x z : Val) (seen : List String)
    (hl : v.lookup name = some x) (hz : zero res t = some z)
    (hplain : plainType seen t = true)
    (hrefs : ∀ r : IDRef, r.Scope = "" → r.Name ∈ seen →
      ref [] (some recv) r = ref [] (some v) r)
    (ht : typedVal res false tc v t x = true)
    (hval : validateType venv v name t = .ok ()) :
    ∃ bs, encodeType eenv (some v) name t = .ok bs ∧
      ∀ rest, parseType penv recv z t (bs ++ rest) = .ok (x, rest) := by
  have hr := readField_some v name x hl
  cases t with
  | NulTermString => simp [plainType] at hplain
  | Ptr => simp [plainType] at hplain
  | IntType t =>
    have := parseBase_encodeBase res tc venv eenv penv hv he hp hctx hc (.IntType t) x
      (by simpa [typedVal] using ht) (by simpa [validateType, validateBase, hr] using hval)
    cases x <;> simp [typedVal, typedBase] at ht
    simpa [encodeType, hr, encodeBase, parseType, parseBase] using this
  | CharType =>
    have := parseBase_encodeBase res tc venv eenv penv hv he hp hctx hc .CharType x
      (by simpa [typedVal] using ht) rfl
    cases x <;> simp [typedVal, typedBase] at ht
    simpa [encodeType, hr, encodeBase, parseType, parseBase] using this
  | StructRef n =>
    have := parseBase_encodeBase res tc venv eenv penv hv he hp hctx hc (.StructRef n) x
      (by simpa [typedVal] using ht) (by simpa [validateType, validateBase, hr] using hval)
    simpa [encodeType, hr, parseType, parseBase] using this
  | FixedArrayMember b size =>
    cases x with
    | arr xs =>
      simp only [typedVal, Bool.and_eq_true] at ht
      cases hN : res.Integer size with
      | none => simp [hN] at ht
      | some N =>
        simp only [hN, decide_eq_true_eq] at ht
        simp only [zero, hN, Option.map_some', Option.some.injEq] at hz
        subst hz
        obtain ⟨_, _, _, hel⟩ := validateArray_ok_inv venv v name b _ xs hl hval
        have hNn : N.toNat = xs.length := by omega
        obtain ⟨bs, hbs, hpar⟩ := parseFor_array res tc venv eenv penv hv he hp hctx hc b xs
          ht.2 hel (List.replicate N.toNat (zeroBase b)) (by simp [hNn])
        rw [hNn] at hpar
        refine ⟨bs, ?_, fun rest => ?_⟩
        · simp only [encodeType, encodeArray, bind_eq, he, integer, hN, Outcome.ofOption,
            ok_bind, pure_eq]
          split
          · have h0 : xs.length = 0 := by omega
            rw [h0] at hbs
            simpa [encodeFor] using hbs
          · simpa [readArr_some v name xs hl, hNn] using hbs
        · simp [parseType, parseArray, hp, integer, hN, Outcome.ofOption, hNn, hpar rest]
    | _ => simp [typedVal] at ht
  | VarArrayMember b c =>
    cases x with
    | arr xs =>
      simp only [typedVal, Bool.and_eq_true] at ht
      cases c with
      | none => simp [plainType] at hplain
      | some c =>
        cases c with
        | Integer i => simp [plainType] at hplain
        | Leftover i => simp [plainType] at hplain
        | IDRef r =>
          simp only [plainType, Bool.and_eq_true, beq_iff_eq, decide_eq_true_eq] at hplain
          simp only [zero, Option.some.injEq] at hz
          subst hz
          obtain ⟨size, hsize, hlen, hel⟩ := validateArray_ok_inv venv v name b _ xs hl hval
          simp only [expectedSize, hv] at hsize
          obtain ⟨k, hk, hsize⟩ := bind_eq_ok hsize
          simp only [Outcome.ok.injEq] at hsize
          have hlen1 := hlen _ hsize.symm
          have hNn : (goInt k).toNat = xs.length := by omega
          obtain ⟨bs, hbs, hpar⟩ := parseFor_array res tc venv eenv penv hv he hp hctx hc b xs
            ht.2 hel (List.replicate (goInt k).toNat (zeroBase b)) (by simp [hNn])
          rw [hNn] at hpar
          refine ⟨bs, ?_, fun rest => ?_⟩
          · simp only [encodeType, encodeArray, bind_eq, hk, ok_bind, pure_eq]
            split
            · have h0 : xs.length = 0 := by omega
              rw [h0] at hbs
              simpa [encodeFor] using hbs
            · simpa [readArr_some v name xs hl, hNn] using hbs
          · have hneg : ¬ goInt k < 0 := by omega
            simp [parseType, parseArray, hctx, hrefs r hplain.1 hplain.2, hk, hneg, hNn,
              hpar rest]
    | _ => simp [typedVal] at ht

theorem lookup_append_left (k : String) :
    ∀ (l1 l2 : StructVal), k ∈ l1.map Prod.fst → (l1 ++ l2).lookup k = l1.lookup k
  | [], _, h => by simp at h
  | (k1, w) :: l1, l2, h => by
    simp only [List.cons_append, List.lookup]
    by_cases hk : k = k1
    · subst hk; simp
    · have hne : (k == k1) = false := by simpa using hk
      simp only [hne]
      refine lookup_append_left k l1 l2 ?_
      simpa [hk] using h

theorem lookup_append_right (k : String) :
    ∀ (l1 l2 : StructVal), k ∉ l1.map Prod.fst → (l1 ++ l2).lookup k = l2.lookup k
  | [], _, _ => rfl
  | (k1, w) :: l1, l2, h => by
    simp only [List.map_cons, List.mem_cons, not_or] at h
    have hne : (k == k1) = false := by simpa using h.1
    simp only [List.cons_append, List.lookup, hne]
    exact lookup_append_right k l1 l2 h.2

theorem lookup_cons_self (k : String) (x : Val) (l : StructVal) :
    ((k, x) :: l).lookup k = some x := by
  simp [List.lookup]

theorem setField_append_right (k : String) (x z : Val) :
    ∀ (l1 l2 : StructVal), k ∉ l1.map Prod.fst →
      setField (l1 ++ (k, z) :: l2) k x = l1 ++ (k, x) :: l2
  | [], _, _ => by simp [setField]
  | (k1, w) :: l1, l2, h => by
    simp only [List.map_cons, List.mem_cons, not_or] at h
    have hne : (k1 == k) = false := by simpa using fun e => h.1 e.symm
    simp only [List.cons_append, setField, hne]
    simp [setField_append_right k x z l1 l2 h.2]

theorem ref_append_left (pre l1 l2 : StructVal) (r : IDRef) (hs : r.Scope = "")
    (hm : r.Name ∈ pre.map Prod.fst) :
    ref [] (some (pre ++ l1)) r = ref [] (some (pre ++ l2)) r := by
  simp [ref, hs, readField, lookup_append_left r.Name pre _ hm]

theorem parseMembers_encodeMembers (res : Resolver) (tc : Struct → StructVal → Bool)
    (venv : MethodEnv StructVal Unit) (eenv : MethodEnv (Option StructVal) (List Byte))
    (penv : ParseEnv) (hv : venv.res = res) (he : eenv.res = res) (hp : penv.res = res)
    (hctx : penv.ctxs = []) (hc : CalleeRoundTrip tc venv eenv penv) :
    ∀ (ms : List Member) (pre post zs : StructVal) (fs : List (String × Tipe)),
      plainMembers (pre.map Prod.fst) ms = true →
      structDecl ms = some fs →
      fs.map Prod.fst = post.map Prod.fst →
      zeroFields res fs = some zs →
      ((pre ++ post).map Prod.fst).Nodup →
      typedMembers res false tc (pre ++ post) ms = true →
      validateMembers venv (pre ++ post) ms = .ok () →
      ∃ bs, encodeMembers eenv (some (pre ++ post)) ms = .ok bs ∧
        ∀ rest, parseMembers penv ms (pre ++ zs, bs ++ rest) = .ok (pre ++ post, rest)
  | [], pre, post, zs, fs, _, hd, hn, hz, _, _, _ => by
    simp only [structDecl, Option.some.injEq] at hd
    subst hd
    simp only [zeroFields, Option.some.injEq] at hz
    subst hz
    have hpost : post = [] := by simpa using hn.symm
    subst hpost
    exact ⟨[], rfl, fun rest => by simp [parseMembers]⟩
  | .Field name t :: ms, pre, post, zs, fs, hpl, hd, hn, hz, hnd, ht, hval => by
    simp only [plainMembers, Bool.and_eq_true] at hpl
    simp only [structDecl, structMemberDecl] at hd
    cases hd1 : structDecl ms with
    | none => simp [hd1] at hd
    | some fs1 =>
      simp only [hd1, Option.some.injEq] at hd
      subst hd
      have hfs : [(name, t)] ++ fs1 = (name, t) :: fs1 := rfl
      rw [hfs] at hn hz
      cases post with
      | nil => simp at hn
      | cons px post1 =>
        obtain ⟨name1, x⟩ := px
        simp only [List.map_cons, List.cons.injEq] at hn
        obtain ⟨hname, hn1⟩ := hn
        subst hname
        simp only [zeroFields] at hz
        cases hz0 : zero res t with
        | none => simp [hz0] at hz
        | some z =>
          cases hz1 : zeroFields res fs1 with
          | none => simp [hz0, hz1] at hz
          | some zs1 =>
            simp only [hz0, hz1, Option.some.injEq] at hz
            subst hz
            have hnotin : name ∉ pre.map Prod.fst := by
              intro hmem
              simp only [List.map_append, List.map_cons] at hnd
              exact (List.nodup_append.1 hnd).2.2 hmem (List.mem_cons_self _ _)
            have hlv : (pre ++ (name, x) :: post1).lookup name = some x := by
              rw [lookup_append_right name pre _ hnotin, lookup_cons_self]
            simp only [typedMembers, Bool.and_eq_true, typedMember, hlv] at ht
            simp only [validateMembers, bind_eq, validateMember] at hval
            obtain ⟨_, hval1, hval2⟩ := bind_eq_ok hval
            obtain ⟨bs1, hbs1, hpar1⟩ := parseType_encodeType res tc venv eenv penv hv he hp hctx
              hc (pre ++ (name, x) :: post1) (pre ++ (name, z) :: zs1) name t x z
              (pre.map Prod.fst) hlv hz0 hpl.1
              (fun r hs hm => ref_append_left pre _ _ r hs hm) ht.1 hval1
            have hassoc : ∀ l : StructVal, (pre ++ [(name, x)]) ++ l = pre ++ (name, x) :: l := by
              intro l; simp
            obtain ⟨bs2, hbs2, hpar2⟩ := parseMembers_encodeMembers res tc venv eenv penv hv he hp
              hctx hc ms (pre ++ [(name, x)]) post1 zs1 fs1 (by simpa using hpl.2) hd1 hn1 hz1
              (by rw [hassoc]; exact hnd) (by rw [hassoc]; exact ht.2)
              (by rw [hassoc]; exact hval2)
            rw [hassoc] at hbs2
            refine ⟨bs1 ++ bs2, by simp [encodeMembers, encodeMember, hbs1, hbs2], fun rest => ?_⟩
            have hrd : readField (some (pre ++ (name, z) :: zs1)) name = .ok z :=
              readField_some _ _ _ (by rw [lookup_append_right name pre _ hnotin, lookup_cons_self])
            have h2 := hpar2 rest
            rw [hassoc, hassoc] at h2
            simp only [parseMembers, parseMember, bind_eq, hrd, ok_bind, List.append_assoc,
              hpar1, pure_eq, setField_append_right name x z pre zs1 hnotin, h2]
  | .UnionMember _ _ _ _ :: _, _, _, _, _, hpl, _, _, _, _, _, _ => by simp [plainMembers] at hpl
  | .EOS :: _, _, _, _, _, hpl, _, _, _, _, _, _ => by simp [plainMembers] at hpl
  | .Ignore :: _, _, _, _, _, hpl, _, _, _, _, _, _ => by simp [plainMembers] at hpl
  | .Fail :: _, _, _, _, _, hpl, _, _, _, _, _, _ => by simp [plainMembers] at hpl

theorem zero_of_typedVal (res : Resolver) (nilOK : Bool) (tc : Struct → StructVal → Bool)
    (recv : StructVal) (t : Tipe) (x : Val) (h : typedVal res nilOK tc recv t x = true) :
    ∃ z, zero res t = some z := by
  cases t with
  | FixedArrayMember b size =>
    cases x with
    | arr xs =>
      simp only [typedVal, Bool.and_eq_true] at h
      cases hN : res.Integer size with
      | none => simp [hN] at h
      | some N => exact ⟨.arr (List.replicate N.toNat (zeroBase b)), by simp [zero, hN]⟩
    | _ => simp [typedVal] at h
  | _ => exact ⟨_, rfl⟩

theorem zeroFields_of_typedMembers (res : Resolver) (tc : Struct → StructVal → Bool)
    (recv : StructVal) :
    ∀ (seen : List String) (ms : List Member) (fs : List (String × Tipe)),
      plainMembers seen ms = true → structDecl ms = some fs →
      typedMembers res false tc recv ms = true → ∃ zs, zeroFields res fs = some zs
  | _, [], fs, _, hd, _ => by
    simp only [structDecl, Option.some.injEq] at hd
    subst hd
    exact ⟨[], rfl⟩
  | seen, .Field name t :: ms, fs, hpl, hd, ht => by
    simp only [plainMembers, Bool.and_eq_true] at hpl
    simp only [structDecl, structMemberDecl] at hd
    cases hd1 : structDecl ms with
    | none => simp [hd1] at hd
    | some fs1 =>
      simp only [hd1, Option.some.injEq] at hd
      subst hd
      simp only [typedMembers, Bool.and_eq_true, typedMember] at ht
      obtain ⟨zs1, hzs1⟩ := zeroFields_of_typedMembers res tc recv _ ms fs1 hpl.2 hd1 ht.2
      cases hl : recv.lookup name with
      | none => simp [hl] at ht
      | some x =>
        simp only [hl] at ht
        obtain ⟨z, hz⟩ := zero_of_typedVal res false tc recv t x ht.1
        have hfs : [(name, t)] ++ fs1 = (name, t) :: fs1 := rfl
        exact ⟨(name, z) :: zs1, by rw [hfs]; simp [zeroFields, hz, hzs1]⟩
  | _, .UnionMember _ _ _ _ :: _, _, hpl, _, _ => by simp [plainMembers] at hpl
  | _, .EOS :: _, _, hpl, _, _ => by simp [plainMembers] at hpl
  | _, .Ignore :: _, _, hpl, _, _ => by simp [plainMembers] at hpl
  | _, .Fail :: _, _, hpl, _, _ => by simp [plainMembers] at hpl

theorem plain_contexts (res : Resolver) :
    ∀ (fuel : Nat) (s : Struct) (v : StructVal), plain res fuel s v = true → s.Contexts = []
  | 0, _, _, h => by simp [plain] at h
  | n + 1, s, v, h => by
    simp only [plain, Bool.and_eq_true, List.isEmpty_iff] at h
    exact h.1.1.1.1

theorem plain_roundtrip (res : Resolver) :
    ∀ (fuel : Nat) (s : Struct) (v : StructVal), plain res fuel s v = true →
      validate res fuel s v = .ok () →
      ∃ bs, encodeBinary res fuel s (some v) = .ok bs ∧
        ∀ rest, Parse res fuel s [] (bs ++ rest) = .ok (v, rest)
  | 0, _, _, h, _ => by simp [plain] at h
  | n + 1, s, v, hpl, hval => by
    have hc : ∀ len, CalleeRoundTrip (plain res n) ⟨res, validate res n⟩
        ⟨res, encodeBinary res n⟩ ⟨res, [], len, n, Parse res n⟩ := fun len s1 p h1 h2 =>
      ⟨plain_contexts res n s1 p h1, plain_roundtrip res n s1 p h1 h2⟩
    simp only [plain, Bool.and_eq_true, decide_eq_true_eq] at hpl
    obtain ⟨⟨⟨⟨_, hpm⟩, hnames⟩, hnd⟩, ht⟩ := hpl
    cases hd : structDecl s.Members with
    | none => simp [hd] at hnames
    | some fs =>
      simp only [hd, decide_eq_true_eq] at hnames
      obtain ⟨zs, hzs⟩ := zeroFields_of_typedMembers res (plain res n) v [] s.Members fs hpm hd ht
      have hnew : newStruct res s = .ok zs := by simp [newStruct, hd, hzs, Outcome.ofOption]
      have key := fun len => parseMembers_encodeMembers res (plain res n) ⟨res, validate res n⟩
        ⟨res, encodeBinary res n⟩ ⟨res, [], len, n, Parse res n⟩ rfl rfl rfl rfl (hc len)
        s.Members [] v zs fs hpm hd hnames hzs hnd ht (by simpa [validate] using hval)
      obtain ⟨bs, hbs, _⟩ := key 0
      refine ⟨bs, by simpa [encodeBinary] using hbs, fun rest => ?_⟩
      obtain ⟨bs1, hbs1, hpar⟩ := key (bs ++ rest).length
      have hEq : bs1 = bs := by
        simp only [List.nil_append] at hbs hbs1
        rw [hbs] at hbs1
        exact (Outcome.ok.inj hbs1).symm
      subst hEq
      simpa [Parse, hnew] using hpar rest

/-- C1, as the code has it: on the plain fragment (integer and char fields, fixed arrays,
arrays counted by an integer field declared earlier in the struct, set references to
structs of the same kind) the round trip holds: for every value on which `validate`
succeeds, `MarshalBinary` returns bytes on which `Parse` succeeds with that same value and
an empty remainder, and `ParseS` returns that value. -/
theorem roundtrip_plain (res : Resolver) (fuel : Nat) (s : Struct) (v : StructVal)
    (hpl : plain res fuel s v = true) (hval : validate res fuel s v = .ok ()) :
    ∃ bs, MarshalBinary res fuel s v = .ok bs ∧ Parse res fuel s [] bs = .ok (v, []) ∧
      ParseS res fuel s [] bs = .ok v := by
  obtain ⟨bs, hbs, hpar⟩ := plain_roundtrip res fuel s v hpl hval
  have hp : Parse res fuel s [] bs = .ok (v, []) := by simpa using hpar []
  exact ⟨bs, by simp [MarshalBinary, hval, hbs], hp, by simp [ParseS, hp]⟩

/-- C1 at the value of `TestNestedStructRoundTrip`, a struct with a nested struct and a
counted array of nested structs. -/
theorem roundtrip_plain_witness :
    ∃ bs, MarshalBinary exampleRes 2 Outer outerValue = .ok bs ∧
      Parse exampleRes 2 Outer [] bs = .ok (outerValue, []) ∧
      ParseS exampleRes 2 Outer [] bs = .ok outerValue :=
  roundtrip_plain exampleRes 2 Outer outerValue (by decide) rfl

/-- C1 fails as stated: the value of `TestUnionByteDataRoundTrip` is valid and encodes to
`[1, 255]`, and `ParsePacket` of these bytes returns a value whose field `WordData` is 0,
not the 999 of the original: the fields of the unselected cases are not encoded. -/
theorem roundtrip_loses_unselected_fields :
    validate exampleRes 1 Packet packetByte = .ok () ∧
    MarshalBinary exampleRes 1 Packet packetByte = .ok [1, 255] ∧
    ParseS exampleRes 1 Packet [] [1, 255] = .ok packetByteParsed ∧
    ParseS exampleRes 1 Packet [] [1, 255] ≠ .ok packetByte := by
  have h : ParseS exampleRes 1 Packet [] [1, 255] = .ok packetByteParsed := rfl
  refine ⟨rfl, rfl, h, ?_⟩
  rw [h]
  intro hEq
  have h2 := congrArg (fun o => match o with
    | Outcome.ok r => List.lookup "WordData" r
    | _ => none) hEq
  simp [packetByteParsed, packetByte, List.lookup] at h2

/-! ## Truncated input on the plain fragment -/

theorem eq_of_exists_ok {α : Type} {o : Outcome α} {P : α → Prop}
    (h : ∃ a, o = .ok a ∧ P a) {a : α} (ha : o = .ok a) : P a := by
  obtain ⟨a1, h1, h2⟩ := h
  rw [ha] at h1
  cases h1
  exact h2

theorem parseIntType_short (res : Resolver) (t : IntType) (cur : List Byte)
    (hs : validSize t.Size = true) (hlen : cur.length < t.Size / 8) :
    parseIntType res true t cur = .error .dataTooShort := by
  have hlt : (cur.length : Int) < (t.Size : Int) / 8 := by omega
  simp [parseIntType, hs, lengthCheck, hlt]

theorem parseBase_truncated (res : Resolver) (tc : Struct → StructVal → Bool)
    (venv : MethodEnv StructVal Unit) (eenv : MethodEnv (Option StructVal) (List Byte))
    (penv : ParseEnv) (hv : venv.res = res) (he : eenv.res = res) (hp : penv.res = res)
    (hctx : penv.ctxs = []) (hc : CalleeRoundTrip tc venv eenv penv)
    (hct : CalleeTruncated tc venv eenv penv)
    (b : ArrayBase) (x : Val) (ht : typedBase res false tc b x = true)
    (hval : validateBase venv b x = .ok ()) (bs : List Byte)
    (hbs : encodeBase eenv b x = .ok bs) (k : Nat) (hk : k < bs.length) :
    parseBase penv b true (bs.take k) = .error .dataTooShort := by
  cases b with
  | IntType t =>
    cases x <;> simp [typedBase] at ht
    simp only [encodeBase, encodeIntType_ok _ t ht.1.1, Outcome.ok.injEq] at hbs
    subst hbs
    rw [putUint_length] at hk
    simp only [parseBase, hp]
    exact parseIntType_short res t _ ht.1.1 (by simp [putUint_length]; omega)
  | CharType =>
    cases x <;> simp [typedBase] at ht
    simp only [encodeBase, encodeIntType_ok _ U8 rfl, Outcome.ok.injEq] at hbs
    subst hbs
    rw [putUint_length] at hk
    simp only [parseBase, hp]
    exact parseIntType_short res U8 _ rfl (by simp [putUint_length]; omega)
  | StructRef n =>
    cases x with
    | ref p =>
      cases p with
      | none => simp [typedBase] at ht
      | some p =>
        simp only [typedBase] at ht
        cases hs : res.Struct n with
        | none => simp [hs] at ht
        | some s =>
          simp only [hs] at ht
          simp only [validateBase, validateStructRef, ok_bind, hv, hs] at hval
          simp only [encodeBase, he, hs] at hbs
          have hcx := (hc s p ht hval).1
          have := hct s p bs ht hval hbs k hk
          simp [parseBase, parseStructRef, hp, hs, hctx, hcx, contextArgs, this]
    | _ => simp [typedBase] at ht

theorem encodeFor_succ (eelem : Val → Outcome (List Byte)) (xs : List Val) (n idx : Nat)
    (bs : List Byte) (h : encodeFor eelem xs (n + 1) idx = .ok bs) :
    ∃ x a b, xs[idx]? = some x ∧ eelem x = .ok a ∧ encodeFor eelem xs n (idx + 1) = .ok b ∧
      bs = a ++ b := by
  simp only [encodeFor] at h
  cases hx : xs[idx]? with
  | none => simp [hx] at h
  | some x =>
    simp only [hx, bind_eq, pure_eq] at h
    obtain ⟨a, ha, h⟩ := bind_eq_ok h
    obtain ⟨b, hb, h⟩ := bind_eq_ok h
    exact ⟨x, a, b, rfl, ha, hb, (Outcome.ok.inj h).symm⟩

theorem take_append_cases (a b : List Byte) (k : Nat) (hk : k < (a ++ b).length) :
    (k < a.length ∧ (a ++ b).take k = a.take k) ∨
    (k - a.length < b.length ∧ (a ++ b).take k = a ++ b.take (k - a.length)) := by
  by_cases h : k < a.length
  · exact Or.inl ⟨h, by rw [List.take_append_of_le_length (by omega)]⟩
  · refine Or.inr ⟨by simp at hk; omega, ?_⟩
    rw [List.take_append_eq_append_take, List.take_of_length_le (by omega)]

theorem parseFor_truncated (eelem : Val → Outcome (List Byte))
    (pelem : Bool → List Byte → Outcome (Val × List Byte)) (xs : List Val)
    (h : ∀ x ∈ xs, ∀ a, eelem x = .ok a →
      (∀ rest, pelem true (a ++ rest) = .ok (x, rest)) ∧
      (∀ k, k < a.length → pelem true (a.take k) = .error .dataTooShort)) :
    ∀ (n idx : Nat) (lhs : List Val) (bs : List Byte), idx + n ≤ lhs.length →
      encodeFor eelem xs n idx = .ok bs → ∀ k, k < bs.length →
      parseFor pelem n idx lhs (bs.take k) = .error .dataTooShort
  | 0, _, _, bs, _, hbs, k, hk => by
    simp only [encodeFor, Outcome.ok.injEq] at hbs
    subst hbs
    simp at hk
  | n + 1, idx, lhs, bs, hle, hbs, k, hk => by
    obtain ⟨x, a, b, hx, ha, hb, hab⟩ := encodeFor_succ eelem xs n idx bs hbs
    subst hab
    have hmem : x ∈ xs := List.getElem?_mem hx
    obtain ⟨hrt, htr⟩ := h x hmem a ha
    have hlt : idx < lhs.length := by omega
    simp only [parseFor, hlt, decide_True, bind_eq]
    rcases take_append_cases a b k hk with ⟨hka, htake⟩ | ⟨hkb, htake⟩
    · rw [htake, htr k hka]
      rfl
    · rw [htake, hrt]
      simp only [ok_bind]
      exact parseFor_truncated eelem pelem xs h n (idx + 1) _ b (by simp; omega) hb _ hkb

theorem parseFor_array_truncated (res : Resolver) (tc : Struct → StructVal → Bool)
    (venv : MethodEnv StructVal Unit) (eenv : MethodEnv (Option StructVal) (List Byte))
    (penv : ParseEnv) (hv : venv.res = res) (he : eenv.res = res) (hp : penv.res = res)
    (hctx : penv.ctxs = []) (hc : CalleeRoundTrip tc venv eenv penv)
    (hct : CalleeTruncated tc venv eenv penv)
    (b : ArrayBase) (xs : List Val) (hxs : xs.all (typedBase res false tc b) = true)
    (hval : validateElems (validateBase venv b) xs = .ok ()) (zs : List Val)
    (hzs : zs.length = xs.length) (bs : List Byte)
    (hbs : encodeFor (encodeBase eenv b) xs xs.length 0 = .ok bs) (k : Nat)
    (hk : k < bs.length) :
    parseFor (parseBase penv b) xs.length 0 zs (bs.take k) = .error .dataTooShort := by
  refine parseFor_truncated (encodeBase eenv b) (parseBase penv b) xs (fun x hx a ha => ?_)
    xs.length 0 zs bs (by omega) hbs k hk
  have ht := List.all_eq_true.1 hxs x hx
  have hvx := validateElems_ok _ xs hval x hx
  exact ⟨eq_of_exists_ok (parseBase_encodeBase res tc venv eenv penv hv he hp hctx hc b x ht hvx) ha,
    fun k hk => parseBase_truncated res tc venv eenv penv hv he hp hctx hc hct b x ht hvx a ha k hk⟩

theorem parseType_truncated (res : Resolver) (tc : Struct → StructVal → Bool)
    (venv : MethodEnv StructVal Unit) (eenv : MethodEnv (Option StructVal) (List Byte))
    (penv : ParseEnv) (hv : venv.res = res) (he : eenv.res = res) (hp : penv.res = res)
    (hctx : penv.ctxs = []) (hc : CalleeRoundTrip tc venv eenv penv)
    (hct : CalleeTruncated tc venv eenv penv)
    (v recv : StructVal) (name : String) (t : Tipe) (x z : Val) (seen : List String)
    (hl : v.lookup name = some x) (hz : zero res t = some z)
    (hplain : plainType seen t = true)
    (hrefs : ∀ r : IDRef, r.Scope = "" → r.Name ∈ seen →
      ref [] (some recv) r = ref [] (some v) r)
    (ht : typedVal res false tc v t x = true)
    (hval : validateType venv v name t = .ok ()) (bs : List Byte)
    (hbs : encodeType eenv (some v) name t = .ok bs) (k : Nat) (hk : k < bs.length) :
    parseType penv recv z t (bs.take k) = .error .dataTooShort := by
  have hr := readField_some v name x hl
  cases t with
  | NulTermString => simp [plainType] at hplain
  | Ptr => simp [plainType] at hplain
  | IntType t =>
    have hb : typedBase res false tc (.IntType t) x = true := by simpa [typedVal] using ht
    have := parseBase_truncated res tc venv eenv penv hv he hp hctx hc hct (.IntType t) x hb
      (by simpa [validateType, validateBase, hr] using hval) bs
    cases x <;> simp [typedBase] at hb
    exact this (by simpa [encodeType, hr, encodeBase] using hbs) k hk
  | CharType =>
    have hb : typedBase res false tc .CharType x = true := by simpa [typedVal] using ht
    have := parseBase_truncated res tc venv eenv penv hv he hp hctx hc hct .CharType x hb rfl bs
    cases x <;> simp [typedBase] at hb
    exact this (by simpa [encodeType, hr, encodeBase] using hbs) k hk
  | StructRef n =>
    exact parseBase_truncated res tc venv eenv penv hv he hp hctx hc hct (.StructRef n) x
      (by simpa [typedVal] using ht) (by simpa [validateType, validateBase, hr] using hval) bs
      (by simpa [encodeType, hr] using hbs) k hk
  | FixedArrayMember b size =>
    cases x with
    | arr xs =>
      simp only [typedVal, Bool.and_eq_true] at ht
      cases hN : res.Integer size with
      | none => simp [hN] at ht
      | some N =>
        simp only [hN, decide_eq_true_eq] at ht
        simp only [zero, hN, Option.map_some', Option.some.injEq] at hz
        subst hz
        obtain ⟨_, _, _, hel⟩ := validateArray_ok_inv venv v name b _ xs hl hval
        have hNn : N.toNat = xs.length := by omega
        simp only [encodeType, encodeArray, bind_eq, he, integer, hN, Outcome.ofOption,
          ok_bind, pure_eq] at hbs
        split at hbs
        · simp only [Outcome.ok.injEq] at hbs
          subst hbs
          simp at hk
        · simp only [readArr_some v name xs hl, ok_bind, hNn] at hbs
          have := parseFor_array_truncated res tc venv eenv penv hv he hp hctx hc hct b xs
            ht.2 hel (List.replicate xs.length (zeroBase b)) (by simp) bs hbs k hk
          simp [parseType, parseArray, hp, integer, hN, Outcome.ofOption, hNn, this]
    | _ => simp [typedVal] at ht
  | VarArrayMember b c =>
    cases x with
    | arr xs =>
      simp only [typedVal, Bool.and_eq_true] at ht
      cases c with
      | none => simp [plainType] at hplain
      | some c =>
        cases c with
        | Integer i => simp [plainType] at hplain
        | Leftover i => simp [plainType] at hplain
        | IDRef r =>
          simp only [plainType, Bool.and_eq_true, beq_iff_eq, decide_eq_true_eq] at hplain
          simp only [zero, Option.some.injEq] at hz
          subst hz
          obtain ⟨size, hsize, hlen, hel⟩ := validateArray_ok_inv venv v name b _ xs hl hval
          simp only [expectedSize, hv] at hsize
          obtain ⟨c, hc1, hsize⟩ := bind_eq_ok hsize
          simp only [Outcome.ok.injEq] at hsize
          have hlen1 := hlen _ hsize.symm
          have hNn : (goInt c).toNat = xs.length := by omega
          simp only [encodeType, encodeArray, bind_eq, hc1, ok_bind, pure_eq] at hbs
          split at hbs
          · simp only [Outcome.ok.injEq] at hbs
            subst hbs
            simp at hk
          · simp only [readArr_some v name xs hl, ok_bind, hNn] at hbs
            have := parseFor_array_truncated res tc venv eenv penv hv he hp hctx hc hct b xs
              ht.2 hel (List.replicate xs.length (zeroBase b)) (by simp) bs hbs k hk
            have hneg : ¬ goInt c < 0 := by omega
            simp [parseType, parseArray, hctx, hrefs r hplain.1 hplain.2, hc1, hneg, hNn, this]
    | _ => simp [typedVal] at ht

theorem parseMembers_truncated (res : Resolver) (tc : Struct → StructVal → Bool)
    (venv : MethodEnv StructVal Unit) (eenv : MethodEnv (Option StructVal) (List Byte))
    (penv : ParseEnv) (hv : venv.res = res) (he : eenv.res = res) (hp : penv.res = res)
    (hctx : penv.ctxs = []) (hc : CalleeRoundTrip tc venv eenv penv)
    (hct : CalleeTruncated tc venv eenv penv) :
    ∀ (ms : List Member) (pre post zs : StructVal) (fs : List (String × Tipe)),
      plainMembers (pre.map Prod.fst) ms = true →
      structDecl ms = some fs →
      fs.map Prod.fst = post.map Prod.fst →
      zeroFields res fs = some zs →
      ((pre ++ post).map Prod.fst).Nodup →
      typedMembers res false tc (pre ++ post) ms = true →
      validateMembers venv (pre ++ post) ms = .ok () →
      ∀ bs, encodeMembers eenv (some (pre ++ post)) ms = .ok bs → ∀ k, k < bs.length →
        parseMembers penv ms (pre ++ zs, bs.take k) = .error .dataTooShort
  | [], _, _, _, _, _, _, _, _, _, _, _, bs, hbs, k, hk => by
    simp only [encodeMembers, pure_eq, Outcome.ok.injEq] at hbs
    subst hbs
    simp at hk
  | .Field name t :: ms, pre, post, zs, fs, hpl, hd, hn, hz, hnd, ht, hval, bs, hbs, k, hk => by
    simp only [plainMembers, Bool.and_eq_true] at hpl
    simp only [structDecl, structMemberDecl] at hd
    cases hd1 : structDecl ms with
    | none => simp [hd1] at hd
    | some fs1 =>
      simp only [hd1, Option.some.injEq] at hd
      subst hd
      have hfs : [(name, t)] ++ fs1 = (name, t) :: fs1 := rfl
      rw [hfs] at hn hz
      cases post with
      | nil => simp at hn
      | cons px post1 =>
        obtain ⟨name1, x⟩ := px
        simp only [List.map_cons, List.cons.injEq] at hn
        obtain ⟨hname, hn1⟩ := hn
        subst hname
        simp only [zeroFields] at hz
        cases hz0 : zero res t with
        | none => simp [hz0] at hz
        | some z =>
          cases hz1 : zeroFields res fs1 with
          | none => simp [hz0, hz1] at hz
          | some zs1 =>
            simp only [hz0, hz1, Option.some.injEq] at hz
            subst hz
            have hnotin : name ∉ pre.map Prod.fst := by
              intro hmem
              simp only [List.map_append, List.map_cons] at hnd
              exact (List.nodup_append.1 hnd).2.2 hmem (List.mem_cons_self _ _)
            have hlv : (pre ++ (name, x) :: post1).lookup name = some x := by
              rw [lookup_append_right name pre _ hnotin, lookup_cons_self]
            simp only [typedMembers, Bool.and_eq_true, typedMember, hlv] at ht
            simp only [validateMembers, bind_eq, validateMember] at hval
            obtain ⟨_, hval1, hval2⟩ := bind_eq_ok hval
            simp only [encodeMembers, encodeMember, bind_eq, pure_eq] at hbs
            obtain ⟨bs1, hbs1, hbs⟩ := bind_eq_ok hbs
            obtain ⟨bs2, hbs2, hbs⟩ := bind_eq_ok hbs
            simp only [Outcome.ok.injEq] at hbs
            subst hbs
            have hrefs : ∀ r : IDRef, r.Scope = "" → r.Name ∈ pre.map Prod.fst →
                ref [] (some (pre ++ (name, z) :: zs1)) r =
                  ref [] (some (pre ++ (name, x) :: post1)) r :=
              fun r hs hm => ref_append_left pre _ _ r hs hm
            have hrd : readField (some (pre ++ (name, z) :: zs1)) name = .ok z :=
              readField_some _ _ _ (by rw [lookup_append_right name pre _ hnotin, lookup_cons_self])
            simp only [parseMembers, parseMember, bind_eq, hrd, ok_bind]
            rcases take_append_cases bs1 bs2 k hk with ⟨hka, htake⟩ | ⟨hkb, htake⟩
            · rw [htake, parseType_truncated res tc venv eenv penv hv he hp hctx hc hct
                (pre ++ (name, x) :: post1) (pre ++ (name, z) :: zs1) name t x z
                (pre.map Prod.fst) hlv hz0 hpl.1 hrefs ht.1 hval1 bs1 hbs1 k hka]
              rfl
            · have hrt := eq_of_exists_ok (parseType_encodeType res tc venv eenv penv hv he hp
                hctx hc (pre ++ (name, x) :: post1) (pre ++ (name, z) :: zs1) name t x z
                (pre.map Prod.fst) hlv hz0 hpl.1 hrefs ht.1 hval1) hbs1
              have hassoc : ∀ l : StructVal, (pre ++ [(name, x)]) ++ l = pre ++ (name, x) :: l := by
                intro l; simp
              have ih := parseMembers_truncated res tc venv eenv penv hv he hp hctx hc hct ms
                (pre ++ [(name, x)]) post1 zs1 fs1 (by simpa using hpl.2) hd1 hn1 hz1
                (by rw [hassoc]; exact hnd) (by rw [hassoc]; exact ht.2)
                (by rw [hassoc]; exact hval2) bs2 (by rw [hassoc]; exact hbs2) _ hkb
              rw [hassoc] at ih
              simp only [htake, hrt, ok_bind, pure_eq,
                setField_append_right name x z pre zs1 hnotin, ih]
  | .UnionMember _ _ _ _ :: _, _, _, _, _, hpl, _, _, _, _, _, _, _, _, _, _ => by
    simp [plainMembers] at hpl
  | .EOS :: _, _, _, _, _, hpl, _, _, _, _, _, _, _, _, _, _ => by simp [plainMembers] at hpl
  | .Ignore :: _, _, _, _, _, hpl, _, _, _, _, _, _, _, _, _, _ => by simp [plainMembers] at hpl
  | .Fail :: _, _, _, _, _, hpl, _, _, _, _, _, _, _, _, _, _ => by simp [plainMembers] at hpl

theorem plain_truncated (res : Resolver) :
    ∀ (fuel : Nat) (s : Struct) (v : StructVal) (bs : List Byte), plain res fuel s v = true →
      validate res fuel s v = .ok () → encodeBinary res fuel s (some v) = .ok bs →
      ∀ k, k < bs.length → Parse res fuel s [] (bs.take k) = .error .dataTooShort
  | 0, _, _, _, h, _, _, _, _ => by simp [plain] at h
  | n + 1, s, v, bs, hpl, hval, hbs, k, hk => by
    have hc : ∀ len, CalleeRoundTrip (plain res n) ⟨res, validate res n⟩
        ⟨res, encodeBinary res n⟩ ⟨res, [], len, n, Parse res n⟩ := fun len s1 p h1 h2 =>
      ⟨plain_contexts res n s1 p h1, plain_roundtrip res n s1 p h1 h2⟩
    have hct : ∀ len, CalleeTruncated (plain res n) ⟨res, validate res n⟩
        ⟨res, encodeBinary res n⟩ ⟨res, [], len, n, Parse res n⟩ := fun len s1 p bs1 h1 h2 h3 =>
      plain_truncated res n s1 p bs1 h1 h2 h3
    simp only [plain, Bool.and_eq_true, decide_eq_true_eq] at hpl
    obtain ⟨⟨⟨⟨_, hpm⟩, hnames⟩, hnd⟩, ht⟩ := hpl
    cases hd : structDecl s.Members with
    | none => simp [hd] at hnames
    | some fs =>
      simp only [hd, decide_eq_true_eq] at hnames
      obtain ⟨zs, hzs⟩ := zeroFields_of_typedMembers res (plain res n) v [] s.Members fs hpm hd ht
      have hnew : newStruct res s = .ok zs := by simp [newStruct, hd, hzs, Outcome.ofOption]
      have key := parseMembers_truncated res (plain res n) ⟨res, validate res n⟩
        ⟨res, encodeBinary res n⟩ ⟨res, [], (bs.take k).length, n, Parse res n⟩ rfl rfl rfl rfl
        (hc _) (hct _) s.Members [] v zs fs hpm hd hnames hzs hnd ht
        (by simpa [validate] using hval) bs (by simpa [encodeBinary] using hbs) k hk
      simpa [Parse, hnew] using key

/-- C7, as the code has it: on the plain fragment (integer and char fields, fixed arrays,
arrays counted by an integer field declared earlier in the struct, set references to
structs of the same kind), for every value on which `validate` succeeds, `Parse` and
`ParseS` of every strict prefix of the bytes of `MarshalBinary` fail with the
data-too-short error. -/
theorem Parse_rejects_truncated_plain (res : Resolver) (fuel : Nat) (s : Struct) (v : StructVal)
    (hpl : plain res fuel s v = true) (hval : validate res fuel s v = .ok ()) :
    ∃ bs, MarshalBinary res fuel s v = .ok bs ∧
      ∀ p q, p ++ q = bs → q ≠ [] →
        Parse res fuel s [] p = .error .dataTooShort ∧
        ParseS res fuel s [] p = .error .dataTooShort := by
  obtain ⟨bs, hbs, _⟩ := plain_roundtrip res fuel s v hpl hval
  refine ⟨bs, by simp [MarshalBinary, hval, hbs], fun p q hpq hq => ?_⟩
  have hlen : p.length < bs.length := by
    rw [← hpq, List.length_append]
    have : 0 < q.length := List.length_pos.2 hq
    omega
  have hp : Parse res fuel s [] p = .error .dataTooShort := by
    have := plain_truncated res fuel s v bs hpl hval hbs p.length hlen
    rwa [← hpq, List.take_left] at this
  exact ⟨hp, by simp [ParseS, hp]⟩

/-- C7 at the value `{Count: 3, Data: [10, 20, 30]}` of the tests and the prefix
`[3, 10]` of its encoding `[3, 10, 20, 30]`. -/
theorem Parse_rejects_truncated_plain_witness :
    ∃ bs, MarshalBinary exampleRes 1 SimpleArray simpleArray3 = .ok bs ∧
      ∀ p q, p ++ q = bs → q ≠ [] →
        Parse exampleRes 1 SimpleArray [] p = .error .dataTooShort ∧
        ParseS exampleRes 1 SimpleArray [] p = .error .dataTooShort :=
  Parse_rejects_truncated_plain exampleRes 1 SimpleArray simpleArray3 (by decide) rfl

/-- C7 fails as stated: for `u8 tag; u8 rest[];` the valid value with tag 1 and rest
`[2, 3]` encodes to `[1, 2, 3]`, and decode of the strict prefix `[1, 2]` succeeds (with
rest `[2]`): an unbounded array takes whatever bytes are there. -/
theorem Parse_accepts_truncated_unbounded :
    MarshalBinary exampleRes 4 Rest restValue = .ok [1, 2, 3] ∧
    Parse exampleRes 4 Rest [] [1, 2] = .ok ([("Tag", .int 1), ("Rest", .arr [.int 2])], []) ∧
    ParseS exampleRes 4 Rest [] [1, 2] = .ok [("Tag", .int 1), ("Rest", .arr [.int 2])] :=
  ⟨rfl, rfl, rfl⟩

/-! ## Typing is stable under more fuel -/

theorem typedBase_mono (res : Resolver) (nilOK : Bool) (tc tc1 : Struct → StructVal → Bool)
    (h : ∀ s p, tc s p = true → tc1 s p = true) (b : ArrayBase) (v : Val)
    (ht : typedBase res nilOK tc b v = true) : typedBase res nilOK tc1 b v = true := by
  cases b with
  | IntType t => cases v <;> simp_all [typedBase]
  | CharType => cases v <;> simp_all [typedBase]
  | StructRef n =>
    cases v with
    | ref p =>
      cases p with
      | none => simpa [typedBase] using ht
      | some p =>
        simp only [typedBase] at ht ⊢
        cases hs : res.Struct n with
        | none => simp [hs] at ht
        | some s =>
          simp only [hs] at ht ⊢
          exact h s p ht
    | _ => simp [typedBase] at ht

theorem all_typedBase_mono (res : Resolver) (nilOK : Bool) (tc tc1 : Struct → StructVal → Bool)
    (h : ∀ s p, tc s p = true → tc1 s p = true) (b : ArrayBase) (xs : List Val)
    (ht : xs.all (typedBase res nilOK tc b) = true) :
    xs.all (typedBase res nilOK tc1 b) = true :=
  List.all_eq_true.2 fun x hx =>
    typedBase_mono res nilOK tc tc1 h b x (List.all_eq_true.1 ht x hx)

theorem typedVal_mono (res : Resolver) (nilOK : Bool) (tc tc1 : Struct → StructVal → Bool)
    (h : ∀ s p, tc s p = true → tc1 s p = true) (recv : StructVal) (t : Tipe) (v : Val)
    (ht : typedVal res nilOK tc recv t v = true) : typedVal res nilOK tc1 recv t v = true := by
  cases t with
  | NulTermString => cases v <;> simp_all [typedVal]
  | Ptr => cases v <;> simp_all [typedVal]
  | IntType t =>
    simp only [typedVal] at ht ⊢
    exact typedBase_mono res nilOK tc tc1 h _ v ht
  | CharType =>
    simp only [typedVal] at ht ⊢
    exact typedBase_mono res nilOK tc tc1 h _ v ht
  | StructRef n =>
    simp only [typedVal] at ht ⊢
    exact typedBase_mono res nilOK tc tc1 h _ v ht
  | FixedArrayMember b size =>
    cases v with
    | arr xs =>
      simp only [typedVal, Bool.and_eq_true] at ht ⊢
      exact ⟨ht.1, all_typedBase_mono res nilOK tc tc1 h b xs ht.2⟩
    | _ => simp [typedVal] at ht
  | VarArrayMember b c =>
    cases v with
    | arr xs =>
      simp only [typedVal, Bool.and_eq_true] at ht ⊢
      exact ⟨ht.1, all_typedBase_mono res nilOK tc tc1 h b xs ht.2⟩
    | _ => simp [typedVal] at ht

mutual
theorem typedMember_mono (res : Resolver) (nilOK : Bool) (tc tc1 : Struct → StructVal → Bool)
    (h : ∀ s p, tc s p = true → tc1 s p = true) (recv : StructVal) :
    ∀ m : Member, typedMember res nilOK tc recv m = true → typedMember res nilOK tc1 recv m = true
  | .Field name t, ht => by
    simp only [typedMember] at ht ⊢
    cases hl : recv.lookup name with
    | none => simp [hl] at ht
    | some v =>
      simp only [hl] at ht ⊢
      exact typedVal_mono res nilOK tc tc1 h recv t v ht
  | .UnionMember _ tag _ cases, ht => by
    simp only [typedMember, Bool.and_eq_true] at ht ⊢
    exact ⟨ht.1, typedCases_mono res nilOK tc tc1 h recv cases ht.2⟩
  | .EOS, _ => rfl
  | .Ignore, _ => rfl
  | .Fail, _ => rfl
theorem typedMembers_mono (res : Resolver) (nilOK : Bool) (tc tc1 : Struct → StructVal → Bool)
    (h : ∀ s p, tc s p = true → tc1 s p = true) (recv : StructVal) :
    ∀ ms : List Member, typedMembers res nilOK tc recv ms = true →
      typedMembers res nilOK tc1 recv ms = true
  | [], _ => rfl
  | m :: ms, ht => by
    simp only [typedMembers, Bool.and_eq_true] at ht ⊢
    exact ⟨typedMember_mono res nilOK tc tc1 h recv m ht.1,
      typedMembers_mono res nilOK tc tc1 h recv ms ht.2⟩
theorem typedCases_mono (res : Resolver) (nilOK : Bool) (tc tc1 : Struct → StructVal → Bool)
    (h : ∀ s p, tc s p = true → tc1 s p = true) (recv : StructVal) :
    ∀ cs : List UnionCase, typedCases res nilOK tc recv cs = true →
      typedCases res nilOK tc1 recv cs = true
  | [], _ => rfl
  | .mk _ ms :: cs, ht => by
    simp only [typedCases, Bool.and_eq_true] at ht ⊢
    exact ⟨typedMembers_mono res nilOK tc tc1 h recv ms ht.1,
      typedCases_mono res nilOK tc tc1 h recv cs ht.2⟩
end

theorem typed_succ (res : Resolver) (nilOK : Bool) :
    ∀ (fuel : Nat) (s : Struct) (v : StructVal), typed res nilOK fuel s v = true →
      typed res nilOK (fuel + 1) s v = true
  | 0, _, _, h => by simp [typed] at h
  | n + 1, s, v, h => by
    simp only [typed, Bool.and_eq_true] at h
    rw [typed]
    simp only [Bool.and_eq_true]
    exact ⟨h.1, typedMembers_mono res nilOK _ _ (typed_succ res nilOK n) v s.Members h.2⟩

theorem typed_mono (res : Resolver) (nilOK : Bool) (s : Struct) (v : StructVal) (fuel : Nat)
    (h : typed res nilOK fuel s v = true) :
    ∀ more : Nat, typed res nilOK (fuel + more) s v = true
  | 0 => h
  | k + 1 => typed_succ res nilOK (fuel + k) s v (typed_mono res nilOK s v fuel h k)

theorem plain_succ (res : Resolver) :
    ∀ (fuel : Nat) (s : Struct) (v : StructVal), plain res fuel s v = true →
      plain res (fuel + 1) s v = true
  | 0, _, _, h => by simp [plain] at h
  | n + 1, s, v, h => by
    simp only [plain, Bool.and_eq_true] at h
    rw [plain]
    simp only [Bool.and_eq_true]
    exact ⟨h.1, typedMembers_mono res false _ _ (plain_succ res n) v s.Members h.2⟩

theorem plain_mono (res : Resolver) (s : Struct) (v : StructVal) (fuel : Nat)
    (h : plain res fuel s v = true) : ∀ more : Nat, plain res (fuel + more) s v = true
  | 0 => h
  | k + 1 => plain_succ res (fuel + k) s v (plain_mono res s v fuel h k)

/-! ## The formats of the array and string tests -/

@[simp] theorem uint_Size (n : Nat) : (uint n).Size = n := rfl
@[simp] theorem uint_Constraint (n : Nat) : (uint n).Constraint = none := rfl

theorem putUint_one (b : Byte) : putUint 1 b.val = [b] := by
  simp only [putUint, pow_zero, Nat.div_one, List.cons.injEq, and_true]
  apply Fin.ext
  simp [Fin.ofNat, Nat.mod_eq_of_lt b.isLt]

theorem goInt_byte (b : Byte) : goInt b.val = (b.val : Int) := by
  have := b.isLt
  unfold goInt
  have h1 : b.val % 2 ^ 64 = b.val := Nat.mod_eq_of_lt (by omega)
  rw [h1, if_pos (by omega)]

theorem encodeFor_bytes (env : MethodEnv (Option StructVal) (List Byte)) (ds : List Byte) :
    ∀ (n idx : Nat), idx + n = ds.length →
      encodeFor (encodeBase env (.IntType (uint 8))) (ds.map fun d => Val.int d.val) n idx
        = .ok (ds.drop idx)
  | 0, idx, h => by
    simp [encodeFor, List.drop_eq_nil_of_le (show ds.length ≤ idx by omega)]
  | n + 1, idx, h => by
    have hidx : idx < ds.length := by omega
    have ih := encodeFor_bytes env ds n (idx + 1) (by omega)
    rw [List.drop_eq_getElem_cons hidx]
    simp [encodeFor, List.getElem?_eq_getElem, hidx, encodeBase, encodeIntType, validSize,
      ih, putUint_one]

theorem validateElems_bytes (env : MethodEnv StructVal Unit) (xs : List Byte) :
    validateElems (validateBase env (.IntType (uint 8))) (xs.map fun d => Val.int d.val) = .ok () := by
  induction xs with
  | nil => rfl
  | cons x xs ih => simp [validateElems, validateBase, validateIntType, ih]

theorem simpleArray_plain (res : Resolver) (n : Nat) (c : Byte) (ds : List Byte) :
    plain res (n + 1) SimpleArray (simpleArrayValue c ds) = true := by
  simp [plain, SimpleArray, simpleArrayValue, plainMembers, plainType, field, structDecl,
    structMemberDecl, typedMembers, typedMember, List.lookup, typedVal, typedBase, validSize,
    constraintOK, lengthOK, refOK, ref, readField, Outcome.ofOption]

theorem simpleArray_validate (res : Resolver) (n : Nat) (c : Byte) (ds : List Byte)
    (h : ds.length = c.val) :
    validate res (n + 1) SimpleArray (simpleArrayValue c ds) = .ok () := by
  simp [validate, SimpleArray, simpleArrayValue, validateMembers, validateMember, validateType,
    validateIntType, validateArray, readArr, readField, List.lookup, Outcome.ofOption,
    expectedSize, ref, field, checkLength, goInt_byte, h, validateElems_bytes]

theorem simpleArray_encode (res : Resolver) (n : Nat) (c : Byte) (ds : List Byte)
    (h : ds.length = c.val) :
    encodeBinary res (n + 1) SimpleArray (some (simpleArrayValue c ds)) = .ok (c :: ds) := by
  have hf := encodeFor_bytes ⟨res, encodeBinary res n⟩ ds ds.length 0 (by omega)
  simp only [List.drop_zero] at hf
  simp [encodeBinary, SimpleArray, simpleArrayValue, encodeMembers, encodeMember, encodeType,
    encodeArray, readField, readArr, List.lookup, Outcome.ofOption, encodeIntType, validSize,
    putUint_one, ref, field, goInt_byte]
  split
  · have hds : ds = [] := List.length_eq_zero.1 (by omega)
    simp [hds]
  · rw [← h, hf]
    simp

/-- C11: for the format `u8 count; u8 data[count];` and every value whose array holds
`count` elements, `encodeBinary` and `MarshalBinary` both return the count byte followed
by the elements, and `Parse` and the constructor `ParseS` of these bytes succeed and return
a value with the same count and elements, `Parse` with an empty remainder; the count 0
with no element is included. -/
theorem SimpleArray_encode_parse (res : Resolver) (n : Nat) (c : Byte) (ds : List Byte)
    (h : ds.length = c.val) :
    encodeBinary res (n + 1) SimpleArray (some (simpleArrayValue c ds)) = .ok (c :: ds) ∧
    MarshalBinary res (n + 1) SimpleArray (simpleArrayValue c ds) = .ok (c :: ds) ∧
    Parse res (n + 1) SimpleArray [] (c :: ds) = .ok (simpleArrayValue c ds, []) ∧
    ParseS res (n + 1) SimpleArray [] (c :: ds) = .ok (simpleArrayValue c ds) := by
  have henc := simpleArray_encode res n c ds h
  have hval := simpleArray_validate res n c ds h
  obtain ⟨bs, hbs, hpar⟩ :=
    plain_roundtrip res (n + 1) SimpleArray _ (simpleArray_plain res n c ds) hval
  have hEq : bs = c :: ds := by
    rw [henc] at hbs
    exact (Outcome.ok.inj hbs).symm
  subst hEq
  have hp : Parse res (n + 1) SimpleArray [] (c :: ds) = .ok (simpleArrayValue c ds, []) := by
    simpa using hpar []
  exact ⟨henc, by simp [MarshalBinary, hval, henc], hp, by simp [ParseS, hp]⟩

/-- C11 at the values of the tests: `{Count: 3, Data: [10, 20, 30]}` with the bytes
`[3, 10, 20, 30]`, and the empty array `{Count: 0, Data: []}` with the byte `[0]`. -/
theorem SimpleArray_encode_parse_witness :
    (encodeBinary exampleRes 1 SimpleArray (some (simpleArrayValue 3 [10, 20, 30]))
        = .ok [3, 10, 20, 30] ∧
     MarshalBinary exampleRes 1 SimpleArray (simpleArrayValue 3 [10, 20, 30])
        = .ok [3, 10, 20, 30] ∧
     Parse exampleRes 1 SimpleArray [] [3, 10, 20, 30]
        = .ok (simpleArrayValue 3 [10, 20, 30], []) ∧
     ParseS exampleRes 1 SimpleArray [] [3, 10, 20, 30] = .ok (simpleArrayValue 3 [10, 20, 30])) ∧
    (encodeBinary exampleRes 1 SimpleArray (some (simpleArrayValue 0 [])) = .ok [0] ∧
     MarshalBinary exampleRes 1 SimpleArray (simpleArrayValue 0 []) = .ok [0] ∧
     Parse exampleRes 1 SimpleArray [] [0] = .ok (simpleArrayValue 0 [], []) ∧
     ParseS exampleRes 1 SimpleArray [] [0] = .ok (simpleArrayValue 0 [])) :=
  ⟨SimpleArray_encode_parse exampleRes 0 3 [10, 20, 30] rfl,
   SimpleArray_encode_parse exampleRes 0 0 [] rfl⟩

theorem indexByte0_append (s rest : List Byte) (h : (0 : Byte) ∉ s) :
    indexByte0 (s ++ 0 :: rest) = some s.length := by
  induction s with
  | nil => simp [indexByte0]
  | cons a s ih =>
    have ha : a ≠ 0 := fun h0 => h (by simp [h0])
    have hs : (0 : Byte) ∉ s := fun h0 => h (List.mem_cons_of_mem _ h0)
    simp [indexByte0, ha, ih hs]

/-- C12: for the format `u8 type; nulterm text; u8 padding;` and every value, `encodeBinary`
returns the type byte, the bytes of the text, a zero byte and the padding byte; and when
the text holds no zero byte (the empty text included), `Parse` and the constructor `ParseS`
of these bytes succeed and return the same type, text and padding. -/
theorem Message_encode_parse (res : Resolver) (n : Nat) (t p : Byte) (text : List Byte) :
    encodeBinary res (n + 1) Message (some (messageValue t text p))
      = .ok ([t] ++ text ++ [0, p]) ∧
    ((0 : Byte) ∉ text →
      Parse res (n + 1) Message [] ([t] ++ text ++ [0, p]) = .ok (messageValue t text p, []) ∧
      ParseS res (n + 1) Message [] ([t] ++ text ++ [0, p]) = .ok (messageValue t text p)) := by
  constructor
  · simp [encodeBinary, Message, messageValue, encodeMembers, encodeMember, encodeType, readField,
      List.lookup, Outcome.ofOption, encodeIntType, validSize, putUint_one]
  · intro h0
    have hp : Parse res (n + 1) Message [] ([t] ++ text ++ [0, p])
        = .ok (messageValue t text p, []) := by
      have hlen : ¬ ((text.length : Int) + 2 < 0) := by omega
      simp [Parse, newStruct, Message, hlen, structDecl, structMemberDecl, zeroFields, zero,
        Outcome.ofOption, parseMembers, parseMember, readField, List.lookup, parseType,
        parseIntType, validSize, lengthCheck, checkConstraint, setField, bigEndian,
        indexByte0_append text [p] h0, messageValue]
    exact ⟨hp, by simp only [ParseS, bind_eq, hp, ok_bind, pure_eq]⟩

/-- C12 at the text `"Hello"` with type 1 and padding 42, and at the empty text. -/
theorem Message_encode_parse_witness :
    (encodeBinary exampleRes 1 Message (some (messageValue 1 hello 42))
        = .ok [1, 72, 101, 108, 108, 111, 0, 42] ∧
     ParseS exampleRes 1 Message [] [1, 72, 101, 108, 108, 111, 0, 42]
        = .ok (messageValue 1 hello 42)) ∧
    (encodeBinary exampleRes 1 Message (some (messageValue 2 [] 0)) = .ok [2, 0, 0] ∧
     ParseS exampleRes 1 Message [] [2, 0, 0] = .ok (messageValue 2 [] 0)) :=
  ⟨⟨(Message_encode_parse exampleRes 0 1 42 hello).1,
    ((Message_encode_parse exampleRes 0 1 42 hello).2 (by decide)).2⟩,
   ⟨(Message_encode_parse exampleRes 0 2 0 []).1,
    ((Message_encode_parse exampleRes 0 2 0 []).2 (by decide)).2⟩⟩

/-! ## Integer fields, strings and Leftover arrays -/

theorem clause_eq_spec (res : Resolver) (x : Nat) (r : IntegerRange) (b : Bool)
    (h : clause res x r = some b) : b = specInRange res x r := by
  unfold clause at h
  unfold specInRange
  cases hH : r.High with
  | none =>
    simp only [hH] at h
    cases hL : res.Integer r.Low with
    | none => simp [hL] at h
    | some lo => simp [hL] at h; simp [← h, hL]
  | some hi =>
    simp only [hH] at h
    cases hL : res.Integer r.Low with
    | none => simp [hL] at h
    | some lo =>
      cases hHi : res.Integer hi with
      | none => simp [hL, hHi] at h
      | some hv => simp [hL, hHi] at h; simp [← h, hL, hHi]

theorem clauses_eq_spec (res : Resolver) (x : Nat) :
    ∀ (rs : List IntegerRange) (b : Bool), clauses res x rs = some b →
      b = rs.any (specInRange res x)
  | [], b, h => by simp [clauses] at h; simp [← h]
  | r :: rs, b, h => by
    simp only [clauses] at h
    cases h1 : clause res x r with
    | none => simp [h1] at h
    | some b1 =>
      cases h2 : clauses res x rs with
      | none => simp [h1, h2] at h
      | some b2 =>
        simp [h1, h2] at h
        rw [List.any_cons, ← clause_eq_spec res x r b1 h1, ← clauses_eq_spec res x rs b2 h2, h]

theorem conditional_eq_spec (res : Resolver) (x : Nat) (c : IntegerList) (b : Bool)
    (h : conditional res x c = some b) : b = specInRangeSet res x c := by
  unfold conditional at h
  unfold specInRangeSet
  cases hr : c.Ranges with
  | nil => simp [hr] at h
  | cons r rs =>
    simp only [hr] at h
    exact clauses_eq_spec res x (r :: rs) b h

theorem checkConstraint_spec (res : Resolver) (x : Nat) (c : Option IntegerList)
    (hc : constraintOK res c = true) :
    (checkConstraint res x c = .error .integerConstraint ↔
      ∃ l, c = some l ∧ specInRangeSet res x l = false) ∧
    (checkConstraint res x c ≠ .error .integerConstraint → checkConstraint res x c = .ok ()) := by
  cases c with
  | none => simp [checkConstraint]
  | some l =>
    obtain ⟨b, hb⟩ := conditional_of_constraintOK res x l hc
    have hs := conditional_eq_spec res x l b hb
    cases b <;> simp [checkConstraint, hb, ← hs]

/-- C15: decode of an integer field of width 8, 16, 32 or 64 on the cursor `b`.  With fewer
than `width / 8` bytes it fails with "data too short".  Otherwise the value is the
big-endian unsigned integer of the first `width / 8` bytes; decode fails with "integer
constraint violated" exactly when a constraint is declared and the value is in none of
its ranges; and when it does not fail so, it succeeds with that value and the cursor `b`
without its first `width / 8` bytes.  Encode appends exactly `width / 8` bytes, whose
big-endian value is the value of the field. -/
theorem parseIntType_spec (env : ParseEnv) (recv : StructVal) (lhs : Val) (t : IntType)
    (b : List Byte) (hs : validSize t.Size = true)
    (hc : constraintOK env.res t.Constraint = true) :
    (b.length < t.Size / 8 → parseType env recv lhs (.IntType t) b = .error .dataTooShort) ∧
    (t.Size / 8 ≤ b.length →
      (parseType env recv lhs (.IntType t) b = .error .integerConstraint ↔
        ∃ c, t.Constraint = some c ∧
          specInRangeSet env.res (bigEndian (b.take (t.Size / 8))) c = false) ∧
      (parseType env recv lhs (.IntType t) b ≠ .error .integerConstraint →
        parseType env recv lhs (.IntType t) b
          = .ok (.int (bigEndian (b.take (t.Size / 8))), b.drop (t.Size / 8)))) ∧
    (∀ (eenv : MethodEnv (Option StructVal) (List Byte)) (name : String) (rv : StructVal)
        (x : Nat), rv.lookup name = some (.int x) → x < 2 ^ t.Size →
      ∃ bs, encodeType eenv (some rv) name (.IntType t) = .ok bs ∧ bs.length = t.Size / 8 ∧
        bigEndian bs = x) := by
  refine ⟨fun hlt => ?_, fun hle => ?_, fun eenv name rv x hl hx => ?_⟩
  · have : (b.length : Int) < (t.Size : Int) / 8 := by omega
    simp [parseType, parseIntType, hs, lengthCheck, this]
  · obtain ⟨h1, h2⟩ := checkConstraint_spec env.res (bigEndian (b.take (t.Size / 8))) t.Constraint hc
    have hl : lengthCheck b ((t.Size / 8 : Nat) : Int) = .ok () := lengthCheck_ok b _ hle
    have hp : parseType env recv lhs (.IntType t) b =
        (checkConstraint env.res (bigEndian (b.take (t.Size / 8))) t.Constraint).bind fun _ =>
          .ok (.int (bigEndian (b.take (t.Size / 8))), b.drop (t.Size / 8)) := by
      simp only [parseType, parseIntType, hs, if_true, bind_eq, pure_eq, hl, ok_bind]
    rw [hp]
    constructor
    · rw [← h1]
      cases checkConstraint env.res (bigEndian (b.take (t.Size / 8))) t.Constraint <;> simp
    · intro hne
      have : checkConstraint env.res (bigEndian (b.take (t.Size / 8))) t.Constraint ≠
          .error .integerConstraint := by
        intro he
        rw [he] at hne
        simp at hne
      rw [h2 this]
      rfl
  · refine ⟨putUint (t.Size / 8) x, ?_, putUint_length _ _, ?_⟩
    · simp [encodeType, readField, hl, Outcome.ofOption, encodeIntType, hs]
    · rw [bigEndian_putUint, ← validSize_pow t.Size hs]
      exact Nat.mod_eq_of_lt hx

/-- C15 at the field `u8 version IN [5]`: the empty cursor, the cursor `[4, 1]` whose value
violates the constraint, the cursor `[5, 1]`, and the encoding of the value 4. -/
theorem parseIntType_spec_witness :
    parseType exampleEnv [] (.int 0) (.IntType versionType) [] = .error .dataTooShort ∧
    (parseType exampleEnv [] (.int 0) (.IntType versionType) [4, 1] = .error .integerConstraint ↔
        ∃ c, versionType.Constraint = some c ∧
          specInRangeSet exampleRes (bigEndian (List.take (versionType.Size / 8) [4, 1])) c = false) ∧
    parseType exampleEnv [] (.int 0) (.IntType versionType) [5, 1] = .ok (.int 5, [1]) ∧
    (∃ bs, encodeType ⟨exampleRes, encodeBinary exampleRes 0⟩ (some socks5BadVersion) "Version"
        (.IntType versionType) = .ok bs ∧ bs.length = 1 ∧ bigEndian bs = 4) :=
  have h := parseIntType_spec exampleEnv [] (.int 0) versionType
  ⟨(h [] (by decide) (by decide)).1 (by decide),
   ((h [4, 1] (by decide) (by decide)).2.1 (by decide)).1,
   ((h [5, 1] (by decide) (by decide)).2.1 (by decide)).2 (fun e => nomatch e),
   (h [] (by decide) (by decide)).2.2 _ "Version" socks5BadVersion 4 rfl (by decide)⟩

theorem indexByte0_none : ∀ b : List Byte, (0 : Byte) ∉ b → indexByte0 b = none
  | [], _ => rfl
  | a :: s, h => by
    have ha : a ≠ 0 := fun h0 => h (by simp [h0])
    have hs : (0 : Byte) ∉ s := fun h0 => h (List.mem_cons_of_mem _ h0)
    simp [indexByte0, ha, indexByte0_none s hs]

theorem indexByte0_first (b : List Byte) (i : Nat) (hi : b[i]? = some 0)
    (hfirst : (0 : Byte) ∉ b.take i) : indexByte0 b = some i := by
  have hlt : i < b.length := by
    by_contra hge
    rw [List.getElem?_eq_none (by omega)] at hi
    simp at hi
  have hb : b = b.take i ++ 0 :: b.drop (i + 1) := by
    have h0 : b[i] = 0 := by
      rw [List.getElem?_eq_getElem hlt] at hi
      exact Option.some.inj hi
    rw [← h0, ← List.drop_eq_getElem_cons hlt, List.take_append_drop]
  have := indexByte0_append (b.take i) (b.drop (i + 1)) hfirst
  rw [← hb] at this
  simpa [Nat.min_eq_left (Nat.le_of_lt hlt)] using this

/-- C16: decode of a nul-terminated string on the cursor `b`.  Without a zero byte in `b`
it fails with "could not parse nul-term string".  Otherwise, with `i` the index of the
first zero byte, the value is the bytes of `b` before `i` and the cursor becomes the bytes
of `b` after `i`: the terminator is consumed and is not part of the value. -/
theorem parseType_NulTermString_spec (env : ParseEnv) (recv : StructVal) (lhs : Val)
    (b : List Byte) :
    ((0 : Byte) ∉ b → parseType env recv lhs .NulTermString b = .error .nulTermString) ∧
    (∀ i : Nat, b[i]? = some 0 → (0 : Byte) ∉ b.take i →
      parseType env recv lhs .NulTermString b = .ok (.str (b.take i), b.drop (i + 1))) := by
  constructor
  · intro h
    simp [parseType, indexByte0_none b h]
  · intro i hi hfirst
    simp [parseType, indexByte0_first b i hi hfirst]

/-- C16 at the cursor `[72, 105]` without terminator and at `[72, 105, 0, 42, 0, 7]`, where
the first of two zero bytes ends the string. -/
theorem parseType_NulTermString_spec_witness :
    parseType exampleEnv [] (.str []) .NulTermString [72, 105] = .error .nulTermString ∧
    parseType exampleEnv [] (.str []) .NulTermString [72, 105, 0, 42, 0, 7]
      = .ok (.str [72, 105], [42, 0, 7]) :=
  ⟨(parseType_NulTermString_spec exampleEnv [] (.str []) [72, 105]).1 (by decide),
   (parseType_NulTermString_spec exampleEnv [] (.str []) [72, 105, 0, 42, 0, 7]).2 2 rfl
     (by decide)⟩

theorem parseLoop_ok_nil (elem : Bool → List Byte → Outcome (Val × List Byte)) :
    ∀ (n : Nat) (lhs : List Val) (cur : List Byte) (xs : List Val) (cur1 : List Byte),
      parseLoop elem n lhs cur = .ok (xs, cur1) → cur1 = []
  | 0, _, _, _, _, h => by simp [parseLoop] at h
  | n + 1, lhs, cur, xs, cur1, h => by
    simp only [parseLoop] at h
    split at h
    · simp only [bind_eq] at h
      obtain ⟨⟨v, c2⟩, _, h2⟩ := bind_eq_ok h
      exact parseLoop_ok_nil elem n _ _ xs cur1 h2
    · simp only [Outcome.ok.injEq, Prod.mk.injEq] at h
      rw [← h.2]
      exact List.length_eq_zero.1 (by omega)

theorem parseArray_none_ok_nil (env : ParseEnv) (recv : StructVal) (lhs : Val) (base : ArrayBase)
    (cur : List Byte) (a : Val) (cur1 : List Byte)
    (h : parseArray env recv lhs base none cur = .ok (a, cur1)) : cur1 = [] := by
  simp only [parseArray, bind_eq, pure_eq] at h
  obtain ⟨⟨xs, c2⟩, h1, h2⟩ := bind_eq_ok h
  simp only [Outcome.ok.injEq, Prod.mk.injEq] at h2
  rw [← h2.2]
  exact parseLoop_ok_nil _ _ _ _ _ _ h1

/-- C17: decode of an array declared with `n` bytes left over, on the cursor `b`.  With
fewer than `n` bytes it fails with "data too short".  Otherwise it is the decode of an
unbounded array on exactly the first `len(b) - n` bytes of `b`, followed by the check that
these bytes were consumed exactly, and the cursor afterwards is the rest of `b`.  Hence on
success the unbounded decode consumed the first `len(b) - n` bytes exactly and the cursor
is the last `n` bytes of `b`. -/
theorem parseArray_Leftover_spec (env : ParseEnv) (recv : StructVal) (lhs : Val)
    (base : ArrayBase) (num : Integer) (k : Nat) (b : List Byte)
    (hk : env.res.Integer num = some (k : Int)) :
    (b.length < k →
      parseArray env recv lhs base (some (.Leftover num)) b = .error .dataTooShort) ∧
    (k ≤ b.length →
      parseArray env recv lhs base (some (.Leftover num)) b =
        (parseArray env recv lhs base none (b.take (b.length - k))).bind fun r =>
          (assertEnd r.2).bind fun _ => .ok (r.1, b.drop (b.length - k))) ∧
    (∀ (a : Val) (rest : List Byte),
      parseArray env recv lhs base (some (.Leftover num)) b = .ok (a, rest) →
        k ≤ b.length ∧ rest = b.drop (b.length - k) ∧ rest.length = k ∧
        parseArray env recv lhs base none (b.take (b.length - k)) = .ok (a, [])) := by
  have hshort : b.length < k →
      parseArray env recv lhs base (some (.Leftover num)) b = .error .dataTooShort := by
    intro hlt
    have : (b.length : Int) < (k : Int) := by omega
    simp [parseArray, constrained, integer, hk, Outcome.ofOption, lengthCheck, this]
  have hlong : k ≤ b.length →
      parseArray env recv lhs base (some (.Leftover num)) b =
        (parseArray env recv lhs base none (b.take (b.length - k))).bind fun r =>
          (assertEnd r.2).bind fun _ => .ok (r.1, b.drop (b.length - k)) := by
    intro hle
    have h1 : ¬ ((b.length : Int) < (k : Int)) := by omega
    have h2 : ¬ ((b.length : Int) - (k : Int) < 0 ∨ (b.length : Int) < (b.length : Int) - (k : Int)) := by
      omega
    have h3 : ((b.length : Int) - (k : Int)).toNat = b.length - k := by omega
    simp only [parseArray, constrained, integer, hk, Outcome.ofOption, lengthCheck, h1, if_false,
      bind_eq, pure_eq, ok_bind, h2, h3]
  refine ⟨hshort, hlong, fun a rest h => ?_⟩
  by_cases hle : k ≤ b.length
  · rw [hlong hle] at h
    obtain ⟨⟨a1, c1⟩, h1, h2⟩ := bind_eq_ok h
    have hc1 := parseArray_none_ok_nil env recv lhs base _ a1 c1 h1
    subst hc1
    simp only [assertEnd, List.length_nil, gt_iff_lt, lt_self_iff_false, if_false, ok_bind,
      Outcome.ok.injEq, Prod.mk.injEq] at h2
    refine ⟨hle, h2.2.symm, ?_, ?_⟩
    · rw [← h2.2, List.length_drop]; omega
    · rw [h1, h2.1]
  · rw [hshort (by omega)] at h
    simp at h

/-- C17 at `u8 data[..-2]`: the cursor `[1]` is too short, and on `[1, 2, 3, 4, 5]` the
elements are `[1, 2, 3]` and the cursor afterwards is `[4, 5]`. -/
theorem parseArray_Leftover_spec_witness :
    parseArray loopEnv [] (.arr []) (.IntType (uint 8)) (some (.Leftover (lit 2))) [1]
      = .error .dataTooShort ∧
    (2 ≤ ([1, 2, 3, 4, 5] : List Byte).length ∧
      ([4, 5] : List Byte) = List.drop (([1, 2, 3, 4, 5] : List Byte).length - 2) [1, 2, 3, 4, 5] ∧
      ([4, 5] : List Byte).length = 2 ∧
      parseArray loopEnv [] (.arr []) (.IntType (uint 8)) none
          (List.take (([1, 2, 3, 4, 5] : List Byte).length - 2) [1, 2, 3, 4, 5])
        = .ok (.arr [.int 1, .int 2, .int 3], [])) :=
  ⟨(parseArray_Leftover_spec loopEnv [] (.arr []) (.IntType (uint 8)) (lit 2) 2 [1] rfl).1
     (by decide),
   (parseArray_Leftover_spec loopEnv [] (.arr []) (.IntType (uint 8)) (lit 2) 2 [1, 2, 3, 4, 5]
     rfl).2.2 (.arr [.int 1, .int 2, .int 3]) [4, 5] rfl⟩

/-! ## Struct references in validate, and the selection of a union case -/

theorem parseCase_caseMembers (env : ParseEnv) :
    ∀ (cases : List UnionCase) (i : Nat) (st : StructVal × List Byte),
      parseCase env cases i st = parseMembers env (caseMembers cases i) st
  | [], _, _ => by simp [parseCase, caseMembers, parseMembers]
  | .mk _ ms :: _, 0, _ => by simp [parseCase, caseMembers]
  | .mk _ _ :: cs, i + 1, st => by
    simp only [parseCase, caseMembers]
    exact parseCase_caseMembers env cs i st

theorem encodeCase_caseMembers (env : MethodEnv (Option StructVal) (List Byte))
    (recv : Option StructVal) :
    ∀ (cases : List UnionCase) (i : Nat),
      encodeCase env recv cases i = encodeMembers env recv (caseMembers cases i)
  | [], _ => by simp [encodeCase, caseMembers, encodeMembers]
  | .mk _ ms :: _, 0 => by simp [encodeCase, caseMembers]
  | .mk _ _ :: cs, i + 1 => by
    simp only [encodeCase, caseMembers]
    exact encodeCase_caseMembers env recv cs i

theorem validateCase_caseMembers (env : MethodEnv StructVal Unit) (recv : StructVal) :
    ∀ (cases : List UnionCase) (i : Nat),
      validateCase env recv cases i = validateMembers env recv (caseMembers cases i)
  | [], _ => by simp [validateCase, caseMembers, validateMembers]
  | .mk _ ms :: _, 0 => by simp [validateCase, caseMembers]
  | .mk _ _ :: cs, i + 1 => by
    simp only [validateCase, caseMembers]
    exact validateCase_caseMembers env recv cs i

theorem validateElems_append (elem : Val → Outcome Unit) :
    ∀ xs ys : List Val, validateElems elem (xs ++ ys) =
      (validateElems elem xs).bind fun _ => validateElems elem ys
  | [], ys => by simp [validateElems]
  | x :: xs, ys => by
    simp only [List.cons_append, validateElems, bind_eq]
    cases elem x <;> simp [validateElems_append elem xs ys]

/-- C19: what `validate` does with struct references and unions.  A struct-reference field
that is unset (nil) is skipped; one that is set is validated by the `validate` of the
referenced struct, whose result, an error included, is returned as it is.  In an array of
struct references an unset element is skipped, and an element whose `validate` fails,
after elements that validate, makes the loop return exactly that error.  A union is
validated as the members of the case that the `switch` selects for the current value of
the discriminant, and as nothing when no case is selected: the members of the other cases
play no part. -/
theorem validate_struct_refs (res : Resolver) (n : Nat) (recv : StructVal) :
    (∀ (name sn : String), recv.lookup name = some (.ref none) →
      validateMember ⟨res, validate res n⟩ recv (.Field name (.StructRef sn)) = .ok ()) ∧
    (∀ (name sn : String) (s1 : Struct) (p : StructVal),
      recv.lookup name = some (.ref (some p)) → res.Struct sn = some s1 →
      validateMember ⟨res, validate res n⟩ recv (.Field name (.StructRef sn))
        = validate res n s1 p) ∧
    (∀ (sn : String) (xs1 xs2 : List Val),
      validateElems (validateBase ⟨res, validate res n⟩ (.StructRef sn)) (xs1 ++ .ref none :: xs2)
        = validateElems (validateBase ⟨res, validate res n⟩ (.StructRef sn)) (xs1 ++ xs2)) ∧
    (∀ (sn : String) (s1 : Struct) (p : StructVal) (xs1 xs2 : List Val) (e : Err),
      res.Struct sn = some s1 →
      validateElems (validateBase ⟨res, validate res n⟩ (.StructRef sn)) xs1 = .ok () →
      validate res n s1 p = .error e →
      validateElems (validateBase ⟨res, validate res n⟩ (.StructRef sn))
        (xs1 ++ .ref (some p) :: xs2) = .error e) ∧
    (∀ (name : String) (tag : IDRef) (len : Option LengthConstraint) (cases : List UnionCase)
        (x : Nat) (sel : Option Nat),
      ref [] (some recv) tag = .ok x → switchCase res x cases = .ok sel →
      validateMember ⟨res, validate res n⟩ recv (.UnionMember name tag len cases) =
        match sel with
        | none => .ok ()
        | some i => validateMembers ⟨res, validate res n⟩ recv (caseMembers cases i)) := by
  refine ⟨?_, ?_, ?_, ?_, ?_⟩
  · intro name sn h
    simp [validateMember, validateType, validateStructRef, readField_some recv name _ h]
  · intro name sn s1 p h hs
    simp [validateMember, validateType, validateStructRef, readField_some recv name _ h, hs]
  · intro sn xs1 xs2
    rw [validateElems_append, validateElems_append]
    simp [validateElems, validateBase, validateStructRef]
  · intro sn s1 p xs1 xs2 e hs h1 h2
    rw [validateElems_append, h1]
    simp [validateElems, validateBase, validateStructRef, hs, h2]
  · intro name tag len cases x sel hx hsel
    simp only [validateMember, validateUnionMember, bind_eq, hx, ok_bind, hsel, pure_eq]
    cases sel with
    | none => rfl
    | some i => exact validateCase_caseMembers _ recv cases i

/-- C19 at a value of `Holder`: the unset reference `Item` is skipped, the unset first
element of `Items` is skipped, the third element returns the constraint error of its own
`validate`; and at a value of `CaseArray` that selects case 2, the union is validated as
the one member of case 2. -/
theorem validate_struct_refs_witness :
    validateMember ⟨holderRes, validate holderRes 1⟩ holderValue (.Field "Item" (.StructRef "Checked"))
      = .ok () ∧
    validateElems (validateBase ⟨holderRes, validate holderRes 1⟩ (.StructRef "Checked"))
      ([] ++ .ref none :: [.ref (some [("Version", .int 5)]), .ref (some [("Version", .int 4)])])
      = validateElems (validateBase ⟨holderRes, validate holderRes 1⟩ (.StructRef "Checked"))
        ([] ++ [.ref (some [("Version", .int 5)]), .ref (some [("Version", .int 4)])]) ∧
    validateElems (validateBase ⟨holderRes, validate holderRes 1⟩ (.StructRef "Checked"))
      ([.ref (some [("Version", .int 5)])] ++ .ref (some [("Version", .int 4)]) :: [])
      = .error .integerConstraint ∧
    validateMember ⟨exampleRes, validate exampleRes 1⟩ caseArrayOther
        (.UnionMember "U" (field "Type") none
          [.mk (some ⟨[⟨lit 1, none⟩]⟩)
            [.Field "Count" (.IntType (uint 8)),
             .Field "Data" (.VarArrayMember (.IntType (uint 8)) (some (.IDRef (field "Count"))))],
           .mk (some ⟨[⟨lit 2, none⟩]⟩) [.Field "Other" (.IntType (uint 8))]])
      = validateMembers ⟨exampleRes, validate exampleRes 1⟩ caseArrayOther
          [.Field "Other" (.IntType (uint 8))] :=
  ⟨(validate_struct_refs holderRes 1 holderValue).1 "Item" "Checked" rfl,
   (validate_struct_refs holderRes 1 holderValue).2.2.1 "Checked" [] _,
   (validate_struct_refs holderRes 1 holderValue).2.2.2.1 "Checked" Checked [("Version", .int 4)]
     [.ref (some [("Version", .int 5)])] [] .integerConstraint rfl rfl rfl,
   (validate_struct_refs exampleRes 1 caseArrayOther).2.2.2.2 "U" (field "Type") none _ 2 (some 1)
     rfl rfl⟩

theorem select_eq_spec (res : Resolver) (x : Nat) :
    ∀ (cases : List UnionCase) (bs : List (Option Bool)), caseConds res x cases = some bs →
      defaultLast cases = true →
      (match firstTrue bs with
        | some i => some i
        | none => firstDefault bs) = specSelect res x cases
  | [], bs, h, _ => by
    simp [caseConds] at h
    subst h
    rfl
  | c :: cs, bs, h, hd => by
    simp only [caseConds] at h
    cases hcs : caseConds res x cs with
    | none => cases hc : c.Case <;> simp [hcs, hc] at h
    | some bs1 =>
      cases hc : c.Case with
      | none =>
        simp only [hc, hcs, Option.some.injEq] at h
        subst h
        cases cs with
        | nil =>
          simp [caseConds] at hcs
          subst hcs
          simp [firstTrue, firstDefault, specSelect, specCaseMatches, hc]
        | cons d ds => simp [defaultLast, hc] at hd
      | some l =>
        simp only [hc, hcs] at h
        cases hb : conditional res x l with
        | none => simp [hb] at h
        | some b =>
          simp only [hb, Option.map_some', Option.some.injEq] at h
          subst h
          have hspec := conditional_eq_spec res x l b hb
          have hd1 : defaultLast cs = true := by
            cases cs with
            | nil => rfl
            | cons d ds => simp [defaultLast] at hd; exact hd.2
          have ih := select_eq_spec res x cs bs1 hcs hd1
          cases b with
          | true => simp [firstTrue, specSelect, specCaseMatches, hc, ← hspec]
          | false =>
            simp only [firstTrue, firstDefault, specSelect, specCaseMatches, hc, ← hspec]
            rw [← ih]
            cases firstTrue bs1 <;> simp

theorem switchCase_eq_spec (res : Resolver) (x : Nat) (cases : List UnionCase)
    (hok : switchOK res cases = true) (hd : defaultLast cases = true) :
    switchCase res x cases = .ok (specSelect res x cases) := by
  obtain ⟨sel, hsel⟩ := switchCase_of_switchOK res x cases hok
  rw [hsel]
  unfold switchCase at hsel
  cases hc : caseConds res x cases with
  | none => simp [hc] at hsel
  | some bs =>
    have hs := select_eq_spec res x cases bs hc hd
    simp only [hc] at hsel
    split at hsel
    · simp at hsel
    · rw [← hs]
      cases hft : firstTrue bs with
      | some i => simp [hft] at hsel ⊢; exact hsel.symm
      | none => simp [hft] at hsel ⊢; exact hsel.symm

/-- C20: for a union whose `switch` compiles and whose default case, if any, is the last
case, the three passes select by the same rule.  The Go `switch` printed by each of them
runs the first case in declaration order whose range set contains the discriminant, the
default case matching every value (`specSelect`, written from the specification).  Decode
(without and with a length constraint), `encodeBinary` and `validate` of the union are
then the decode, the encoding and the validation of the members of that case alone, and
of nothing when no case matches. -/
theorem union_selection_same_rule (res : Resolver) (name : String) (tag : IDRef)
    (len : Option LengthConstraint) (cases : List UnionCase) (x : Nat)
    (hok : switchOK res cases = true) (hd : defaultLast cases = true) :
    switchCase res x cases = .ok (specSelect res x cases) ∧
    (∀ (penv : ParseEnv) (recv : StructVal) (cur : List Byte), penv.res = res →
      ref penv.ctxs (some recv) tag = .ok x →
      parseMember penv (.UnionMember name tag none cases) (recv, cur) =
        match specSelect res x cases with
        | none => .ok (recv, cur)
        | some i => parseMembers penv (caseMembers cases i) (recv, cur)) ∧
    (∀ (penv : ParseEnv) (recv : StructVal) (cur : List Byte) (c : LengthConstraint),
      penv.res = res → ref penv.ctxs (some recv) tag = .ok x →
      parseMember penv (.UnionMember name tag (some c) cases) (recv, cur) =
        constrained penv recv c (fun region =>
          match specSelect res x cases with
          | none => .ok (recv, region)
          | some i => parseMembers penv (caseMembers cases i) (recv, region)) cur) ∧
    (∀ (eenv : MethodEnv (Option StructVal) (List Byte)) (recv : Option StructVal),
      eenv.res = res → ref [] recv tag = .ok x →
      encodeMember eenv recv (.UnionMember name tag len cases) =
        match specSelect res x cases with
        | none => .ok []
        | some i => encodeMembers eenv recv (caseMembers cases i)) ∧
    (∀ (venv : MethodEnv StructVal Unit) (recv : StructVal),
      venv.res = res → ref [] (some recv) tag = .ok x →
      validateMember venv recv (.UnionMember name tag len cases) =
        match specSelect res x cases with
        | none => .ok ()
        | some i => validateMembers venv recv (caseMembers cases i)) := by
  have hsel := switchCase_eq_spec res x cases hok hd
  refine ⟨hsel, ?_, ?_, ?_, ?_⟩
  · intro penv recv cur hres hx
    subst hres
    simp only [parseMember, parseUnionMember, parseSwitch, bind_eq, hx, ok_bind, hsel, pure_eq]
    cases specSelect penv.res x cases with
    | none => rfl
    | some i => exact parseCase_caseMembers penv cases i _
  · intro penv recv cur c hres hx
    subst hres
    simp only [parseMember, parseUnionMember, parseSwitch, bind_eq, hx, ok_bind, hsel, pure_eq]
    congr 1
    funext region
    cases specSelect penv.res x cases with
    | none => rfl
    | some i => exact parseCase_caseMembers penv cases i _
  · intro eenv recv hres hx
    subst hres
    simp only [encodeMember, encodeUnionMember, bind_eq, hx, ok_bind, hsel, pure_eq]
    cases specSelect eenv.res x cases with
    | none => rfl
    | some i => exact encodeCase_caseMembers eenv recv cases i
  · intro venv recv hres hx
    subst hres
    simp only [validateMember, validateUnionMember, bind_eq, hx, ok_bind, hsel, pure_eq]
    cases specSelect venv.res x cases with
    | none => rfl
    | some i => exact validateCase_caseMembers venv recv cases i

/-- C20 at the union of the tests (cases 1, 2, 3 and a last `default: fail`) with the
discriminant 2: all three passes process the member `WordData` of the second case. -/
theorem union_selection_same_rule_witness :
    switchCase exampleRes 2 packetCases = .ok (some 1) ∧
    parseMember exampleEnv (.UnionMember "Data" (field "Type") none packetCases)
        (packetWord, [18, 52])
      = parseMembers exampleEnv [.Field "WordData" (.IntType (uint 16))] (packetWord, [18, 52]) ∧
    encodeMember ⟨exampleRes, encodeBinary exampleRes 0⟩ (some packetWord)
        (.UnionMember "Data" (field "Type") none packetCases)
      = encodeMembers ⟨exampleRes, encodeBinary exampleRes 0⟩ (some packetWord)
          [.Field "WordData" (.IntType (uint 16))] ∧
    validateMember ⟨exampleRes, validate exampleRes 0⟩ packetWord
        (.UnionMember "Data" (field "Type") none packetCases)
      = validateMembers ⟨exampleRes, validate exampleRes 0⟩ packetWord
          [.Field "WordData" (.IntType (uint 16))] :=
  have h := union_selection_same_rule exampleRes "Data" (field "Type") none packetCases 2
    (by decide) (by decide)
  ⟨h.1, h.2.1 exampleEnv packetWord [18, 52] rfl rfl, h.2.2.2.1 _ (some packetWord) rfl rfl,
   h.2.2.2.2 _ packetWord rfl rfl⟩

/-! ## The position marker -/

/-- C18 fails on the code: in `u8 tag; u8 len; union u[tag] with length len { 1: u8 a;
@ptr pos; u8 b; }; u8 end;` the marker stands after three decoded bytes, yet on the input
`[1, 2, 7, 8, 9]` it receives 4, and 6 when two more bytes follow the struct: inside the
length-constrained region `len(data) - len(cur)` counts the bytes kept back after the
region as consumed.  Without the length constraint the same input gives 3. -/
theorem Parse_marker_in_region :
    Parse exampleRes 1 Marked [] [1, 2, 7, 8, 9] = .ok (markedValue 4, []) ∧
    Parse exampleRes 1 Marked [] [1, 2, 7, 8, 9, 6, 6] = .ok (markedValue 6, [6, 6]) ∧
    Parse exampleRes 1 MarkedFree [] [1, 2, 7, 8, 9] = .ok (markedValue 3, []) :=
  ⟨rfl, rfl, rfl⟩

/-! ## Unions: the selected part of a value -/

theorem ref_congr (v1 v2 : StructVal) (r : IDRef) (h : v1.lookup r.Name = v2.lookup r.Name) :
    ref [] (some v1) r = ref [] (some v2) r := by
  simp [ref, readField, h]

theorem encodeType_congr (env : MethodEnv (Option StructVal) (List Byte)) (v1 v2 : StructVal)
    (name : String) (t : Tipe) (h : agreeOn (selectedNamesType name t) v1 v2) :
    encodeType env (some v1) name t = encodeType env (some v2) name t := by
  have hn : v1.lookup name = v2.lookup name := by
    apply h
    cases t <;> simp [selectedNamesType]
    rename_i b c
    cases c with
    | none => simp
    | some c => cases c <;> simp
  cases t with
  | VarArrayMember b c =>
    cases c with
    | none => simp [encodeType, encodeArray, readArr, readField, hn]
    | some c =>
      cases c with
      | IDRef r =>
        have hr : v1.lookup r.Name = v2.lookup r.Name := h _ (by simp [selectedNamesType])
        simp [encodeType, encodeArray, readArr, readField, hn, ref_congr v1 v2 r hr]
      | _ => simp [encodeType, encodeArray, readArr, readField, hn]
  | _ => simp [encodeType, encodeArray, readArr, readField, hn]

theorem agreeOn_append {a b : List String} {v w : StructVal} (h : agreeOn (a ++ b) v w) :
    agreeOn a v w ∧ agreeOn b v w :=
  ⟨fun n hn => h n (List.mem_append_left _ hn), fun n hn => h n (List.mem_append_right _ hn)⟩

mutual
theorem encodeMember_congr (env : MethodEnv (Option StructVal) (List Byte)) (v1 v2 : StructVal) :
    ∀ m : Member, agreeOn (selectedNamesMember env.res v1 m) v1 v2 →
      encodeMember env (some v1) m = encodeMember env (some v2) m
  | .Field name t, h => by
    simpa [encodeMember] using encodeType_congr env v1 v2 name t h
  | .UnionMember _ tag _ cases, h => by
    have ht : v1.lookup tag.Name = v2.lookup tag.Name := h _ (by simp [selectedNamesMember])
    have hr := ref_congr v1 v2 tag ht
    simp only [encodeMember, encodeUnionMember, bind_eq, ← hr]
    cases hx : ref [] (some v1) tag with
    | ok x =>
      simp only [ok_bind]
      cases hs : switchCase env.res x cases with
      | ok sel =>
        cases sel with
        | none => rfl
        | some i =>
          simp only [ok_bind]
          refine encodeCase_congr env v1 v2 cases i (fun n hn => h n ?_)
          simp [selectedNamesMember, hx, hs, hn]
      | _ => rfl
    | _ => rfl
  | .EOS, _ => rfl
  | .Ignore, _ => rfl
  | .Fail, _ => rfl
theorem encodeMembers_congr (env : MethodEnv (Option StructVal) (List Byte)) (v1 v2 : StructVal) :
    ∀ ms : List Member, agreeOn (selectedNamesMembers env.res v1 ms) v1 v2 →
      encodeMembers env (some v1) ms = encodeMembers env (some v2) ms
  | [], _ => rfl
  | m :: ms, h => by
    simp only [selectedNamesMembers] at h
    obtain ⟨h1, h2⟩ := agreeOn_append h
    simp only [encodeMembers, bind_eq, encodeMember_congr env v1 v2 m h1,
      encodeMembers_congr env v1 v2 ms h2]
theorem encodeCase_congr (env : MethodEnv (Option StructVal) (List Byte)) (v1 v2 : StructVal) :
    ∀ (cs : List UnionCase) (i : Nat), agreeOn (selectedNamesCase env.res v1 cs i) v1 v2 →
      encodeCase env (some v1) cs i = encodeCase env (some v2) cs i
  | [], _, _ => rfl
  | .mk _ ms :: _, 0, h => by
    simpa [encodeCase] using encodeMembers_congr env v1 v2 ms (by simpa [selectedNamesCase] using h)
  | .mk _ _ :: cs, i + 1, h => by
    simpa [encodeCase] using encodeCase_congr env v1 v2 cs i (by simpa [selectedNamesCase] using h)
end

theorem lookup_setField (k : String) (x : Val) :
    ∀ (r : StructVal) (n : String),
      (setField r k x).lookup n = if n = k then (r.lookup k).map (fun _ => x) else r.lookup n
  | [], n => by simp [setField, List.lookup]
  | (k1, w) :: r, n => by
    have ih := lookup_setField k x r n
    by_cases h1 : k1 = k
    · subst h1
      by_cases hn : n = k1
      · subst hn; simp [setField, List.lookup]
      · have : (n == k1) = false := by simpa using hn
        simp [setField, List.lookup, hn, this]
    · have hk1 : (k1 == k) = false := by simpa using h1
      have hk2 : (k == k1) = false := by simpa using fun e => h1 e.symm
      by_cases hn : n = k
      · subst hn
        simp only [setField, hk1, List.lookup, hk2, if_true] at ih ⊢
        rw [ih]
      · simp only [hn, if_false] at ih
        simp only [setField, hk1, List.lookup, hn, if_false, ih]

theorem lookup_zeroFields (res : Resolver) :
    ∀ (fs : List (String × Tipe)) (zs : StructVal), zeroFields res fs = some zs →
      (fs.map Prod.fst).Nodup → ∀ p ∈ fs, zs.lookup p.1 = zero res p.2
  | [], _, _, _, p, hp => by simp at hp
  | (n, t) :: fs, zs, hz, hnd, p, hp => by
    simp only [zeroFields] at hz
    cases hz0 : zero res t with
    | none => simp [hz0] at hz
    | some z =>
      cases hz1 : zeroFields res fs with
      | none => simp [hz0, hz1] at hz
      | some zs1 =>
        simp only [hz0, hz1, Option.some.injEq] at hz
        subst hz
        simp only [List.map_cons, List.nodup_cons] at hnd
        rcases List.mem_cons.1 hp with hp | hp
        · subst hp
          simp [List.lookup, hz0]
        · have hne : p.1 ≠ n := by
            intro e
            exact hnd.1 (e ▸ List.mem_map_of_mem Prod.fst hp)
          have : (p.1 == n) = false := by simpa using hne
          simp only [List.lookup, this]
          exact lookup_zeroFields res fs zs1 hz1 hnd.2 p hp

mutual
theorem pathMember_subset (res : Resolver) (v : StructVal) :
    ∀ (m : Member) (seen : List String) (a d : List (String × Tipe)),
      pathMember res v seen m = some a → structMemberDecl m = some d → ∀ p ∈ a, p ∈ d
  | .Field name t, seen, a, d, ha, hd, p, hp => by
    simp only [pathMember] at ha
    split at ha
    · simp only [Option.some.injEq] at ha
      simp only [structMemberDecl, Option.some.injEq] at hd
      rw [← hd, ha]
      exact hp
    · simp at ha
  | .UnionMember _ tag len cases, seen, a, d, ha, hd, p, hp => by
    simp only [structMemberDecl] at hd
    simp only [pathMember] at ha
    cases len with
    | some c => simp at ha
    | none =>
      simp only at ha
      split at ha
      · cases hx : ref [] (some v) tag with
        | ok x =>
          simp only [hx] at ha
          cases hs : switchCase res x cases with
          | ok sel =>
            cases sel with
            | none =>
              simp [hs] at ha
              subst ha
              simp at hp
            | some i =>
              simp only [hs] at ha
              exact pathCase_subset res v cases i seen a d ha hd p hp
          | _ => simp [hs] at ha
        | _ => simp [hx] at ha
      · simp at ha
  | .EOS, _, _, _, ha, _, _, _ => by simp [pathMember] at ha
  | .Ignore, _, _, _, ha, _, _, _ => by simp [pathMember] at ha
  | .Fail, _, _, _, ha, _, _, _ => by simp [pathMember] at ha
theorem pathCase_subset (res : Resolver) (v : StructVal) :
    ∀ (cs : List UnionCase) (i : Nat) (seen : List String) (a d : List (String × Tipe)),
      pathCase res v seen cs i = some a → structUnionMemberDecl cs = some d → ∀ p ∈ a, p ∈ d
  | [], _, _, a, _, ha, _, p, hp => by
    simp only [pathCase, Option.some.injEq] at ha
    subst ha
    simp at hp
  | .mk _ ms :: cs, 0, seen, a, d, ha, hd, p, hp => by
    simp only [pathCase] at ha
    simp only [structUnionMemberDecl] at hd
    cases h1 : caseDecl ms with
    | none => simp [h1] at hd
    | some d1 =>
      cases h2 : structUnionMemberDecl cs with
      | none => simp [h1, h2] at hd
      | some d2 =>
        simp only [h1, h2, Option.some.injEq] at hd
        subst hd
        exact List.mem_append_left _ (pathMembers_subset_case res v ms seen a d1 ha h1 p hp)
  | .mk _ ms :: cs, i + 1, seen, a, d, ha, hd, p, hp => by
    simp only [pathCase] at ha
    simp only [structUnionMemberDecl] at hd
    cases h1 : caseDecl ms with
    | none => simp [h1] at hd
    | some d1 =>
      cases h2 : structUnionMemberDecl cs with
      | none => simp [h1, h2] at hd
      | some d2 =>
        simp only [h1, h2, Option.some.injEq] at hd
        subst hd
        exact List.mem_append_right _ (pathCase_subset res v cs i seen a d2 ha h2 p hp)
theorem pathMembers_subset_case (res : Resolver) (v : StructVal) :
    ∀ (ms : List Member) (seen : List String) (a d : List (String × Tipe)),
      pathMembers res v seen ms = some a → caseDecl ms = some d → ∀ p ∈ a, p ∈ d
  | [], _, a, _, ha, _, p, hp => by
    simp only [pathMembers, Option.some.injEq] at ha
    subst ha
    simp at hp
  | m :: ms, seen, a, d, ha, hd, p, hp => by
    simp only [pathMembers] at ha
    cases h1 : pathMember res v seen m with
    | none => simp [h1] at ha
    | some a1 =>
      cases h2 : pathMembers res v (seen ++ a1.map Prod.fst) ms with
      | none => simp [h1, h2] at ha
      | some a2 =>
        simp only [h1, h2, Option.some.injEq] at ha
        subst ha
        cases m with
        | Fail => simp [pathMember] at h1
        | Ignore => simp [pathMember] at h1
        | EOS => simp [pathMember] at h1
        | Field name t =>
          simp only [caseDecl] at hd
          cases h3 : structMemberDecl (.Field name t) with
          | none => simp [h3] at hd
          | some d1 =>
            cases h4 : caseDecl ms with
            | none => simp [h3, h4] at hd
            | some d2 =>
              simp only [h3, h4, Option.some.injEq] at hd
              subst hd
              rcases List.mem_append.1 hp with hp | hp
              · exact List.mem_append_left _ (pathMember_subset res v _ seen a1 d1 h1 h3 p hp)
              · exact List.mem_append_right _
                  (pathMembers_subset_case res v ms _ a2 d2 h2 h4 p hp)
        | UnionMember nm tag len cases =>
          simp only [caseDecl] at hd
          cases h3 : structMemberDecl (.UnionMember nm tag len cases) with
          | none => simp [h3] at hd
          | some d1 =>
            cases h4 : caseDecl ms with
            | none => simp [h3, h4] at hd
            | some d2 =>
              simp only [h3, h4, Option.some.injEq] at hd
              subst hd
              rcases List.mem_append.1 hp with hp | hp
              · exact List.mem_append_left _ (pathMember_subset res v _ seen a1 d1 h1 h3 p hp)
              · exact List.mem_append_right _
                  (pathMembers_subset_case res v ms _ a2 d2 h2 h4 p hp)
end

theorem pathMembers_subset (res : Resolver) (v : StructVal) :
    ∀ (ms : List Member) (seen : List String) (a d : List (String × Tipe)),
      pathMembers res v seen ms = some a → structDecl ms = some d → ∀ p ∈ a, p ∈ d
  | [], _, a, _, ha, _, p, hp => by
    simp only [pathMembers, Option.some.injEq] at ha
    subst ha
    simp at hp
  | m :: ms, seen, a, d, ha, hd, p, hp => by
    simp only [pathMembers] at ha
    cases h1 : pathMember res v seen m with
    | none => simp [h1] at ha
    | some a1 =>
      cases h2 : pathMembers res v (seen ++ a1.map Prod.fst) ms with
      | none => simp [h1, h2] at ha
      | some a2 =>
        simp only [h1, h2, Option.some.injEq] at ha
        subst ha
        simp only [structDecl] at hd
        cases h3 : structMemberDecl m with
        | none => simp [h3] at hd
        | some d1 =>
          cases h4 : structDecl ms with
          | none => simp [h3, h4] at hd
          | some d2 =>
            simp only [h3, h4, Option.some.injEq] at hd
            subst hd
            rcases List.mem_append.1 hp with hp | hp
            · exact List.mem_append_left _ (pathMember_subset res v m seen a1 d1 h1 h3 p hp)
            · exact List.mem_append_right _ (pathMembers_subset res v ms _ a2 d2 h2 h4 p hp)

mutual
theorem parseMember_selected (res : Resolver) (tc : Struct → StructVal → Bool)
    (venv : MethodEnv StructVal Unit) (eenv : MethodEnv (Option StructVal) (List Byte))
    (penv : ParseEnv) (hv : venv.res = res) (he : eenv.res = res) (hp : penv.res = res)
    (hctx : penv.ctxs = []) (hc : CalleeRoundTrip tc venv eenv penv) (v r0 : StructVal) :
    ∀ (m : Member) (seen : List String) (fs : List (String × Tipe)) (r : StructVal),
      pathMember res v seen m = some fs →
      (∀ p ∈ fs, ∃ x, v.lookup p.1 = some x ∧ typedVal res false tc v p.2 x = true) →
      (∀ p ∈ fs, r0.lookup p.1 = zero res p.2) →
      validateMember venv v m = .ok () →
      (∀ n ∈ seen, r.lookup n = v.lookup n) →
      (∀ n, n ∉ seen → r.lookup n = r0.lookup n) →
      (∃ bs, encodeMember eenv (some v) m = .ok bs) ∧
        ∀ bs rest, encodeMember eenv (some v) m = .ok bs →
          ∃ r1, parseMember penv m (r, bs ++ rest) = .ok (r1, rest) ∧
            (∀ n ∈ seen ++ fs.map Prod.fst, r1.lookup n = v.lookup n) ∧
            (∀ n, n ∉ seen ++ fs.map Prod.fst → r1.lookup n = r0.lookup n)
  | .Field name t, seen, fs, r, hpath, htyp, hzero, hval, hseen, hrest => by
    simp only [pathMember] at hpath
    split at hpath
    next hcond =>
      simp only [Option.some.injEq] at hpath
      subst hpath
      simp only [Bool.and_eq_true, decide_eq_true_eq] at hcond
      obtain ⟨hplain, hfresh⟩ := hcond
      obtain ⟨x, hl, ht⟩ := htyp (name, t) (List.mem_singleton.2 rfl)
      have hz0 : r0.lookup name = zero res t := hzero (name, t) (List.mem_singleton.2 rfl)
      obtain ⟨z, hz⟩ := zero_of_typedVal res false tc v t x ht
      have hrz : r.lookup name = some z := by rw [hrest name hfresh, hz0, hz]
      obtain ⟨bs, hbs, hpar⟩ := parseType_encodeType res tc venv eenv penv hv he hp hctx hc v r
        name t x z seen hl hz hplain (fun r1 _ hm => ref_congr r v r1 (hseen _ hm)) ht
        (by simpa [validateMember] using hval)
      refine ⟨⟨bs, by simpa [encodeMember] using hbs⟩, fun bs1 rest hbs1 => ?_⟩
      have hEq : bs1 = bs := by
        simp only [encodeMember] at hbs1
        rw [hbs] at hbs1
        exact (Outcome.ok.inj hbs1).symm
      subst hEq
      refine ⟨setField r name x, ?_, ?_, ?_⟩
      · simp [parseMember, readField_some r name z hrz, hpar rest]
      · intro n hn
        rw [lookup_setField]
        by_cases hnk : n = name
        · subst hnk; simp [hrz, hl]
        · simp only [hnk, if_false]
          apply hseen
          simpa [hnk] using hn
      · intro n hn
        rw [lookup_setField]
        have hnk : n ≠ name := by
          intro e
          apply hn
          simp [e]
        simp only [hnk, if_false]
        apply hrest
        intro hm
        apply hn
        simp [hm]
    next => simp at hpath
  | .UnionMember _ tag len cases, seen, fs, r, hpath, htyp, hzero, hval, hseen, hrest => by
    simp only [pathMember] at hpath
    cases len with
    | some c => simp at hpath
    | none =>
      simp only at hpath
      split at hpath
      next hcond =>
        simp only [Bool.and_eq_true, beq_iff_eq, decide_eq_true_eq] at hcond
        obtain ⟨_, htag⟩ := hcond
        cases hx : ref [] (some v) tag with
        | ok x =>
          simp only [hx] at hpath
          have hxr : ref penv.ctxs (some r) tag = .ok x := by
            rw [hctx, ref_congr r v tag (hseen _ htag), hx]
          cases hs : switchCase res x cases with
          | ok sel =>
            simp only [validateMember, validateUnionMember, bind_eq, hx, ok_bind, hv, hs] at hval
            cases sel with
            | none =>
              simp only [hs, Option.some.injEq] at hpath
              subst hpath
              refine ⟨⟨[], by simp [encodeMember, encodeUnionMember, hx, he, hs]⟩,
                fun bs rest hbs => ?_⟩
              have hEq : bs = [] := by
                simpa [encodeMember, encodeUnionMember, hx, he, hs] using hbs.symm
              subst hEq
              refine ⟨r, ?_, ?_, ?_⟩
              · simp [parseMember, parseUnionMember, parseSwitch, hxr, hp, hs]
              · simpa using hseen
              · simpa using hrest
            | some i =>
              simp only [hs] at hpath
              obtain ⟨⟨bs, hbs⟩, hpar⟩ := parseCase_selected res tc venv eenv penv hv he hp hctx hc
                v r0 cases i seen fs r hpath htyp hzero hval hseen hrest
              refine ⟨⟨bs, by simpa [encodeMember, encodeUnionMember, hx, he, hs] using hbs⟩,
                fun bs1 rest hbs1 => ?_⟩
              obtain ⟨r1, h1, h2, h3⟩ := hpar bs1 rest
                (by simpa [encodeMember, encodeUnionMember, hx, he, hs] using hbs1)
              exact ⟨r1, by
                simpa [parseMember, parseUnionMember, parseSwitch, hxr, hp, hs] using h1, h2, h3⟩
          | _ => simp [hs] at hpath
        | _ => simp [hx] at hpath
      next => simp at hpath
  | .EOS, _, _, _, hpath, _, _, _, _, _ => by simp [pathMember] at hpath
  | .Ignore, _, _, _, hpath, _, _, _, _, _ => by simp [pathMember] at hpath
  | .Fail, _, _, _, hpath, _, _, _, _, _ => by simp [pathMember] at hpath
theorem parseMembers_selected (res : Resolver) (tc : Struct → StructVal → Bool)
    (venv : MethodEnv StructVal Unit) (eenv : MethodEnv (Option StructVal) (List Byte))
    (penv : ParseEnv) (hv : venv.res = res) (he : eenv.res = res) (hp : penv.res = res)
    (hctx : penv.ctxs = []) (hc : CalleeRoundTrip tc venv eenv penv) (v r0 : StructVal) :
    ∀ (ms : List Member) (seen : List String) (fs : List (String × Tipe)) (r : StructVal),
      pathMembers res v seen ms = some fs →
      (∀ p ∈ fs, ∃ x, v.lookup p.1 = some x ∧ typedVal res false tc v p.2 x = true) →
      (∀ p ∈ fs, r0.lookup p.1 = zero res p.2) →
      validateMembers venv v ms = .ok () →
      (∀ n ∈ seen, r.lookup n = v.lookup n) →
      (∀ n, n ∉ seen → r.lookup n = r0.lookup n) →
      (∃ bs, encodeMembers eenv (some v) ms = .ok bs) ∧
        ∀ bs rest, encodeMembers eenv (some v) ms = .ok bs →
          ∃ r1, parseMembers penv ms (r, bs ++ rest) = .ok (r1, rest) ∧
            (∀ n ∈ seen ++ fs.map Prod.fst, r1.lookup n = v.lookup n) ∧
            (∀ n, n ∉ seen ++ fs.map Prod.fst → r1.lookup n = r0.lookup n)
  | [], seen, fs, r, hpath, _, _, _, hseen, hrest => by
    simp only [pathMembers, Option.some.injEq] at hpath
    subst hpath
    refine ⟨⟨[], rfl⟩, fun bs rest hbs => ?_⟩
    have hEq : bs = [] := by simpa [encodeMembers] using hbs.symm
    subst hEq
    exact ⟨r, by simp [parseMembers], by simpa using hseen, by simpa using hrest⟩
  | m :: ms, seen, fs, r, hpath, htyp, hzero, hval, hseen, hrest => by
    simp only [pathMembers] at hpath
    cases h1 : pathMember res v seen m with
    | none => simp [h1] at hpath
    | some a1 =>
      cases h2 : pathMembers res v (seen ++ a1.map Prod.fst) ms with
      | none => simp [h1, h2] at hpath
      | some a2 =>
        simp only [h1, h2, Option.some.injEq] at hpath
        subst hpath
        simp only [validateMembers, bind_eq] at hval
        obtain ⟨_, hval1, hval2⟩ := bind_eq_ok hval
        have htyp1 := fun p hp => htyp p (List.mem_append_left _ hp)
        have htyp2 := fun p hp => htyp p (List.mem_append_right _ hp)
        have hzero1 := fun p hp => hzero p (List.mem_append_left _ hp)
        have hzero2 := fun p hp => hzero p (List.mem_append_right _ hp)
        obtain ⟨⟨a, ha⟩, hparA⟩ := parseMember_selected res tc venv eenv penv hv he hp hctx hc
          v r0 m seen a1 r h1 htyp1 hzero1 hval1 hseen hrest
        obtain ⟨r1, _, hs1, hr1⟩ := hparA a [] ha
        obtain ⟨⟨b, hb⟩, _⟩ := parseMembers_selected res tc venv eenv penv hv he hp hctx hc
          v r0 ms (seen ++ a1.map Prod.fst) a2 r1 h2 htyp2 hzero2 hval2 hs1 hr1
        refine ⟨⟨a ++ b, by simp [encodeMembers, ha, hb]⟩, fun bs rest hbs => ?_⟩
        have hEq : bs = a ++ b := by simpa [encodeMembers, ha, hb] using hbs.symm
        subst hEq
        obtain ⟨r2, hp2, hs2, hr2⟩ := hparA a (b ++ rest) ha
        obtain ⟨_, hparB⟩ := parseMembers_selected res tc venv eenv penv hv he hp hctx hc
          v r0 ms (seen ++ a1.map Prod.fst) a2 r2 h2 htyp2 hzero2 hval2 hs2 hr2
        obtain ⟨r3, hp3, hs3, hr3⟩ := hparB b rest hb
        refine ⟨r3, ?_, ?_, ?_⟩
        · simp only [parseMembers, bind_eq, List.append_assoc, hp2, ok_bind, hp3]
        · simpa [List.append_assoc] using hs3
        · simpa [List.append_assoc] using hr3
theorem parseCase_selected (res : Resolver) (tc : Struct → StructVal → Bool)
    (venv : MethodEnv StructVal Unit) (eenv : MethodEnv (Option StructVal) (List Byte))
    (penv : ParseEnv) (hv : venv.res = res) (he : eenv.res = res) (hp : penv.res = res)
    (hctx : penv.ctxs = []) (hc : CalleeRoundTrip tc venv eenv penv) (v r0 : StructVal) :
    ∀ (cs : List UnionCase) (i : Nat) (seen : List String) (fs : List (String × Tipe))
      (r : StructVal),
      pathCase res v seen cs i = some fs →
      (∀ p ∈ fs, ∃ x, v.lookup p.1 = some x ∧ typedVal res false tc v p.2 x = true) →
      (∀ p ∈ fs, r0.lookup p.1 = zero res p.2) →
      validateCase venv v cs i = .ok () →
      (∀ n ∈ seen, r.lookup n = v.lookup n) →
      (∀ n, n ∉ seen → r.lookup n = r0.lookup n) →
      (∃ bs, encodeCase eenv (some v) cs i = .ok bs) ∧
        ∀ bs rest, encodeCase eenv (some v) cs i = .ok bs →
          ∃ r1, parseCase penv cs i (r, bs ++ rest) = .ok (r1, rest) ∧
            (∀ n ∈ seen ++ fs.map Prod.fst, r1.lookup n = v.lookup n) ∧
            (∀ n, n ∉ seen ++ fs.map Prod.fst → r1.lookup n = r0.lookup n)
  | [], _, seen, fs, r, hpath, _, _, _, hseen, hrest => by
    simp only [pathCase, Option.some.injEq] at hpath
    subst hpath
    refine ⟨⟨[], rfl⟩, fun bs rest hbs => ?_⟩
    have hEq : bs = [] := by simpa [encodeCase] using hbs.symm
    subst hEq
    exact ⟨r, by simp [parseCase], by simpa using hseen, by simpa using hrest⟩
  | .mk _ ms :: _, 0, seen, fs, r, hpath, htyp, hzero, hval, hseen, hrest => by
    simpa [encodeCase, parseCase] using
      parseMembers_selected res tc venv eenv penv hv he hp hctx hc v r0 ms seen fs r
        (by simpa [pathCase] using hpath) htyp hzero (by simpa [validateCase] using hval)
        hseen hrest
  | .mk _ _ :: cs, i + 1, seen, fs, r, hpath, htyp, hzero, hval, hseen, hrest => by
    simpa [encodeCase, parseCase] using
      parseCase_selected res tc venv eenv penv hv he hp hctx hc v r0 cs i seen fs r
        (by simpa [pathCase] using hpath) htyp hzero (by simpa [validateCase] using hval)
        hseen hrest
end

mutual
theorem selectedNamesMember_path (res : Resolver) (v : StructVal) :
    ∀ (m : Member) (seen : List String) (fs : List (String × Tipe)),
      pathMember res v seen m = some fs →
      ∀ n ∈ selectedNamesMember res v m, n ∈ seen ++ fs.map Prod.fst
  | .Field name t, seen, fs, hpath, n, hn => by
    simp only [pathMember] at hpath
    split at hpath
    next hcond =>
      simp only [Option.some.injEq] at hpath
      subst hpath
      simp only [Bool.and_eq_true, decide_eq_true_eq] at hcond
      simp only [selectedNamesMember] at hn
      cases t with
      | VarArrayMember b c =>
        cases c with
        | none => simp [plainType] at hcond
        | some c =>
          cases c with
          | IDRef r =>
            simp only [plainType, Bool.and_eq_true, decide_eq_true_eq] at hcond
            simp only [selectedNamesType, List.mem_cons, List.mem_singleton, List.not_mem_nil,
              or_false] at hn
            rcases hn with hn | hn
            · simp [hn]
            · simp [hn, hcond.1.2]
          | _ => simp [plainType] at hcond
      | _ => simp_all [selectedNamesType]
    next => simp at hpath
  | .UnionMember _ tag len cases, seen, fs, hpath, n, hn => by
    simp only [pathMember] at hpath
    cases len with
    | some c => simp at hpath
    | none =>
      simp only at hpath
      split at hpath
      next hcond =>
        simp only [Bool.and_eq_true, beq_iff_eq, decide_eq_true_eq] at hcond
        simp only [selectedNamesMember, List.mem_cons] at hn
        rcases hn with hn | hn
        · simp [hn, hcond.2]
        · cases hx : ref [] (some v) tag with
          | ok x =>
            simp only [hx] at hpath hn
            cases hs : switchCase res x cases with
            | ok sel =>
              cases sel with
              | none => simp [hs] at hn
              | some i =>
                simp only [hs] at hpath hn
                exact selectedNamesCase_path res v cases i seen fs hpath n hn
            | _ => simp [hs] at hpath
          | _ => simp [hx] at hpath
      next => simp at hpath
  | .EOS, _, _, hpath, _, _ => by simp [pathMember] at hpath
  | .Ignore, _, _, hpath, _, _ => by simp [pathMember] at hpath
  | .Fail, _, _, hpath, _, _ => by simp [pathMember] at hpath
theorem selectedNamesMembers_path (res : Resolver) (v : StructVal) :
    ∀ (ms : List Member) (seen : List String) (fs : List (String × Tipe)),
      pathMembers res v seen ms = some fs →
      ∀ n ∈ selectedNamesMembers res v ms, n ∈ seen ++ fs.map Prod.fst
  | [], _, _, _, n, hn => by simp [selectedNamesMembers] at hn
  | m :: ms, seen, fs, hpath, n, hn => by
    simp only [pathMembers] at hpath
    cases h1 : pathMember res v seen m with
    | none => simp [h1] at hpath
    | some a1 =>
      cases h2 : pathMembers res v (seen ++ a1.map Prod.fst) ms with
      | none => simp [h1, h2] at hpath
      | some a2 =>
        simp only [h1, h2, Option.some.injEq] at hpath
        subst hpath
        simp only [selectedNamesMembers, List.mem_append] at hn
        rcases hn with hn | hn
        · have := selectedNamesMember_path res v m seen a1 h1 n hn
          simp only [List.mem_append, List.map_append] at this ⊢
          tauto
        · have := selectedNamesMembers_path res v ms _ a2 h2 n hn
          simp only [List.mem_append, List.map_append] at this ⊢
          tauto
theorem selectedNamesCase_path (res : Resolver) (v : StructVal) :
    ∀ (cs : List UnionCase) (i : Nat) (seen : List String) (fs : List (String × Tipe)),
      pathCase res v seen cs i = some fs →
      ∀ n ∈ selectedNamesCase res v cs i, n ∈ seen ++ fs.map Prod.fst
  | [], _, _, _, _, n, hn => by simp [selectedNamesCase] at hn
  | .mk _ ms :: _, 0, seen, fs, hpath, n, hn =>
    selectedNamesMembers_path res v ms seen fs (by simpa [pathCase] using hpath) n
      (by simpa [selectedNamesCase] using hn)
  | .mk _ _ :: cs, i + 1, seen, fs, hpath, n, hn =>
    selectedNamesCase_path res v cs i seen fs (by simpa [pathCase] using hpath) n
      (by simpa [selectedNamesCase] using hn)
end

theorem typedFields_mem (res : Resolver) (tc : Struct → StructVal → Bool) (v : StructVal) :
    ∀ fs : List (String × Tipe), typedFields res tc v fs = true →
      ∀ p ∈ fs, ∃ x, v.lookup p.1 = some x ∧ typedVal res false tc v p.2 x = true
  | [], _, p, hp => by simp at hp
  | (name, t) :: fs, h, p, hp => by
    simp only [typedFields, Bool.and_eq_true] at h
    rcases List.mem_cons.1 hp with hp | hp
    · subst hp
      cases hl : v.lookup name with
      | none => simp [hl] at h
      | some x => exact ⟨x, rfl, by simpa [hl] using h.1⟩
    · exact typedFields_mem res tc v fs h.2 p hp

theorem selected_roundtrip (res : Resolver) (n : Nat) (s : Struct) (v : StructVal)
    (hsel : selectedPlain res (n + 1) s v = true) (hval : validate res (n + 1) s v = .ok ()) :
    ∃ bs, encodeBinary res (n + 1) s (some v) = .ok bs ∧
      ∀ rest, ∃ w, Parse res (n + 1) s [] (bs ++ rest) = .ok (w, rest) ∧
        agreeOn (selectedNamesMembers res v s.Members) w v := by
  have hc : ∀ len, CalleeRoundTrip (plain res n) ⟨res, validate res n⟩
      ⟨res, encodeBinary res n⟩ ⟨res, [], len, n, Parse res n⟩ := fun len s1 p h1 h2 =>
    ⟨plain_contexts res n s1 p h1, plain_roundtrip res n s1 p h1 h2⟩
  simp only [selectedPlain, Bool.and_eq_true, decide_eq_true_eq] at hsel
  obtain ⟨⟨⟨_, hnames⟩, hnd⟩, hpath⟩ := hsel
  cases hd : structDecl s.Members with
  | none => simp [hd] at hnames
  | some fsAll =>
    simp only [hd, Bool.and_eq_true, decide_eq_true_eq] at hnames
    obtain ⟨hnames, hzs⟩ := hnames
    obtain ⟨r0, hr0⟩ := Option.isSome_iff_exists.1 hzs
    have hnew : newStruct res s = .ok r0 := by simp [newStruct, hd, hr0, Outcome.ofOption]
    cases hp : pathMembers res v [] s.Members with
    | none => simp [hp] at hpath
    | some fs =>
      simp only [hp] at hpath
      have htyp := typedFields_mem res (plain res n) v fs hpath
      have hzero : ∀ p ∈ fs, r0.lookup p.1 = zero res p.2 := fun p hpm =>
        lookup_zeroFields res fsAll r0 hr0 (by rw [hnames]; exact hnd) p
          (pathMembers_subset res v s.Members [] fs fsAll hp hd p hpm)
      have key := fun len => parseMembers_selected res (plain res n) ⟨res, validate res n⟩
        ⟨res, encodeBinary res n⟩ ⟨res, [], len, n, Parse res n⟩ rfl rfl rfl rfl (hc len) v r0
        s.Members [] fs r0 hp htyp hzero (by simpa [validate] using hval)
        (fun n hn => by simp at hn) (fun _ _ => rfl)
      obtain ⟨⟨bs, hbs⟩, _⟩ := key 0
      refine ⟨bs, by simpa [encodeBinary] using hbs, fun rest => ?_⟩
      obtain ⟨_, hpar⟩ := key (bs ++ rest).length
      obtain ⟨w, hw, hagree, _⟩ := hpar bs rest hbs
      refine ⟨w, by simpa [Parse, hnew] using hw, fun n hn => ?_⟩
      exact hagree n (selectedNamesMembers_path res v s.Members [] fs hp n hn)

/-- C13, as the code has it: what `encodeBinary` returns depends only on the selected part
of the value.  Two values that agree on the discriminant of every union that is met, on
every field outside the unions and in the selected cases, and on every field that an array
among these uses as its length, have the same result of `encodeBinary`, whatever the
fields of the unselected cases hold.  And when `validate` succeeds on a value whose
selected part is plain (`selectedPlain`: no context parameters, no length constraint on a
union, discriminants and array lengths decoded earlier, plain field types, set references
to plain structs), `Parse` and the constructor `ParseS` of the encoding succeed, `Parse`
with an empty remainder, and the value they return agrees with the original on the
discriminants and on all selected fields. -/
theorem encodeBinary_selected_case (res : Resolver) (n : Nat) (s : Struct) (v w : StructVal) :
    (agreeOn (selectedNamesMembers res v s.Members) v w →
      encodeBinary res (n + 1) s (some v) = encodeBinary res (n + 1) s (some w)) ∧
    (selectedPlain res (n + 1) s v = true → validate res (n + 1) s v = .ok () →
      ∃ bs u, encodeBinary res (n + 1) s (some v) = .ok bs ∧
        Parse res (n + 1) s [] bs = .ok (u, []) ∧ ParseS res (n + 1) s [] bs = .ok u ∧
        agreeOn (selectedNamesMembers res v s.Members) u v) := by
  constructor
  · intro h
    exact encodeMembers_congr ⟨res, encodeBinary res n⟩ v w s.Members h
  · intro hsel hval
    obtain ⟨bs, hbs, hpar⟩ := selected_roundtrip res n s v hsel hval
    obtain ⟨u, hu, hagree⟩ := hpar []
    have hp : Parse res (n + 1) s [] bs = .ok (u, []) := by simpa using hu
    exact ⟨bs, u, hbs, hp, by simp [ParseS, hp], hagree⟩

/-- C13 at the value of `TestUnionByteDataRoundTrip`: it encodes like the value with the
fields of the other cases zeroed, and parsing the encoding reproduces `Type` and
`ByteData`. -/
theorem encodeBinary_selected_case_witness :
    encodeBinary exampleRes 1 Packet (some packetByte)
      = encodeBinary exampleRes 1 Packet (some packetByteParsed) ∧
    ∃ bs u, encodeBinary exampleRes 1 Packet (some packetByte) = .ok bs ∧
      Parse exampleRes 1 Packet [] bs = .ok (u, []) ∧ ParseS exampleRes 1 Packet [] bs = .ok u ∧
      agreeOn (selectedNamesMembers exampleRes packetByte Packet.Members) u packetByte :=
  ⟨(encodeBinary_selected_case exampleRes 0 Packet packetByte packetByteParsed).1 (by
      have hn : selectedNamesMembers exampleRes packetByte Packet.Members
          = ["Type", "Type", "ByteData"] := by decide
      rw [hn]
      intro k hk
      simp only [List.mem_cons, List.mem_singleton, List.not_mem_nil, or_false] at hk
      rcases hk with rfl | rfl | rfl <;> rfl),
   (encodeBinary_selected_case exampleRes 0 Packet packetByte packetByte).2 (by decide) rfl⟩

/-- C13 fails as stated.  The value of `Packet` with discriminant 4 validates and encodes
to `[4]`, yet `Parse` of `[4]` fails with "disallowed case" at `default: fail`: parsing
does not reproduce the discriminant.  And in `u8 tag; union u[tag] { 1: u8 n;
2: u8 data[n]; }` two values that agree on the discriminant 2 and on the field `data` of
the selected case encode to different bytes, because the count `n` of the array is a field
of the unselected case. -/
theorem union_roundtrip_fails :
    (validate exampleRes 1 Packet packetOther = .ok () ∧
      encodeBinary exampleRes 1 Packet (some packetOther) = .ok [4] ∧
      Parse exampleRes 1 Packet [] [4] = .error .disallowedCase) ∧
    ((caseCountValue 1).lookup "Tag" = (caseCountValue 2).lookup "Tag" ∧
      (caseCountValue 1).lookup "Data" = (caseCountValue 2).lookup "Data" ∧
      encodeBinary exampleRes 1 CaseCount (some (caseCountValue 1)) = .ok [2, 7] ∧
      encodeBinary exampleRes 1 CaseCount (some (caseCountValue 2)) = .ok [2, 7, 8]) :=
  ⟨⟨rfl, rfl, rfl⟩, rfl, rfl, rfl, rfl⟩

/-- C14: round trip on the union-free, string-free fragment.  For every struct of the
plain fragment (declared without context parameters; members are integer and char fields
with or without constraints, fixed arrays, arrays counted by an integer field declared
earlier in the struct, set references to structs of the same kind) and every value on
which `validate` succeeds, `encodeBinary` returns bytes on which `Parse` succeeds with an
empty remainder and returns exactly that value, nested structs and array elements
included; followed by further bytes, `Parse` returns the value and exactly those bytes. -/
theorem roundtrip_fragment (res : Resolver) (fuel : Nat) (s : Struct) (v : StructVal)
    (hpl : plain res fuel s v = true) (hval : validate res fuel s v = .ok ()) :
    ∃ bs, encodeBinary res fuel s (some v) = .ok bs ∧ Parse res fuel s [] bs = .ok (v, []) ∧
      ∀ rest, Parse res fuel s [] (bs ++ rest) = .ok (v, rest) := by
  obtain ⟨bs, hbs, hpar⟩ := plain_roundtrip res fuel s v hpl hval
  exact ⟨bs, hbs, by simpa using hpar [], hpar⟩

/-- C14 at the value of `TestFixedArrayRoundTrip` and at a value of the format
`u8 version IN [5]; u8 n_methods; u8 methods[n_methods];`. -/
theorem roundtrip_fragment_witness :
    (∃ bs, encodeBinary exampleRes 1 FixedArray (some fixedArrayValue) = .ok bs ∧
      Parse exampleRes 1 FixedArray [] bs = .ok (fixedArrayValue, []) ∧
      ∀ rest, Parse exampleRes 1 FixedArray [] (bs ++ rest) = .ok (fixedArrayValue, rest)) ∧
    (∃ bs, encodeBinary exampleRes 1 Socks5ClientVersion (some socks5Value) = .ok bs ∧
      Parse exampleRes 1 Socks5ClientVersion [] bs = .ok (socks5Value, []) ∧
      ∀ rest, Parse exampleRes 1 Socks5ClientVersion [] (bs ++ rest) = .ok (socks5Value, rest)) :=
  ⟨roundtrip_fragment exampleRes 1 FixedArray fixedArrayValue (by decide) rfl,
   roundtrip_fragment exampleRes 1 Socks5ClientVersion socks5Value (by decide) rfl⟩

/-! ## Arrays in the unchecked encoder, `Fail` in validate, the printed conditions -/

theorem encodeFor_eq_specEncodeAll (elem : Val → Outcome (List Byte)) (rhs : List Val) :
    ∀ (n idx : Nat), idx + n ≤ rhs.length →
      encodeFor elem rhs n idx = specEncodeAll elem ((rhs.drop idx).take n)
  | 0, idx, _ => by simp [encodeFor, specEncodeAll]
  | n + 1, idx, h => by
    have hidx : idx < rhs.length := by omega
    have ih := encodeFor_eq_specEncodeAll elem rhs n (idx + 1) (by omega)
    rw [List.drop_eq_getElem_cons hidx]
    simp only [encodeFor, List.getElem?_eq_getElem hidx, List.take_succ_cons, specEncodeAll, ih]

theorem encodeFor_all (elem : Val → Outcome (List Byte)) (rhs : List Val) :
    encodeFor elem rhs rhs.length 0 = specEncodeAll elem rhs := by
  simpa using encodeFor_eq_specEncodeAll elem rhs rhs.length 0 (by omega)

/-- C21, as the code has it: what `encodeBinary` appends for an array field that holds the
sequence `xs`.  For an unbounded and for a Leftover array it is the encoding of every
element of `xs` in order (`specEncodeAll`), whatever a count field holds.  For an array of
constant length it is the same when `xs` has that length, as a Go array `[N]T` always has.
For an array counted by a field it is the encoding of the first `int(count)` elements of
`xs`, when there are that many: the loop runs to the count, not to the length. -/
theorem encodeArray_spec (env : MethodEnv (Option StructVal) (List Byte)) (recv : StructVal)
    (name : String) (base : ArrayBase) (xs : List Val)
    (hl : recv.lookup name = some (.arr xs)) :
    encodeArray env (some recv) name base none = specEncodeAll (encodeBase env base) xs ∧
    (∀ num : Integer, encodeArray env (some recv) name base (some (.Leftover num))
      = specEncodeAll (encodeBase env base) xs) ∧
    (∀ (i : Integer) (N : Int), env.res.Integer i = some N → (xs.length : Int) = N →
      encodeArray env (some recv) name base (some (.Integer i))
        = specEncodeAll (encodeBase env base) xs) ∧
    (∀ (r : IDRef) (x : Nat), ref [] (some recv) r = .ok x → 0 ≤ goInt x →
      (goInt x).toNat ≤ xs.length →
      encodeArray env (some recv) name base (some (.IDRef r))
        = specEncodeAll (encodeBase env base) (xs.take (goInt x).toNat)) := by
  have hr := readArr_some recv name xs hl
  refine ⟨?_, ?_, ?_, ?_⟩
  · simp [encodeArray, hr, encodeFor_all]
  · intro num
    simp [encodeArray, hr, encodeFor_all]
  · intro i N hN hlen
    simp only [encodeArray, integer, hN, Outcome.ofOption, bind_eq, ok_bind, pure_eq, hr]
    split
    · have h0 : xs = [] := List.length_eq_zero.1 (by omega)
      subst h0
      rfl
    · have hn : N.toNat = xs.length := by omega
      rw [hn, encodeFor_all]
  · intro r x hx h0 hle
    simp only [encodeArray, hx, bind_eq, ok_bind, pure_eq, hr]
    split
    · have hz : (goInt x).toNat = 0 := by omega
      simp [hz, specEncodeAll]
    · rw [encodeFor_eq_specEncodeAll _ _ _ 0 (by omega)]
      simp

/-- C21 at `{Count: 2, Data: [10, 20, 30]}`: read as an unbounded array the field encodes
all three elements, read as the array counted by `Count` its first two. -/
theorem encodeArray_spec_witness :
    encodeArray ⟨exampleRes, encodeBinary exampleRes 0⟩ (some simpleArrayShort) "Data"
        (.IntType (uint 8)) none
      = specEncodeAll (encodeBase ⟨exampleRes, encodeBinary exampleRes 0⟩ (.IntType (uint 8)))
          [.int 10, .int 20, .int 30] ∧
    encodeArray ⟨exampleRes, encodeBinary exampleRes 0⟩ (some simpleArrayShort) "Data"
        (.IntType (uint 8)) (some (.IDRef (field "Count")))
      = specEncodeAll (encodeBase ⟨exampleRes, encodeBinary exampleRes 0⟩ (.IntType (uint 8)))
          (List.take (goInt 2).toNat [.int 10, .int 20, .int 30]) :=
  ⟨(encodeArray_spec ⟨exampleRes, encodeBinary exampleRes 0⟩ simpleArrayShort "Data"
      (.IntType (uint 8)) [.int 10, .int 20, .int 30] rfl).1,
   (encodeArray_spec ⟨exampleRes, encodeBinary exampleRes 0⟩ simpleArrayShort "Data"
      (.IntType (uint 8)) [.int 10, .int 20, .int 30] rfl).2.2.2 (field "Count") 2 rfl
      (by decide) (by decide)⟩

/-- C21 fails as stated: for `u8 count; u8 data[count];` the value `{Count: 2, Data: [10,
20, 30]}` encodes to `[2, 10, 20]`: two elements are encoded, the count, while the
sequence holds three, whose encodings in order are `[10, 20, 30]`. -/
theorem encodeBinary_counts_by_field :
    encodeBinary exampleRes 1 SimpleArray (some simpleArrayShort) = .ok [2, 10, 20] ∧
    specEncodeAll (encodeBase ⟨exampleRes, encodeBinary exampleRes 0⟩ (.IntType (uint 8)))
      [.int 10, .int 20, .int 30] = .ok [10, 20, 30] :=
  ⟨rfl, rfl⟩

theorem validateMembers_filter_notFail (env : MethodEnv StructVal Unit) (recv : StructVal) :
    ∀ ms : List Member,
      validateMembers env recv ms = validateMembers env recv (ms.filter notFail)
  | [] => rfl
  | m :: ms => by
    have ih := validateMembers_filter_notFail env recv ms
    cases m <;> simp [List.filter, notFail, validateMembers, validateMember, ih]

theorem validateMembers_all_Fail (env : MethodEnv StructVal Unit) (recv : StructVal) :
    ∀ ms : List Member, (∀ m ∈ ms, m = Member.Fail) → validateMembers env recv ms = .ok ()
  | [], _ => rfl
  | m :: ms, h => by
    have hm : m = Member.Fail := h m (List.mem_cons_self _ _)
    subst hm
    simp [validateMembers, validateMember,
      validateMembers_all_Fail env recv ms (fun m hm => h m (List.mem_cons_of_mem _ hm))]

/-- C22, as the code has it: `validate` has no check for `Fail`.  The code of
`validateMember` for a `Fail` member is empty, so a union whose discriminant selects case
`i` is validated as the members of that case other than `Fail`; when the case holds only
`Fail` members (as `default: fail` does) the union validates. -/
theorem validate_ignores_Fail (env : MethodEnv StructVal Unit) (recv : StructVal)
    (name : String) (tag : IDRef) (len : Option LengthConstraint) (cases : List UnionCase)
    (x i : Nat) (htag : ref [] (some recv) tag = .ok x)
    (hsel : switchCase env.res x cases = .ok (some i)) :
    validateMember env recv .Fail = .ok () ∧
    validateMember env recv (.UnionMember name tag len cases)
      = validateMembers env recv ((caseMembers cases i).filter notFail) ∧
    ((∀ m ∈ caseMembers cases i, m = Member.Fail) →
      validateMember env recv (.UnionMember name tag len cases) = .ok ()) := by
  have h : validateMember env recv (.UnionMember name tag len cases)
      = validateMembers env recv (caseMembers cases i) := by
    simp only [validateMember, validateUnionMember, bind_eq, htag, ok_bind, hsel]
    exact validateCase_caseMembers env recv cases i
  refine ⟨rfl, ?_, fun hall => ?_⟩
  · rw [h, validateMembers_filter_notFail]
  · rw [h, validateMembers_all_Fail env recv _ hall]

/-- C22 at the union of the tests with the discriminant 4, which selects `default: fail`:
the union is validated as no member at all and validates. -/
theorem validate_ignores_Fail_witness :
    validateMember ⟨exampleRes, validate exampleRes 0⟩ packetOther .Fail = .ok () ∧
    validateMember ⟨exampleRes, validate exampleRes 0⟩ packetOther
        (.UnionMember "Data" (field "Type") none packetCases)
      = validateMembers ⟨exampleRes, validate exampleRes 0⟩ packetOther [] ∧
    validateMember ⟨exampleRes, validate exampleRes 0⟩ packetOther
        (.UnionMember "Data" (field "Type") none packetCases) = .ok () :=
  have h := validate_ignores_Fail ⟨exampleRes, validate exampleRes 0⟩ packetOther "Data"
    (field "Type") none packetCases 4 3 rfl rfl
  ⟨h.1, h.2.1, h.2.2 (fun _ hm => List.mem_singleton.1 hm)⟩

/-- C22 fails as stated: the value of `Packet` with discriminant 4 selects `default:
fail`, yet `validate` succeeds on it and `MarshalBinary` returns the bytes `[4]`, which
`ParseS` rejects with "disallowed case". -/
theorem MarshalBinary_accepts_disallowed_case :
    validate exampleRes 1 Packet packetOther = .ok () ∧
    MarshalBinary exampleRes 1 Packet packetOther = .ok [4] ∧
    ParseS exampleRes 1 Packet [] [4] = .error .disallowedCase :=
  ⟨rfl, rfl, rfl⟩

theorem specInRange_iff (res : Resolver) (x : Nat) (r : IntegerRange) :
    specInRange res x r = true ↔
      ((r.High = none ∧ res.Integer r.Low = some (x : Int)) ∨
        ∃ hi lo h, r.High = some hi ∧ res.Integer r.Low = some lo ∧ res.Integer hi = some h ∧
          lo ≤ (x : Int) ∧ (x : Int) ≤ h) := by
  unfold specInRange
  cases hH : r.High with
  | none =>
    cases hL : res.Integer r.Low with
    | none => simp
    | some lo =>
      constructor
      · intro h
        have h1 : (x : Int) = lo := by simpa using h
        exact Or.inl ⟨rfl, by rw [h1]⟩
      · rintro (⟨_, h⟩ | ⟨_, _, _, h, _⟩)
        · have h1 : lo = (x : Int) := Option.some.inj h
          simp [h1]
        · cases h
  | some hi =>
    cases hL : res.Integer r.Low with
    | none => simp
    | some lo =>
      cases hHi : res.Integer hi with
      | none => simp [hHi]
      | some h => simp [hHi]

/-- C26: the condition printed by `conditional` for a range set that can be printed (it
is not empty and its bounds resolve).  Its truth value at `x` is that of the clauses of
the entries in declaration order joined by `||`, and it is true exactly when `x` equals
the value of a singleton entry or lies between the inclusive bounds of a range entry
(`specInRangeSet`, written from the specification).  Decode of an integer field with this
constraint fails with "integer constraint violated" exactly when it is false, `validate`
of such a field likewise, and the `switch` of a union has it as the condition of a case
with this range set. -/
theorem conditional_spec (res : Resolver) (x : Nat) (c : IntegerList)
    (hok : constraintOK res (some c) = true) :
    c.Ranges ≠ [] ∧
    conditional res x c = some (specInRangeSet res x c) ∧
    (specInRangeSet res x c = true ↔ ∃ r ∈ c.Ranges,
      (r.High = none ∧ res.Integer r.Low = some (x : Int)) ∨
        ∃ hi lo h, r.High = some hi ∧ res.Integer r.Low = some lo ∧
          res.Integer hi = some h ∧ lo ≤ (x : Int) ∧ (x : Int) ≤ h) ∧
    conditional res x c = clauses res x c.Ranges ∧
    (∀ (size : Nat) (cur : List Byte), validSize size = true → size / 8 ≤ cur.length →
      bigEndian (cur.take (size / 8)) = x →
      parseIntType res true ⟨size, some c⟩ cur
        = if specInRangeSet res x c then .ok (.int x, cur.drop (size / 8))
          else .error .integerConstraint) ∧
    (∀ size : Nat, validateIntType res (.ok (.int x)) ⟨size, some c⟩
        = if specInRangeSet res x c then .ok () else .error .integerConstraint) ∧
    (∀ (ms : List Member) (cs : List UnionCase) (bs : List (Option Bool)),
      caseConds res x cs = some bs →
      caseConds res x (.mk (some c) ms :: cs) = some (some (specInRangeSet res x c) :: bs)) := by
  obtain ⟨b, hb⟩ := conditional_of_constraintOK res x c hok
  have hne : c.Ranges ≠ [] := by
    intro h
    simp [conditional, h] at hb
  have hany : b = specInRangeSet res x c := conditional_eq_spec res x c b hb
  subst hany
  have hcl : conditional res x c = clauses res x c.Ranges := by
    unfold conditional
    cases hr : c.Ranges with
    | nil => exact absurd hr hne
    | cons r rs => rfl
  have hchk : checkConstraint res x (some c)
      = if specInRangeSet res x c then .ok () else .error .integerConstraint := by
    cases hs : specInRangeSet res x c <;> simp [checkConstraint, hb, hs]
  refine ⟨hne, hb, ?_, hcl, ?_, ?_, ?_⟩
  · unfold specInRangeSet
    rw [List.any_eq_true]
    constructor
    · rintro ⟨r, hr, h⟩
      exact ⟨r, hr, (specInRange_iff res x r).1 h⟩
    · rintro ⟨r, hr, h⟩
      exact ⟨r, hr, (specInRange_iff res x r).2 h⟩
  · intro size cur hs hle hx
    simp only [parseIntType, hs, if_true, bind_eq, pure_eq, lengthCheck_ok cur _ hle, ok_bind,
      hx, hchk]
    cases specInRangeSet res x c <;> simp
  · intro size
    simp only [validateIntType, ok_bind, hchk]
  · intro ms cs bs hbs
    simp [caseConds, UnionCase.Case, hbs, hb]

/-- C26 at the range set `[1, 4..9]`: 7 satisfies it and 3 does not, in the condition, in
decode and in `validate`. -/
theorem conditional_spec_witness :
    conditional exampleRes 7 rangeList = some true ∧
    conditional exampleRes 3 rangeList = some false ∧
    parseIntType exampleRes true ⟨8, some rangeList⟩ [7, 0] = .ok (.int 7, [0]) ∧
    validateIntType exampleRes (.ok (.int 3)) ⟨8, some rangeList⟩ = .error .integerConstraint :=
  ⟨(conditional_spec exampleRes 7 rangeList (by decide)).2.1,
   (conditional_spec exampleRes 3 rangeList (by decide)).2.1,
   (conditional_spec exampleRes 7 rangeList (by decide)).2.2.2.2.1 8 [7, 0] (by decide)
     (by decide) rfl,
   (conditional_spec exampleRes 3 rangeList (by decide)).2.2.2.2.2.1 8⟩

/-- An iteration of the unbounded loop whose element leaves a non-empty cursor as it is
repeats for ever: no budget suffices. -/
theorem parseLoop_stuck (elem : Bool → List Byte → Outcome (Val × List Byte)) (v : Val)
    (cur : List Byte) (hcur : cur ≠ []) (h : elem true cur = .ok (v, cur)) :
    ∀ (n : Nat) (lhs : List Val), parseLoop elem n lhs cur = .fuel := by
  intro n
  induction n with
  | zero => intro lhs; rfl
  | succ n ih =>
    intro lhs
    have hlen : cur.length > 0 := List.length_pos.2 hcur
    simp only [parseLoop, hlen, if_true, h, bind_eq, Outcome.bind]
    exact ih _

/-- C30 (fails in the code): the unbounded-array loop does not always shorten the cursor.
For `struct hollow {}` and `struct hollows { struct hollow items[]; }`, decoding one
element on the one-byte input `[1]` succeeds and leaves the cursor `[1]` as it is, so the
loop `for len(cur) > 0` of `Hollows.Parse` repeats without end: for every step budget the
run of `Parse` on `[1]` has not returned when the budget is used up. -/
theorem Parse_unbounded_loop_diverges :
    (∀ n : Nat, parseBase ⟨hollowRes, [], 1, n + 1, Parse hollowRes (n + 1)⟩ (.StructRef "Hollow")
        true [1] = .ok (.ref (some []), [1])) ∧
    ∀ fuel : Nat, Parse hollowRes fuel Hollows [] [1] = .fuel := by
  have helem : ∀ n : Nat, parseBase ⟨hollowRes, [], 1, n + 1, Parse hollowRes (n + 1)⟩
      (.StructRef "Hollow") true [1] = .ok (.ref (some []), [1]) := fun n => rfl
  refine ⟨helem, ?_⟩
  intro fuel
  cases fuel with
  | zero => rfl
  | succ n =>
    cases n with
    | zero => rfl
    | succ n =>
      have hstuck := parseLoop_stuck
        (parseBase ⟨hollowRes, [], 1, n + 1, Parse hollowRes (n + 1)⟩ (.StructRef "Hollow"))
        (.ref (some [])) [1] (by simp) rfl (n + 1) []
      show (do
        let recv ← newStruct hollowRes Hollows
        parseMembers ⟨hollowRes, [], 1, n + 1, Parse hollowRes (n + 1)⟩ Hollows.Members
          (recv, [1])) = Outcome.fuel
      have hnew : newStruct hollowRes Hollows = .ok [("Items", .arr [])] := rfl
      rw [hnew]
      simp only [bind_eq, Outcome.bind, Hollows, parseMembers, parseMember, readField,
        Outcome.ofOption, List.lookup, parseType, parseArray]
      simp [hstuck, Outcome.bind]

/-- A struct reference that the resolver does not find makes `parseType` panic. -/
theorem genParseType_not_found (res : Resolver) (n : String) (h : res.Struct n = none) :
    genParseType res (.StructRef n) = .error .structNotFound := by
  simp [genParseType, genParseBase, h]

/-- C23 (fails in the code): an unresolved struct reference is not reported as a
generation error.  For the file that declares `struct dangling { struct missing x; }`
alone, `Marshallers` returns neither the printed text nor an error: the generator panics
with the fixed message "struct not found", which names neither the struct nor the
field. -/
theorem Marshallers_struct_not_found :
    danglingRes.Struct "Missing" = none ∧
    Marshallers (some danglingRes) [danglingFile] = .panic .structNotFound ∧
    Marshallers (some danglingRes) [danglingFile] ≠ .initError := by
  refine ⟨rfl, rfl, ?_⟩
  decide

/-- The arguments of `contextArgs` carry the given names, in order. -/
theorem contextArgs_names (ctxs : List (String × StructVal)) :
    ∀ (names : List String) (args : List (String × StructVal)),
      contextArgs ctxs names = some args → args.map Prod.fst = names := by
  intro names
  induction names with
  | nil => intro args h; simp [contextArgs] at h; subst h; rfl
  | cons n ns ih =>
    intro args h
    simp only [contextArgs] at h
    cases hl : ctxs.lookup n with
    | none => simp [hl] at h
    | some c =>
      cases hr : contextArgs ctxs ns with
      | none => simp [hl, hr] at h
      | some cs =>
        simp [hl, hr] at h
        subst h
        simp [ih cs hr]

/-- Each argument of `contextArgs` is the variable of that name of the caller. -/
theorem contextArgs_values (ctxs : List (String × StructVal)) :
    ∀ (names : List String) (args : List (String × StructVal)),
      contextArgs ctxs names = some args → ∀ p ∈ args, ctxs.lookup p.1 = some p.2 := by
  intro names
  induction names with
  | nil => intro args h; simp [contextArgs] at h; subst h; simp
  | cons n ns ih =>
    intro args h
    simp only [contextArgs] at h
    cases hl : ctxs.lookup n with
    | none => simp [hl] at h
    | some c =>
      cases hr : contextArgs ctxs ns with
      | none => simp [hl, hr] at h
      | some cs =>
        simp [hl, hr] at h
        subst h
        intro p hp
        rcases List.mem_cons.1 hp with rfl | hp
        · exact hl
        · exact ih cs hr p hp

/-- The arguments exist exactly when the caller has a variable of every name. -/
theorem contextArgs_isSome (ctxs : List (String × StructVal)) :
    ∀ names : List String,
      (contextArgs ctxs names).isSome = true ↔ ∀ c ∈ names, (ctxs.lookup c).isSome = true := by
  intro names
  induction names with
  | nil => simp [contextArgs]
  | cons n ns ih =>
    simp only [contextArgs, List.mem_cons, forall_eq_or_imp]
    cases hl : ctxs.lookup n with
    | none => simp
    | some c =>
      cases hr : contextArgs ctxs ns with
      | none =>
        rw [hr] at ih
        simp at ih
        simp
        obtain ⟨c, hc, hn⟩ := ih
        exact ⟨c, hc, hn⟩
      | some cs =>
        rw [hr] at ih
        simpa using ih

/-- C24 (amended): context arguments are not checked at generation time.  For a field
that refers to a struct `T` found by the resolver, `parseType` prints the nested `Parse`
call without any check, whatever contexts the referencing struct declares.  The call
passes exactly the context names that `T` declares, in the order of `T`: where the caller
has a variable of each of these names the call runs `T.Parse` on exactly these variables;
where it lacks one, the printed call names an undeclared variable and there is no runnable
code. -/
theorem parseStructRef_context_args (env : ParseEnv) (n : String) (T : Struct) (cur : List Byte)
    (h : env.res.Struct n = some T) :
    genParseType env.res (.StructRef n) = .ok () ∧
    ((∀ c ∈ T.Contexts, (env.ctxs.lookup c).isSome = true) →
      ∃ args, contextArgs env.ctxs T.Contexts = some args ∧
        args.map Prod.fst = T.Contexts ∧
        (∀ p ∈ args, env.ctxs.lookup p.1 = some p.2) ∧
        parseStructRef env true n cur =
          (env.callee T args cur).bind (fun r => .ok (.ref (some r.1), r.2))) ∧
    ((∃ c ∈ T.Contexts, env.ctxs.lookup c = none) →
      parseStructRef env true n cur = .nocode) := by
  refine ⟨by simp [genParseType, genParseBase, h], ?_, ?_⟩
  · intro hall
    have hs := (contextArgs_isSome env.ctxs T.Contexts).2 hall
    obtain ⟨args, hargs⟩ := Option.isSome_iff_exists.1 hs
    refine ⟨args, hargs, contextArgs_names _ _ _ hargs, contextArgs_values _ _ _ hargs, ?_⟩
    simp only [parseStructRef, h, hargs, if_true, bind_eq, pure_eq]
  · rintro ⟨c, hc, hn⟩
    have hnone : contextArgs env.ctxs T.Contexts = none := by
      cases hr : contextArgs env.ctxs T.Contexts with
      | none => rfl
      | some args =>
        have := (contextArgs_isSome env.ctxs T.Contexts).1 (by simp [hr]) c hc
        simp [hn] at this
    simp [parseStructRef, h, hnone]

/-- Instance of `parseStructRef_context_args`: the reference to `Keyed` from a method that
has the variable `ctx`. -/
theorem parseStructRef_context_args_witness :
    keyedRes.Struct "Keyed" = some Keyed ∧
    genParseType keyedRes (.StructRef "Keyed") = .ok () :=
  ⟨rfl, (parseStructRef_context_args ⟨keyedRes, [("ctx", ctxValue 2)], 2, 1, Parse keyedRes 1⟩
    "Keyed" Keyed [7, 8] rfl).1⟩

/-- C24 (counterexample): `Wrapper` declares no context and refers to `Keyed`, which
declares the context `ctx`; the generator prints the whole file without failing, and the
`Parse` method printed for `Wrapper` passes the undeclared variable `ctx`, so that there
is no runnable code. -/
theorem Marshallers_no_context_check :
    Wrapper.Contexts = [] ∧ Keyed.Contexts = ["ctx"] ∧
    Marshallers (some keyedRes) [keyedFile] = .printed ∧
    Parse keyedRes 2 Wrapper [] [7, 8] = .nocode :=
  ⟨rfl, rfl, rfl, rfl⟩

/-- A scoped reference names a variable that a method without context parameters does not
have. -/
theorem ref_scoped_nocode (recv : Option StructVal) (r : IDRef) (h : r.Scope ≠ "") :
    ref [] recv r = .nocode := by
  simp [ref, h]

/-- In `Parse`, a scoped reference reads the field of the context parameter. -/
theorem ref_scoped_ok (ctxs : List (String × StructVal)) (recv : Option StructVal) (r : IDRef)
    (c : StructVal) (x : Nat) (h : r.Scope ≠ "") (hc : ctxs.lookup r.Scope = some c)
    (hx : c.lookup r.Name = some (.int x)) : ref ctxs recv r = .ok x := by
  simp [ref, h, hc, hx]

/-- With a scope, a reference is in scope in decode only.  The printed `Parse` and
`ParseS` take `data` and one parameter per declared context, and a context-scoped
reference reads the field of that parameter there; the printed `encodeBinary`,
`MarshalBinary` and `validate` take no parameter, so a context-scoped array length or
union tag in encode or validate names a variable that is not in scope, and there is no
runnable code. -/
theorem contexts_decode_only (env : MethodEnv (Option StructVal) (List Byte))
    (venv : MethodEnv StructVal Unit) (s : Struct) (r : IDRef) (h : r.Scope ≠ "") :
    parseParams s = "data" :: s.Contexts ∧ parseConstructorParams s = "data" :: s.Contexts ∧
    encodeBinaryParams s = [] ∧ marshalBinaryParams s = [] ∧ validateParams s = [] ∧
    (∀ ctxs recv c x, ctxs.lookup r.Scope = some c → c.lookup r.Name = some (.int x) →
      ref ctxs (some recv) r = .ok x) ∧
    (∀ recv name base, encodeArray env recv name base (some (.IDRef r)) = .nocode) ∧
    (∀ recv cases body, encodeUnionMember env recv r cases body = .nocode) ∧
    (∀ recv name base, validateArray venv recv name base (some (.IDRef r)) = .nocode) ∧
    (∀ recv cases body, validateUnionMember venv recv r cases body = .nocode) := by
  refine ⟨rfl, rfl, rfl, rfl, rfl, ?_, ?_, ?_, ?_, ?_⟩
  · intro ctxs recv c x hc hx
    exact ref_scoped_ok ctxs (some recv) r c x h hc hx
  · intro recv name base
    simp [encodeArray, ref_scoped_nocode _ r h, Outcome.bind]
  · intro recv cases body
    simp [encodeUnionMember, ref_scoped_nocode _ r h, Outcome.bind]
  · intro recv name base
    simp only [validateArray, expectedSize, ref_scoped_nocode _ r h, bind_eq, readArr,
      readField, Outcome.ofOption]
    cases recv.lookup name with
    | none => rfl
    | some v => cases v <;> rfl
  · intro recv cases body
    simp [validateUnionMember, ref_scoped_nocode _ r h, Outcome.bind]

/-- C25 (fails in the code): contexts are not threaded into encode.  For the format
`struct keyed with context ctx { u8 data[ctx.n]; }` the generator runs to the end without
complaint.  The `Parse` and `ParseKeyed` it prints take `data` and the parameter `ctx`;
the `encodeBinary`, `MarshalBinary` and `validate` it prints take no parameter, and
`encodeBinary` and `validate` read the array length `ctx.N` all the same: on every
receiver they have no runnable code, and neither has `MarshalBinary`. -/
theorem encodeBinary_without_context :
    Keyed.Contexts = ["ctx"] ∧ genStructure keyedRes Keyed = .ok () ∧
    parseParams Keyed = ["data", "ctx"] ∧ parseConstructorParams Keyed = ["data", "ctx"] ∧
    encodeBinaryParams Keyed = [] ∧ marshalBinaryParams Keyed = [] ∧
    validateParams Keyed = [] ∧
    (∀ (fuel : Nat) (recv : Option StructVal),
      encodeBinary keyedRes (fuel + 1) Keyed recv = .nocode) ∧
    (∀ (fuel : Nat) (recv : StructVal), validate keyedRes (fuel + 1) Keyed recv = .nocode) ∧
    (∀ (fuel : Nat) (recv : StructVal),
      MarshalBinary keyedRes (fuel + 1) Keyed recv = .nocode) := by
  have hscope : (⟨"ctx", "N"⟩ : IDRef).Scope ≠ "" := by decide
  have hv : ∀ (fuel : Nat) (recv : StructVal),
      validate keyedRes (fuel + 1) Keyed recv = .nocode := by
    intro fuel recv
    have h := (contexts_decode_only ⟨keyedRes, encodeBinary keyedRes fuel⟩
      ⟨keyedRes, validate keyedRes fuel⟩ Keyed ⟨"ctx", "N"⟩ hscope).2.2.2.2.2.2.2.2.1
      recv "Data" (.IntType (uint 8))
    simp [validate, Keyed, validateMembers, validateMember, validateType, h]
  refine ⟨rfl, rfl, rfl, rfl, rfl, rfl, rfl, ?_, hv, ?_⟩
  · intro fuel recv
    have h := (contexts_decode_only ⟨keyedRes, encodeBinary keyedRes fuel⟩
      ⟨keyedRes, validate keyedRes fuel⟩ Keyed ⟨"ctx", "N"⟩ hscope).2.2.2.2.2.2.1
      recv "Data" (.IntType (uint 8))
    simp [encodeBinary, Keyed, encodeMembers, encodeMember, encodeType, h]
  · intro fuel recv
    simp [MarshalBinary, hv fuel recv]

/-! ## The cursor only moves forward -/

theorem parseIntType_suffix (res : Resolver) (ok : Bool) (t : IntType) (cur : List Byte)
    (v : Val) (cur1 : List Byte) (h : parseIntType res ok t cur = .ok (v, cur1)) :
    cur1 <:+ cur := by
  unfold parseIntType at h
  split at h
  · simp only [bind_eq] at h
    obtain ⟨_, _, h⟩ := bind_eq_ok h
    split at h
    · obtain ⟨_, _, h⟩ := bind_eq_ok h
      simp only [pure_eq, Outcome.ok.injEq, Prod.mk.injEq] at h
      rw [← h.2]
      exact List.drop_suffix _ _
    · simp at h
  · simp at h

theorem parseStructRef_suffix (env : ParseEnv) (hc : CalleeSuffix env.callee) (ok : Bool)
    (n : String) (cur : List Byte) (v : Val) (cur1 : List Byte)
    (h : parseStructRef env ok n cur = .ok (v, cur1)) : cur1 <:+ cur := by
  unfold parseStructRef at h
  split at h
  · simp at h
  · split at h
    · simp at h
    · split at h
      · simp only [bind_eq] at h
        obtain ⟨⟨w, c1⟩, hcall, h⟩ := bind_eq_ok h
        simp only [pure_eq, Outcome.ok.injEq, Prod.mk.injEq] at h
        rw [← h.2]
        exact hc _ _ _ _ _ hcall
      · simp at h

theorem parseBase_suffix (env : ParseEnv) (hc : CalleeSuffix env.callee) (b : ArrayBase)
    (ok : Bool) (cur : List Byte) (v : Val) (cur1 : List Byte)
    (h : parseBase env b ok cur = .ok (v, cur1)) : cur1 <:+ cur := by
  cases b with
  | IntType t => exact parseIntType_suffix _ _ _ _ _ _ h
  | CharType => exact parseIntType_suffix _ _ _ _ _ _ h
  | StructRef n => exact parseStructRef_suffix env hc _ _ _ _ _ h

theorem parseFor_suffix (elem : Bool → List Byte → Outcome (Val × List Byte))
    (he : ∀ ok cur v cur1, elem ok cur = .ok (v, cur1) → cur1 <:+ cur) :
    ∀ (n idx : Nat) (lhs : List Val) (cur : List Byte) (xs : List Val) (cur1 : List Byte),
      parseFor elem n idx lhs cur = .ok (xs, cur1) → cur1 <:+ cur := by
  intro n
  induction n with
  | zero =>
    intro idx lhs cur xs cur1 h
    simp only [parseFor, Outcome.ok.injEq, Prod.mk.injEq] at h
    rw [← h.2]
  | succ n ih =>
    intro idx lhs cur xs cur1 h
    simp only [parseFor, bind_eq] at h
    obtain ⟨⟨v, c1⟩, h1, h2⟩ := bind_eq_ok h
    exact (ih _ _ _ _ _ h2).trans (he _ _ _ _ h1)

theorem parseLoop_suffix (elem : Bool → List Byte → Outcome (Val × List Byte))
    (he : ∀ ok cur v cur1, elem ok cur = .ok (v, cur1) → cur1 <:+ cur) :
    ∀ (n : Nat) (lhs : List Val) (cur : List Byte) (xs : List Val) (cur1 : List Byte),
      parseLoop elem n lhs cur = .ok (xs, cur1) → cur1 <:+ cur := by
  intro n
  induction n with
  | zero => intro lhs cur xs cur1 h; simp [parseLoop] at h
  | succ n ih =>
    intro lhs cur xs cur1 h
    simp only [parseLoop] at h
    split at h
    · simp only [bind_eq] at h
      obtain ⟨⟨v, c1⟩, h1, h2⟩ := bind_eq_ok h
      exact (ih _ _ _ _ h2).trans (he _ _ _ _ h1)
    · simp only [Outcome.ok.injEq, Prod.mk.injEq] at h
      rw [← h.2]

/-- A length-constrained region hands back the tail it had set aside. -/
theorem constrained_suffix {α : Type} (env : ParseEnv) (recv : StructVal) (c : LengthConstraint)
    (f : List Byte → Outcome (α × List Byte)) (cur : List Byte) (a : α) (cur1 : List Byte)
    (h : constrained env recv c f cur = .ok (a, cur1)) : cur1 <:+ cur := by
  unfold constrained at h
  simp only [bind_eq] at h
  obtain ⟨n, _, h⟩ := bind_eq_ok h
  split at h
  · simp at h
  · obtain ⟨⟨b, c1⟩, _, h⟩ := bind_eq_ok h
    obtain ⟨_, _, h⟩ := bind_eq_ok h
    simp only [pure_eq, Outcome.ok.injEq, Prod.mk.injEq] at h
    rw [← h.2]
    exact List.drop_suffix _ _

theorem parseArray_suffix (env : ParseEnv) (hc : CalleeSuffix env.callee) (recv : StructVal)
    (lhs : Val) (base : ArrayBase) (s : Option LengthConstraint) (cur : List Byte) (v : Val)
    (cur1 : List Byte) (h : parseArray env recv lhs base s cur = .ok (v, cur1)) :
    cur1 <:+ cur := by
  have he : ∀ ok cur v cur1, parseBase env base ok cur = .ok (v, cur1) → cur1 <:+ cur :=
    fun ok cur v cur1 h => parseBase_suffix env hc base ok cur v cur1 h
  unfold parseArray at h
  split at h
  · simp only [bind_eq] at h
    obtain ⟨n, _, h⟩ := bind_eq_ok h
    split at h
    · obtain ⟨⟨xs, c1⟩, h1, h⟩ := bind_eq_ok h
      simp only [pure_eq, Outcome.ok.injEq, Prod.mk.injEq] at h
      rw [← h.2]
      exact parseFor_suffix _ he _ _ _ _ _ _ h1
    · simp at h
  · simp only [bind_eq] at h
    obtain ⟨x, _, h⟩ := bind_eq_ok h
    split at h
    · simp at h
    · obtain ⟨⟨xs, c1⟩, h1, h⟩ := bind_eq_ok h
      simp only [pure_eq, Outcome.ok.injEq, Prod.mk.injEq] at h
      rw [← h.2]
      exact parseFor_suffix _ he _ _ _ _ _ _ h1
  · exact constrained_suffix _ _ _ _ _ _ _ h
  · simp only [bind_eq] at h
    obtain ⟨⟨xs, c1⟩, h1, h⟩ := bind_eq_ok h
    simp only [pure_eq, Outcome.ok.injEq, Prod.mk.injEq] at h
    rw [← h.2]
    exact parseLoop_suffix _ he _ _ _ _ _ h1

theorem parseType_suffix (env : ParseEnv) (hc : CalleeSuffix env.callee) (recv : StructVal)
    (lhs : Val) (t : Tipe) (cur : List Byte) (v : Val) (cur1 : List Byte)
    (h : parseType env recv lhs t cur = .ok (v, cur1)) : cur1 <:+ cur := by
  cases t with
  | NulTermString =>
    simp only [parseType] at h
    split at h
    · simp at h
    · simp only [Outcome.ok.injEq, Prod.mk.injEq] at h
      rw [← h.2]
      exact List.drop_suffix _ _
  | IntType t =>
    simp only [parseType] at h
    exact parseIntType_suffix _ _ _ _ _ _ h
  | CharType =>
    simp only [parseType] at h
    exact parseIntType_suffix _ _ _ _ _ _ h
  | Ptr =>
    simp only [parseType, Outcome.ok.injEq, Prod.mk.injEq] at h
    rw [← h.2]
  | StructRef n =>
    simp only [parseType] at h
    exact parseStructRef_suffix env hc _ _ _ _ _ h
  | FixedArrayMember b size =>
    simp only [parseType] at h
    exact parseArray_suffix env hc _ _ _ _ _ _ _ h
  | VarArrayMember b c =>
    simp only [parseType] at h
    exact parseArray_suffix env hc _ _ _ _ _ _ _ h

theorem parseSwitch_suffix (env : ParseEnv) (tag : IDRef) (cases : List UnionCase)
    (body : Nat → StructVal × List Byte → Outcome (StructVal × List Byte))
    (hb : ∀ i st st1, body i st = .ok st1 → st1.2 <:+ st.2)
    (st st1 : StructVal × List Byte) (h : parseSwitch env tag cases body st = .ok st1) :
    st1.2 <:+ st.2 := by
  obtain ⟨recv, cur⟩ := st
  simp only [parseSwitch, bind_eq] at h
  obtain ⟨x, _, h⟩ := bind_eq_ok h
  obtain ⟨sel, _, h⟩ := bind_eq_ok h
  cases sel with
  | none =>
    simp only [pure_eq, Outcome.ok.injEq] at h
    rw [← h]
  | some i => exact hb i _ _ h

theorem parseUnionMember_suffix (env : ParseEnv) (tag : IDRef) (len : Option LengthConstraint)
    (cases : List UnionCase)
    (body : Nat → StructVal × List Byte → Outcome (StructVal × List Byte))
    (hb : ∀ i st st1, body i st = .ok st1 → st1.2 <:+ st.2)
    (st st1 : StructVal × List Byte) (h : parseUnionMember env tag len cases body st = .ok st1) :
    st1.2 <:+ st.2 := by
  obtain ⟨recv, cur⟩ := st
  obtain ⟨r1, c1⟩ := st1
  cases len with
  | some c =>
    simp only [parseUnionMember] at h
    exact constrained_suffix _ _ _ _ _ _ _ h
  | none =>
    simp only [parseUnionMember] at h
    exact parseSwitch_suffix env tag cases body hb _ _ h

mutual
theorem parseMember_suffix (env : ParseEnv) (hc : CalleeSuffix env.callee) :
    ∀ (m : Member) (st st1 : StructVal × List Byte),
      parseMember env m st = .ok st1 → st1.2 <:+ st.2
  | .Field name t, (recv, cur), st1, h => by
    simp only [parseMember, bind_eq] at h
    obtain ⟨lhs, _, h⟩ := bind_eq_ok h
    obtain ⟨⟨v, c1⟩, h1, h⟩ := bind_eq_ok h
    simp only [pure_eq, Outcome.ok.injEq] at h
    rw [← h]
    exact parseType_suffix env hc _ _ _ _ _ _ h1
  | .UnionMember _ tag len cases, st, st1, h => by
    simp only [parseMember] at h
    exact parseUnionMember_suffix env tag len cases _
      (fun i a b hab => parseCase_suffix env hc cases i a b hab) _ _ h
  | .EOS, (recv, cur), st1, h => by
    simp only [parseMember, bind_eq] at h
    obtain ⟨_, _, h⟩ := bind_eq_ok h
    simp only [pure_eq, Outcome.ok.injEq] at h
    rw [← h]
  | .Ignore, (recv, cur), st1, h => by
    simp only [parseMember, pure_eq, Outcome.ok.injEq] at h
    rw [← h]
    exact List.nil_suffix
  | .Fail, st, st1, h => by simp [parseMember] at h
theorem parseMembers_suffix (env : ParseEnv) (hc : CalleeSuffix env.callee) :
    ∀ (ms : List Member) (st st1 : StructVal × List Byte),
      parseMembers env ms st = .ok st1 → st1.2 <:+ st.2
  | [], st, st1, h => by
    simp only [parseMembers, pure_eq, Outcome.ok.injEq] at h
    rw [← h]
  | m :: ms, st, st1, h => by
    simp only [parseMembers, bind_eq] at h
    obtain ⟨st2, h1, h2⟩ := bind_eq_ok h
    exact (parseMembers_suffix env hc ms _ _ h2).trans (parseMember_suffix env hc m _ _ h1)
theorem parseCase_suffix (env : ParseEnv) (hc : CalleeSuffix env.callee) :
    ∀ (cs : List UnionCase) (i : Nat) (st st1 : StructVal × List Byte),
      parseCase env cs i st = .ok st1 → st1.2 <:+ st.2
  | [], _, st, st1, h => by
    simp only [parseCase, pure_eq, Outcome.ok.injEq] at h
    rw [← h]
  | .mk _ ms :: _, 0, st, st1, h => by
    simp only [parseCase] at h
    exact parseMembers_suffix env hc ms _ _ h
  | .mk _ _ :: cs, i + 1, st, st1, h => by
    simp only [parseCase] at h
    exact parseCase_suffix env hc cs i _ _ h
end

/-- Every generated `Parse` method returns a suffix of its input. -/
theorem Parse_CalleeSuffix (res : Resolver) : ∀ fuel : Nat, CalleeSuffix (Parse res fuel) := by
  intro fuel
  induction fuel with
  | zero => intro s args cur v rest h; simp [Parse] at h
  | succ n ih =>
    intro s args cur v rest h
    simp only [Parse, bind_eq] at h
    obtain ⟨recv, _, h⟩ := bind_eq_ok h
    exact parseMembers_suffix ⟨res, args, cur.length, n, Parse res n⟩ ih _ _ _ h

/-- C28: cursor invariant.  For every struct and every input on which the generated
`Parse` succeeds, the returned remainder is a suffix of the input, so that the number of
consumed bytes lies between 0 and `len(data)`: the input is the consumed bytes followed
by the remainder.  This holds through nested struct references, length-constrained
regions and `Ignore` members. -/
theorem Parse_remainder_suffix (res : Resolver) (fuel : Nat) (s : Struct)
    (ctxs : List (String × StructVal)) (data : List Byte) (v : StructVal) (rest : List Byte)
    (h : Parse res fuel s ctxs data = .ok (v, rest)) :
    rest <:+ data ∧ rest.length ≤ data.length ∧
      data = data.take (data.length - rest.length) ++ rest := by
  have hs : rest <:+ data := Parse_CalleeSuffix res fuel s ctxs data v rest h
  refine ⟨hs, hs.length_le, ?_⟩
  obtain ⟨t, ht⟩ := hs
  subst ht
  simp

/-- Instance of `Parse_remainder_suffix`: `Region8` holds a length-constrained region,
whose tail `[77]` is handed back. -/
theorem Parse_remainder_suffix_witness :
    Parse exampleRes 1 Region8 [] [1, 1, 9, 77] =
      .ok ([("Tag", .int 1), ("Len", .int 1), ("A", .int 9)], [77]) ∧
    ([77] : List Byte) <:+ [1, 1, 9, 77] :=
  ⟨rfl, (Parse_remainder_suffix exampleRes 1 Region8 [] [1, 1, 9, 77] _ [77] rfl).1⟩

/-! ## From decode to validate and encode -/

theorem bigEndian_lt : ∀ bs : List Byte, bigEndian bs < 256 ^ bs.length
  | [] => by simp [bigEndian]
  | b :: bs => by
    have ih := bigEndian_lt bs
    have hb := b.isLt
    simp only [bigEndian, List.length_cons, pow_succ]
    nlinarith

theorem putUint_add_mul : ∀ (n x k : Nat), putUint n (k * 256 ^ n + x) = putUint n x
  | 0, _, _ => rfl
  | n + 1, x, k => by
    have h1 : k * 256 ^ (n + 1) + x = (k * 256) * 256 ^ n + x := by ring
    have h2 : (k * 256 ^ (n + 1) + x) / 256 ^ n = k * 256 + x / 256 ^ n := by
      rw [h1, Nat.add_comm, Nat.add_mul_div_right _ _ (by positivity), Nat.add_comm]
    simp only [putUint, h2]
    rw [h1, putUint_add_mul n x (k * 256)]
    congr 1
    apply Fin.ext
    simp [Fin.ofNat, Nat.add_mod]

/-- Writing the big-endian value of `n` bytes gives these bytes back. -/
theorem putUint_bigEndian : ∀ (bs : List Byte), putUint bs.length (bigEndian bs) = bs
  | [] => rfl
  | b :: bs => by
    have hlt := bigEndian_lt bs
    have hdiv : (b.val * 256 ^ bs.length + bigEndian bs) / 256 ^ bs.length = b.val := by
      rw [Nat.add_comm, Nat.add_mul_div_right _ _ (by positivity), Nat.div_eq_of_lt hlt]
      simp
    simp only [List.length_cons, putUint, bigEndian, hdiv, putUint_add_mul,
      putUint_bigEndian bs, List.cons.injEq, and_true]
    apply Fin.ext
    simp [Fin.ofNat, Nat.mod_eq_of_lt b.isLt]

/-- The first zero byte splits the input around it. -/
theorem indexByte0_some : ∀ (cur : List Byte) (i : Nat), indexByte0 cur = some i →
    cur.take i ++ 0 :: cur.drop (i + 1) = cur
  | [], _, h => by simp [indexByte0] at h
  | b :: bs, i, h => by
    simp only [indexByte0] at h
    split at h
    next hb =>
      simp only [Option.some.injEq] at h
      subst h
      simp [hb]
    next hb =>
      cases hi : indexByte0 bs with
      | none => simp [hi] at h
      | some j =>
        simp only [hi, Option.map_some', Option.some.injEq] at h
        subst h
        simp [indexByte0_some bs j hi]

/-- A successful integer read: the value satisfies the constraint, and its encoding is the
bytes read. -/
theorem parseIntType_valid (res : Resolver) (ok : Bool) (t : IntType) (cur : List Byte)
    (v : Val) (cur1 : List Byte) (h : parseIntType res ok t cur = .ok (v, cur1)) :
    ok = true ∧ ∃ x, v = .int x ∧ checkConstraint res x t.Constraint = .ok () ∧
      encodeIntType x t = .ok (putUint (t.Size / 8) x) ∧ putUint (t.Size / 8) x ++ cur1 = cur := by
  unfold parseIntType at h
  split at h
  next hs =>
    simp only [bind_eq] at h
    obtain ⟨_, hlen, h⟩ := bind_eq_ok h
    split at h
    next hok =>
      obtain ⟨_, hcc, h⟩ := bind_eq_ok h
      simp only [pure_eq, Outcome.ok.injEq, Prod.mk.injEq] at h
      obtain ⟨hv, hc1⟩ := h
      refine ⟨hok, _, hv.symm, ?_, by simp [encodeIntType, hs], ?_⟩
      · cases hcc' : checkConstraint res (bigEndian (List.take (t.Size / 8) cur)) t.Constraint with
        | ok u => rfl
        | _ => simp [hcc'] at hcc
      · have hle : t.Size / 8 ≤ cur.length := by
          simp only [lengthCheck] at hlen
          split at hlen
          · simp at hlen
          · omega
        have hl : (cur.take (t.Size / 8)).length = t.Size / 8 := by
          simp [List.length_take, hle]
        have := putUint_bigEndian (cur.take (t.Size / 8))
        rw [hl] at this
        rw [this, ← hc1, List.take_append_drop]
    next => simp at h
  next => simp at h

theorem parseStructRef_valid (vok canon : Prop) (res : Resolver) (penv : ParseEnv)
    (venv : MethodEnv StructVal Unit) (eenv : MethodEnv (Option StructVal) (List Byte))
    (hv : venv.res = res) (he : eenv.res = res) (hp : penv.res = res)
    (good : Struct → Bool) (hc : CalleeValid vok canon good penv venv eenv) (ok : Bool)
    (n : String) (cur : List Byte) (v : Val) (cur1 : List Byte)
    (hwf : wfBase res good (.StructRef n) = true)
    (h : parseStructRef penv ok n cur = .ok (v, cur1)) :
    ok = true ∧ (vok → validateStructRef venv (.ok v) n = .ok ()) ∧
      ∃ bs, encodeBase eenv (.StructRef n) v = .ok bs ∧ (canon → bs ++ cur1 = cur) := by
  unfold parseStructRef at h
  rw [hp] at h
  cases hs : res.Struct n with
  | none => simp [hs] at h
  | some s =>
    simp only [hs] at h
    have hmem : good s = true := by simpa [wfBase, hs] using hwf
    split at h
    · simp at h
    · split at h
      next hok =>
        simp only [bind_eq] at h
        obtain ⟨⟨w, c1⟩, hcall, h⟩ := bind_eq_ok h
        simp only [pure_eq, Outcome.ok.injEq, Prod.mk.injEq] at h
        obtain ⟨hw, hc1⟩ := h
        subst hw hc1
        obtain ⟨h1, bs, h2, h3⟩ := hc s hmem _ _ _ _ hcall
        refine ⟨hok, ?_, bs, ?_, h3⟩
        · intro hvok
          simp [validateStructRef, hv, hs, h1 hvok]
        · simp [encodeBase, he, hs, h2]
      next => simp at h

/-- A successful element read: the element encodes; where `vok` holds it is valid, and
where `canon` holds its encoding is the bytes read. -/
theorem parseBase_valid (vok canon : Prop) (res : Resolver) (penv : ParseEnv)
    (venv : MethodEnv StructVal Unit) (eenv : MethodEnv (Option StructVal) (List Byte))
    (hv : venv.res = res) (he : eenv.res = res) (hp : penv.res = res)
    (good : Struct → Bool) (hc : CalleeValid vok canon good penv venv eenv) (b : ArrayBase)
    (hwf : wfBase res good b = true) (ok : Bool) (cur : List Byte)
    (v : Val) (cur1 : List Byte) (h : parseBase penv b ok cur = .ok (v, cur1)) :
    ok = true ∧ (vok → validateBase venv b v = .ok ()) ∧
      ∃ bs, encodeBase eenv b v = .ok bs ∧ (canon → bs ++ cur1 = cur) := by
  cases b with
  | IntType t =>
    simp only [parseBase, hp] at h
    obtain ⟨hok, x, hx, hcc, henc, hbs⟩ := parseIntType_valid res ok t cur v cur1 h
    subst hx
    refine ⟨hok, fun _ => ?_, _, by simpa [encodeBase] using henc, fun _ => hbs⟩
    rw [validateBase_int, hv]
    exact hcc
  | CharType =>
    simp only [parseBase, hp] at h
    obtain ⟨hok, x, hx, hcc, henc, hbs⟩ := parseIntType_valid res ok U8 cur v cur1 h
    subst hx
    exact ⟨hok, fun _ => by simp [validateBase], _, by simpa [encodeBase] using henc,
      fun _ => hbs⟩
  | StructRef n =>
    simp only [parseBase] at h
    obtain ⟨hok, h1, h2⟩ :=
      parseStructRef_valid vok canon res penv venv eenv hv he hp good hc ok n cur v cur1 hwf h
    exact ⟨hok, fun hvok => by simpa [validateBase] using h1 hvok, h2⟩

theorem take_succ_set (l : List Val) (idx : Nat) (v : Val) (h : idx < l.length) :
    (l.set idx v).take (idx + 1) = l.take idx ++ [v] := by
  induction l generalizing idx with
  | nil => simp at h
  | cons a l ih =>
    cases idx with
    | zero => simp
    | succ i =>
      simp only [List.length_cons, Nat.add_lt_add_iff_right] at h
      simp [ih i h]

theorem drop_set_gt (l : List Val) (idx k : Nat) (v : Val) (h : idx < k) :
    (l.set idx v).drop k = l.drop k := by
  induction l generalizing idx k with
  | nil => simp
  | cons a l ih =>
    cases k with
    | zero => omega
    | succ k =>
      cases idx with
      | zero => simp
      | succ i => simp [ih i k (by omega)]

/-- The counted loop of decode: the elements read are valid and fill the positions from
`idx` on, and where `canon` holds their encodings, one after the other, are the bytes
read. -/
theorem parseFor_valid (vok canon : Prop) (elem : Bool → List Byte → Outcome (Val × List Byte))
    (V : Val → Outcome Unit) (E : Val → Outcome (List Byte))
    (hE : ∀ ok cur v c1, elem ok cur = .ok (v, c1) →
      ok = true ∧ (vok → V v = .ok ()) ∧ ∃ bs, E v = .ok bs ∧ (canon → bs ++ c1 = cur)) :
    ∀ (n idx : Nat) (lhs : List Val) (cur : List Byte) (xs : List Val) (cur1 : List Byte),
      parseFor elem n idx lhs cur = .ok (xs, cur1) →
      (n = 0 ∨ idx + n ≤ lhs.length) ∧
      ∃ ps, ps.length = n ∧ xs = lhs.take idx ++ ps ++ lhs.drop (idx + n) ∧
        (vok → validateElems V ps = .ok ()) ∧
        ∃ bs, specEncodeAll E ps = .ok bs ∧ (canon → bs ++ cur1 = cur)
  | 0, idx, lhs, cur, xs, cur1, h => by
    simp only [parseFor, Outcome.ok.injEq, Prod.mk.injEq] at h
    obtain ⟨h1, h2⟩ := h
    subst h1 h2
    exact ⟨Or.inl rfl, [], rfl, by simp, fun _ => rfl, [], rfl, fun _ => rfl⟩
  | n + 1, idx, lhs, cur, xs, cur1, h => by
    simp only [parseFor, bind_eq] at h
    obtain ⟨⟨v, c1⟩, h1, h2⟩ := bind_eq_ok h
    obtain ⟨hok, hV, b1, hE1, hb1⟩ := hE _ _ _ _ h1
    have hidx : idx < lhs.length := by simpa using hok
    obtain ⟨hbound, ps, hlen, hxs, hval, b2, hE2, hb2⟩ :=
      parseFor_valid vok canon elem V E hE n (idx + 1) (lhs.set idx v) c1 xs cur1 h2
    have hle : idx + (n + 1) ≤ lhs.length := by
      rcases hbound with h0 | hb
      · omega
      · simp only [List.length_set] at hb
        omega
    refine ⟨Or.inr hle, v :: ps, by simp [hlen], ?_, ?_, b1 ++ b2, ?_, ?_⟩
    · rw [hxs, take_succ_set lhs idx v hidx, drop_set_gt lhs idx _ v (by omega)]
      simp [Nat.add_assoc, Nat.add_comm 1 n]
    · intro hvok
      simp [validateElems, hV hvok, hval hvok]
    · simp [specEncodeAll, hE1, hE2]
    · intro hcanon
      rw [List.append_assoc, hb2 hcanon, hb1 hcanon]

/-- The unbounded loop of decode: the elements read are valid and appended, and where
`canon` holds their encodings, one after the other, are the bytes read. -/
theorem parseLoop_valid (vok canon : Prop) (elem : Bool → List Byte → Outcome (Val × List Byte))
    (V : Val → Outcome Unit) (E : Val → Outcome (List Byte))
    (hE : ∀ ok cur v c1, elem ok cur = .ok (v, c1) →
      ok = true ∧ (vok → V v = .ok ()) ∧ ∃ bs, E v = .ok bs ∧ (canon → bs ++ c1 = cur)) :
    ∀ (n : Nat) (lhs : List Val) (cur : List Byte) (xs : List Val) (cur1 : List Byte),
      parseLoop elem n lhs cur = .ok (xs, cur1) →
      ∃ ps, xs = lhs ++ ps ∧ (vok → validateElems V ps = .ok ()) ∧
        ∃ bs, specEncodeAll E ps = .ok bs ∧ (canon → bs ++ cur1 = cur)
  | 0, _, _, _, _, h => by simp [parseLoop] at h
  | n + 1, lhs, cur, xs, cur1, h => by
    simp only [parseLoop] at h
    split at h
    · simp only [bind_eq] at h
      obtain ⟨⟨v, c1⟩, h1, h2⟩ := bind_eq_ok h
      obtain ⟨_, hV, b1, hE1, hb1⟩ := hE _ _ _ _ h1
      obtain ⟨ps, hxs, hval, b2, hE2, hb2⟩ :=
        parseLoop_valid vok canon elem V E hE n (lhs ++ [v]) c1 xs cur1 h2
      refine ⟨v :: ps, by simp [hxs], ?_, b1 ++ b2, ?_, ?_⟩
      · intro hvok
        simp [validateElems, hV hvok, hval hvok]
      · simp [specEncodeAll, hE1, hE2]
      · intro hcanon
        rw [List.append_assoc, hb2 hcanon, hb1 hcanon]
    · simp only [Outcome.ok.injEq, Prod.mk.injEq] at h
      obtain ⟨h1, h2⟩ := h
      subst h1 h2
      exact ⟨[], by simp, fun _ => rfl, [], rfl, fun _ => rfl⟩

/-- A successful length-constrained region: its body ran on a prefix of the cursor and
consumed all of it, and the tail is handed back. -/
theorem constrained_ok {α : Type} (env : ParseEnv) (recv : StructVal) (c : LengthConstraint)
    (f : List Byte → Outcome (α × List Byte)) (cur : List Byte) (a : α) (cur1 : List Byte)
    (h : constrained env recv c f cur = .ok (a, cur1)) :
    ∃ k, f (cur.take k) = .ok (a, []) ∧ cur1 = cur.drop k := by
  unfold constrained at h
  simp only [bind_eq] at h
  obtain ⟨n, _, h⟩ := bind_eq_ok h
  split at h
  · simp at h
  · obtain ⟨⟨b, c1⟩, hf, h⟩ := bind_eq_ok h
    obtain ⟨_, hend, h⟩ := bind_eq_ok h
    simp only [pure_eq, Outcome.ok.injEq, Prod.mk.injEq] at h
    obtain ⟨hb, hc1⟩ := h
    subst hb
    have hnil : c1 = [] := by
      simp only [assertEnd] at hend
      split at hend
      · simp at hend
      · exact List.length_eq_zero.1 (by omega)
    subst hnil
    exact ⟨n.toNat, hf, hc1.symm⟩

/-- An unscoped reference reads the receiver only, in decode as in validate and encode. -/
theorem ref_unscoped (ctxs : List (String × StructVal)) (a b : StructVal) (r : IDRef)
    (hs : r.Scope = "") (h : b.lookup r.Name = a.lookup r.Name) :
    ref [] (some b) r = ref ctxs (some a) r := by
  simp [ref, hs, readField, h]

theorem wfRef_iff (seen : List String) (r : IDRef) :
    wfRef seen r = true ↔ r.Scope = "" ∧ r.Name ∈ seen := by
  simp [wfRef]

theorem wfSize_iff (res : Resolver) (sz : Bool) (i : Integer) (n : Int)
    (hn : res.Integer i = some n) : wfSize res sz i = true ↔ (sz = true → 0 ≤ n) := by
  unfold wfSize
  rw [hn]
  cases sz <;> simp

/-- A successful array decode: `encodeArray` returns bytes; the array is valid for
`validateArray` when constant lengths are not negative (`sz`), and where `canon` holds
`encodeArray` gives back the bytes read. -/
theorem parseArray_valid (canon : Prop) (res : Resolver) (sz : Bool) (penv : ParseEnv)
    (venv : MethodEnv StructVal Unit) (eenv : MethodEnv (Option StructVal) (List Byte))
    (hv : venv.res = res) (he : eenv.res = res) (hp : penv.res = res)
    (good : Struct → Bool) (hc : CalleeValid (sz = true) canon good penv venv eenv)
    (r : StructVal)
    (name : String) (base : ArrayBase) (s : Option LengthConstraint) (seen : List String)
    (old : List Val) (cur : List Byte) (v : Val) (cur1 : List Byte)
    (hwb : wfBase res good base = true) (hwf : wfLength res sz seen s = true)
    (hold : old = [] ∨ ∀ i N, s = some (.Integer i) → res.Integer i = some N →
      old.length = N.toNat)
    (h : parseArray penv r (.arr old) base s cur = .ok (v, cur1))
    (r1 : StructVal) (hname : r1.lookup name = some v)
    (hseen : ∀ n ∈ seen, r1.lookup n = r.lookup n) :
    (sz = true → validateArray venv r1 name base s = .ok ()) ∧
      ∃ bs, encodeArray eenv (some r1) name base s = .ok bs ∧ (canon → bs ++ cur1 = cur) := by
  have hE := parseBase_valid (sz = true) canon res penv venv eenv hv he hp good hc base hwb
  cases s with
  | none =>
    simp only [parseArray, bind_eq] at h
    obtain ⟨⟨xs, c1⟩, hloop, h⟩ := bind_eq_ok h
    simp only [pure_eq, Outcome.ok.injEq, Prod.mk.injEq] at h
    obtain ⟨hxs, hc1⟩ := h
    subst hxs hc1
    obtain ⟨ps, hps, hval, bs, henc, hbs⟩ := parseLoop_valid (sz = true) canon _ (validateBase venv base)
      (encodeBase eenv base) hE _ _ _ _ _ hloop
    simp only [List.nil_append] at hps
    subst hps
    have hr := readArr_some r1 name xs hname
    refine ⟨?_, bs, ?_, hbs⟩
    · intro hsz
      simp [validateArray, hr, expectedSize, hval hsz]
    · simp [encodeArray, hr, encodeFor_all, henc]
  | some c =>
    cases c with
    | Leftover num =>
      simp only [parseArray] at h
      obtain ⟨k, hf, hc1⟩ := constrained_ok _ _ _ _ _ _ _ h
      simp only [bind_eq] at hf
      obtain ⟨⟨xs, c1⟩, hloop, hf⟩ := bind_eq_ok hf
      simp only [pure_eq, Outcome.ok.injEq, Prod.mk.injEq] at hf
      obtain ⟨hxs, hnil⟩ := hf
      subst hxs hnil
      obtain ⟨ps, hps, hval, bs, henc, hbs⟩ := parseLoop_valid (sz = true) canon _ (validateBase venv base)
        (encodeBase eenv base) hE _ _ _ _ _ hloop
      simp only [List.nil_append] at hps
      subst hps
      have hr := readArr_some r1 name xs hname
      refine ⟨?_, bs, ?_, ?_⟩
      · intro hsz
        simp [validateArray, hr, expectedSize, hval hsz]
      · simp [encodeArray, hr, encodeFor_all, henc]
      · intro hcanon
        have := hbs hcanon
        simp only [List.append_nil] at this
        rw [this, hc1, List.take_append_drop]
    | IDRef r0 =>
      simp only [wfLength] at hwf
      obtain ⟨hscope, hmem⟩ := (wfRef_iff seen r0).1 hwf
      simp only [parseArray, bind_eq] at h
      obtain ⟨x, hx, h⟩ := bind_eq_ok h
      split at h
      · simp at h
      next hneg =>
        obtain ⟨⟨xs, c1⟩, hfor, h⟩ := bind_eq_ok h
        simp only [pure_eq, Outcome.ok.injEq, Prod.mk.injEq] at h
        obtain ⟨hxs, hc1⟩ := h
        subst hxs hc1
        obtain ⟨_, ps, hlen, hps, hval, bs, henc, hbs⟩ := parseFor_valid (sz = true) canon _
          (validateBase venv base) (encodeBase eenv base) hE _ _ _ _ _ _ hfor
        have hxs : xs = ps := by
          rw [hps]
          simp
        subst hxs
        have hr := readArr_some r1 name xs hname
        have hx1 : ref [] (some r1) r0 = .ok x := by
          rw [ref_unscoped penv.ctxs r r1 r0 hscope (hseen _ hmem), hx]
        have hnn : 0 ≤ goInt x := by omega
        refine ⟨?_, bs, ?_, hbs⟩
        · intro hsz
          have hcl : checkLength xs (goInt x) = .ok () := by
            simp only [checkLength]
            rw [if_neg]
            simp only [ne_eq, not_not]
            omega
          simp [validateArray, hr, expectedSize, hx1, hcl, hval hsz]
        · simp only [encodeArray, hx1, bind_eq, ok_bind, pure_eq, hr]
          split
          next h0 =>
            have hz : xs = [] := List.length_eq_zero.1 (by omega)
            subst hz
            simpa [specEncodeAll] using henc
          next h0 =>
            rw [← hlen, encodeFor_all, henc]
    | Integer i =>
      simp only [wfLength] at hwf
      simp only [parseArray, bind_eq, integer, hp] at h
      cases hN : res.Integer i with
      | none => simp [hN, Outcome.ofOption] at h
      | some N =>
        have hNn := (wfSize_iff res sz i N hN).1 hwf
        simp only [hN, Outcome.ofOption, ok_bind] at h
        obtain ⟨⟨xs, c1⟩, hfor, h⟩ := bind_eq_ok h
        simp only [pure_eq, Outcome.ok.injEq, Prod.mk.injEq] at h
        obtain ⟨hxs, hc1⟩ := h
        subst hxs hc1
        obtain ⟨hbound, ps, hlen, hps, hval, bs, henc, hbs⟩ := parseFor_valid (sz = true) canon _
          (validateBase venv base) (encodeBase eenv base) hE _ _ _ _ _ _ hfor
        have hxs : xs = ps := by
          rw [hps]
          rcases hold with h0 | hl
          · subst h0
            simp
          · have := hl i N rfl hN
            simp [this]
        subst hxs
        have hr := readArr_some r1 name xs hname
        refine ⟨?_, bs, ?_, hbs⟩
        · intro hsz
          have hnn := hNn hsz
          have hcl : checkLength xs N = .ok () := by
            simp only [checkLength]
            rw [if_neg]
            simp only [ne_eq, not_not]
            omega
          simp [validateArray, hr, expectedSize, integer, hv, hN, Outcome.ofOption, hcl,
            hval hsz]
        · simp only [encodeArray, integer, he, hN, Outcome.ofOption, bind_eq, ok_bind, pure_eq, hr]
          split
          next h0 =>
            have hz : xs = [] := List.length_eq_zero.1 (by omega)
            subst hz
            simpa [specEncodeAll] using henc
          next h0 =>
            rw [← hlen, encodeFor_all, henc]

/-- A successful field decode: `encodeType` returns bytes; the field is valid for
`validateType` when constant lengths are not negative (`sz`), and where `canon` holds
`encodeType` gives back the bytes read.  The receiver `r1` is any later state of the
decoded struct that holds the decoded field and the earlier fields unchanged. -/
theorem parseType_valid (canon : Prop) (res : Resolver) (sz : Bool) (penv : ParseEnv)
    (venv : MethodEnv StructVal Unit) (eenv : MethodEnv (Option StructVal) (List Byte))
    (hv : venv.res = res) (he : eenv.res = res) (hp : penv.res = res)
    (good : Struct → Bool) (hc : CalleeValid (sz = true) canon good penv venv eenv)
    (r : StructVal)
    (name : String) (t : Tipe) (seen : List String) (lhs : Val) (cur : List Byte) (v : Val)
    (cur1 : List Byte) (hwf : wfType res sz good seen t = true)
    (hz : zero res t = some lhs)
    (h : parseType penv r lhs t cur = .ok (v, cur1))
    (r1 : StructVal) (hname : r1.lookup name = some v)
    (hseen : ∀ n ∈ seen, r1.lookup n = r.lookup n) :
    (sz = true → validateType venv r1 name t = .ok ()) ∧
      ∃ bs, encodeType eenv (some r1) name t = .ok bs ∧ (canon → bs ++ cur1 = cur) := by
  have hrf := readField_some r1 name v hname
  cases t with
  | NulTermString =>
    simp only [parseType] at h
    cases hi : indexByte0 cur with
    | none => simp [hi] at h
    | some i =>
      simp only [hi, Outcome.ok.injEq, Prod.mk.injEq] at h
      obtain ⟨h1, h2⟩ := h
      subst h1 h2
      refine ⟨fun _ => rfl, cur.take i ++ [0], by simp [encodeType, hrf], fun _ => ?_⟩
      simpa using indexByte0_some cur i hi
  | IntType t =>
    simp only [parseType, hp] at h
    obtain ⟨_, x, hx, hcc, henc, hbs⟩ := parseIntType_valid res true t cur v cur1 h
    subst hx
    refine ⟨fun _ => ?_, _, by simpa [encodeType, hrf] using henc, fun _ => hbs⟩
    simp only [validateType, validateIntType, hrf, hv]
    cases hcn : t.Constraint with
    | none => rfl
    | some c => simpa [hcn] using hcc
  | CharType =>
    simp only [parseType, hp] at h
    obtain ⟨_, x, hx, hcc, henc, hbs⟩ := parseIntType_valid res true U8 cur v cur1 h
    subst hx
    exact ⟨fun _ => rfl, _, by simpa [encodeType, hrf] using henc, fun _ => hbs⟩
  | Ptr =>
    simp only [parseType, Outcome.ok.injEq, Prod.mk.injEq] at h
    obtain ⟨h1, h2⟩ := h
    subst h1 h2
    exact ⟨fun _ => rfl, [], rfl, fun _ => rfl⟩
  | StructRef n =>
    simp only [parseType] at h
    obtain ⟨_, h1, bs, h2, h3⟩ :=
      parseStructRef_valid (sz = true) canon res penv venv eenv hv he hp good hc true n cur v
        cur1 (by simpa [wfType] using hwf) h
    exact ⟨fun hsz => by simpa [validateType, hrf] using h1 hsz, bs,
      by simpa [encodeType, hrf] using h2, h3⟩
  | FixedArrayMember b size =>
    simp only [wfType, Bool.and_eq_true] at hwf
    obtain ⟨hwb, hwf⟩ := hwf
    simp only [zero] at hz
    cases hN : res.Integer size with
    | none => simp [hN] at hz
    | some N =>
      simp only [hN, Option.map_some', Option.some.injEq] at hz
      subst hz
      simp only [parseType] at h
      have := parseArray_valid canon res sz penv venv eenv hv he hp good hc r name b
        (some (.Integer size)) seen _ cur v cur1 hwb (by simpa [wfLength] using hwf)
        (Or.inr (by
          intro i M hi hM
          simp only [Option.some.injEq, LengthConstraint.Integer.injEq] at hi
          subst hi
          rw [hN] at hM
          simp only [Option.some.injEq] at hM
          subst hM
          simp)) h r1 hname hseen
      simpa [validateType, encodeType] using this
  | VarArrayMember b c =>
    simp only [zero, Option.some.injEq] at hz
    subst hz
    simp only [parseType] at h
    simp only [wfType, Bool.and_eq_true] at hwf
    have := parseArray_valid canon res sz penv venv eenv hv he hp good hc r name b c seen _ cur v
      cur1 hwf.1 hwf.2 (Or.inl rfl) h r1 hname hseen
    simpa [validateType, encodeType] using this

/-! ### Decode assigns the declared fields only -/

mutual
theorem parseMember_frame (env : ParseEnv) :
    ∀ (m : Member) (st st1 : StructVal × List Byte), parseMember env m st = .ok st1 →
      ∀ n, n ∉ (fieldsMember m).map Prod.fst → st1.1.lookup n = st.1.lookup n
  | .Field name t, (recv, cur), st1, h, n, hn => by
    simp only [parseMember, bind_eq] at h
    obtain ⟨lhs, _, h⟩ := bind_eq_ok h
    obtain ⟨⟨v, c1⟩, _, h⟩ := bind_eq_ok h
    simp only [pure_eq, Outcome.ok.injEq] at h
    subst h
    have hne : n ≠ name := by
      intro e
      apply hn
      simp [fieldsMember, e]
    simp [lookup_setField, hne]
  | .UnionMember _ tag len cases, (recv, cur), st1, h, n, hn => by
    simp only [fieldsMember] at hn
    simp only [parseMember, parseUnionMember] at h
    have hsw : ∀ c st2, parseSwitch env tag cases
        (fun i st1 => parseCase env cases i st1) (recv, c) = .ok st2 →
        st2.1.lookup n = recv.lookup n := by
      intro c st2 h2
      simp only [parseSwitch, bind_eq] at h2
      obtain ⟨x, _, h2⟩ := bind_eq_ok h2
      obtain ⟨sel, _, h2⟩ := bind_eq_ok h2
      cases sel with
      | none =>
        simp only [pure_eq, Outcome.ok.injEq] at h2
        subst h2
        rfl
      | some i => exact parseCase_frame env cases i _ _ h2 n hn
    cases len with
    | none => exact hsw _ _ h
    | some c =>
      obtain ⟨r1, c1⟩ := st1
      obtain ⟨k, hf, _⟩ := constrained_ok _ _ _ _ _ _ _ h
      exact hsw _ (r1, []) hf
  | .EOS, (recv, cur), st1, h, n, _ => by
    simp only [parseMember, bind_eq] at h
    obtain ⟨_, _, h⟩ := bind_eq_ok h
    simp only [pure_eq, Outcome.ok.injEq] at h
    subst h
    rfl
  | .Ignore, (recv, cur), st1, h, n, _ => by
    simp only [parseMember, pure_eq, Outcome.ok.injEq] at h
    subst h
    rfl
  | .Fail, st, st1, h, _, _ => by simp [parseMember] at h
theorem parseMembers_frame (env : ParseEnv) :
    ∀ (ms : List Member) (st st1 : StructVal × List Byte), parseMembers env ms st = .ok st1 →
      ∀ n, n ∉ (fieldsMembers ms).map Prod.fst → st1.1.lookup n = st.1.lookup n
  | [], st, st1, h, n, _ => by
    simp only [parseMembers, pure_eq, Outcome.ok.injEq] at h
    subst h
    rfl
  | m :: ms, st, st1, h, n, hn => by
    simp only [parseMembers, bind_eq] at h
    obtain ⟨st2, h1, h2⟩ := bind_eq_ok h
    simp only [fieldsMembers, List.map_append, List.mem_append, not_or] at hn
    rw [parseMembers_frame env ms _ _ h2 n hn.2, parseMember_frame env m _ _ h1 n hn.1]
theorem parseCase_frame (env : ParseEnv) :
    ∀ (cs : List UnionCase) (i : Nat) (st st1 : StructVal × List Byte),
      parseCase env cs i st = .ok st1 →
      ∀ n, n ∉ (fieldsCases cs).map Prod.fst → st1.1.lookup n = st.1.lookup n
  | [], _, st, st1, h, n, _ => by
    simp only [parseCase, pure_eq, Outcome.ok.injEq] at h
    subst h
    rfl
  | .mk _ ms :: _, 0, st, st1, h, n, hn => by
    simp only [parseCase] at h
    simp only [fieldsCases, List.map_append, List.mem_append, not_or] at hn
    exact parseMembers_frame env ms _ _ h n hn.1
  | .mk _ _ :: cs, i + 1, st, st1, h, n, hn => by
    simp only [parseCase] at h
    simp only [fieldsCases, List.map_append, List.mem_append, not_or] at hn
    exact parseCase_frame env cs i _ _ h n hn.2
end

/-! ### The names of a well formed declaration are new and distinct -/

mutual
theorem wfMember_fresh (res : Resolver) (sz : Bool) (good : Struct → Bool) :
    ∀ (m : Member) (seen : List String), wfMember res sz good seen m = true →
      (∀ n ∈ (fieldsMember m).map Prod.fst, n ∉ seen) ∧ ((fieldsMember m).map Prod.fst).Nodup
  | .Field name t, seen, h => by
    simp only [wfMember, Bool.and_eq_true, decide_eq_true_eq] at h
    simp [fieldsMember, h.1]
  | .UnionMember _ tag len cases, seen, h => by
    simp only [wfMember, Bool.and_eq_true] at h
    simpa [fieldsMember] using wfCases_fresh res sz good cases seen h.2
  | .EOS, _, _ => by simp [fieldsMember]
  | .Ignore, _, _ => by simp [fieldsMember]
  | .Fail, _, _ => by simp [fieldsMember]
theorem wfMembers_fresh (res : Resolver) (sz : Bool) (good : Struct → Bool) :
    ∀ (ms : List Member) (seen : List String), wfMembers res sz good seen ms = true →
      (∀ n ∈ (fieldsMembers ms).map Prod.fst, n ∉ seen) ∧ ((fieldsMembers ms).map Prod.fst).Nodup
  | [], _, _ => by simp [fieldsMembers]
  | m :: ms, seen, h => by
    simp only [wfMembers, Bool.and_eq_true] at h
    obtain ⟨h1, h2⟩ := wfMember_fresh res sz good m seen h.1
    obtain ⟨h3, h4⟩ := wfMembers_fresh res sz good ms _ h.2
    simp only [fieldsMembers, List.map_append, List.mem_append]
    refine ⟨?_, ?_⟩
    · rintro n (hn | hn)
      · exact h1 n hn
      · exact fun hs => h3 n hn (List.mem_append_left _ hs)
    · rw [List.nodup_append]
      refine ⟨h2, h4, ?_⟩
      intro n hn1 hn2
      exact h3 n hn2 (List.mem_append_right _ hn1)
theorem wfCases_fresh (res : Resolver) (sz : Bool) (good : Struct → Bool) :
    ∀ (cs : List UnionCase) (seen : List String), wfCases res sz good seen cs = true →
      (∀ n ∈ (fieldsCases cs).map Prod.fst, n ∉ seen) ∧ ((fieldsCases cs).map Prod.fst).Nodup
  | [], _, _ => by simp [fieldsCases]
  | .mk _ ms :: cs, seen, h => by
    simp only [wfCases, Bool.and_eq_true] at h
    obtain ⟨h1, h2⟩ := wfMembers_fresh res sz good ms seen h.1
    obtain ⟨h3, h4⟩ := wfCases_fresh res sz good cs _ h.2
    simp only [fieldsCases, List.map_append, List.mem_append]
    refine ⟨?_, ?_⟩
    · rintro n (hn | hn)
      · exact h1 n hn
      · exact fun hs => h3 n hn (List.mem_append_left _ hs)
    · rw [List.nodup_append]
      refine ⟨h2, h4, ?_⟩
      intro n hn1 hn2
      exact h3 n hn2 (List.mem_append_right _ hn1)
end

mutual
theorem structMemberDecl_fields :
    ∀ (m : Member) (fs : List (String × Tipe)), structMemberDecl m = some fs →
      fs = fieldsMember m
  | .Field n t, fs, h => by
    simp only [structMemberDecl, Option.some.injEq] at h
    simp [fieldsMember, ← h]
  | .UnionMember _ _ _ cases, fs, h => by
    simp only [structMemberDecl] at h
    simpa [fieldsMember] using structUnionMemberDecl_fields cases fs h
  | .EOS, fs, h => by
    simp only [structMemberDecl, Option.some.injEq] at h
    simp [fieldsMember, ← h]
  | .Ignore, _, h => by simp [structMemberDecl] at h
  | .Fail, _, h => by simp [structMemberDecl] at h
theorem structUnionMemberDecl_fields :
    ∀ (cs : List UnionCase) (fs : List (String × Tipe)), structUnionMemberDecl cs = some fs →
      fs = fieldsCases cs
  | [], fs, h => by
    simp only [structUnionMemberDecl, Option.some.injEq] at h
    simp [fieldsCases, ← h]
  | .mk _ ms :: cs, fs, h => by
    simp only [structUnionMemberDecl] at h
    cases h1 : caseDecl ms with
    | none => simp [h1] at h
    | some a =>
      cases h2 : structUnionMemberDecl cs with
      | none => simp [h1, h2] at h
      | some b =>
        simp only [h1, h2, Option.some.injEq] at h
        rw [← h, fieldsCases, caseDecl_fields ms a h1, structUnionMemberDecl_fields cs b h2]
theorem caseDecl_fields :
    ∀ (ms : List Member) (fs : List (String × Tipe)), caseDecl ms = some fs →
      fs = fieldsMembers ms
  | [], fs, h => by
    simp only [caseDecl, Option.some.injEq] at h
    simp [fieldsMembers, ← h]
  | .Fail :: ms, fs, h => by
    simp only [caseDecl] at h
    simpa [fieldsMembers, fieldsMember] using caseDecl_fields ms fs h
  | .Ignore :: ms, fs, h => by
    simp only [caseDecl] at h
    simpa [fieldsMembers, fieldsMember] using caseDecl_fields ms fs h
  | .Field n t :: ms, fs, h => by
    simp only [caseDecl, structMemberDecl] at h
    cases h2 : caseDecl ms with
    | none => simp [h2] at h
    | some b =>
      simp only [h2, Option.some.injEq] at h
      rw [← h, fieldsMembers, fieldsMember, caseDecl_fields ms b h2]
  | .EOS :: ms, fs, h => by
    simp only [caseDecl, structMemberDecl] at h
    cases h2 : caseDecl ms with
    | none => simp [h2] at h
    | some b =>
      simp only [h2, Option.some.injEq] at h
      rw [← h, fieldsMembers, fieldsMember, caseDecl_fields ms b h2]
  | .UnionMember a tag len cases :: ms, fs, h => by
    simp only [caseDecl] at h
    cases h1 : structMemberDecl (.UnionMember a tag len cases) with
    | none => simp [h1] at h
    | some x =>
      cases h2 : caseDecl ms with
      | none => simp [h1, h2] at h
      | some b =>
        simp only [h1, h2, Option.some.injEq] at h
        rw [← h, fieldsMembers, structMemberDecl_fields _ x h1, caseDecl_fields ms b h2]
end

theorem structDecl_fields :
    ∀ (ms : List Member) (fs : List (String × Tipe)), structDecl ms = some fs →
      fs = fieldsMembers ms
  | [], fs, h => by
    simp only [structDecl, Option.some.injEq] at h
    simp [fieldsMembers, ← h]
  | m :: ms, fs, h => by
    simp only [structDecl] at h
    cases h1 : structMemberDecl m with
    | none => simp [h1] at h
    | some a =>
      cases h2 : structDecl ms with
      | none => simp [h1, h2] at h
      | some b =>
        simp only [h1, h2, Option.some.injEq] at h
        rw [← h, fieldsMembers, structMemberDecl_fields m a h1, structDecl_fields ms b h2]

/-! ### The members of a well formed struct -/

theorem readField_ok_lookup (r : StructVal) (name : String) (v : Val)
    (h : readField (some r) name = .ok v) : r.lookup name = some v := by
  simp only [readField] at h
  cases hl : r.lookup name with
  | none => simp [hl, Outcome.ofOption] at h
  | some w =>
    simp only [hl, Outcome.ofOption, Outcome.ok.injEq] at h
    rw [h]

mutual
/-- What decode assigns at a member of a well formed struct encodes: where `canon` holds
and the member has no `Ignore`, to the bytes that decode consumed; and it is valid when
constant lengths are not negative (`sz`).  The receiver `r2` is any later state of the
decoded struct that holds the fields of this member and the earlier ones unchanged. -/
theorem parseMember_valid (canon : Prop) (res : Resolver) (sz : Bool) (penv : ParseEnv)
    (venv : MethodEnv StructVal Unit) (eenv : MethodEnv (Option StructVal) (List Byte))
    (hv : venv.res = res) (he : eenv.res = res) (hp : penv.res = res)
    (good : Struct → Bool) (hc : CalleeValid (sz = true) canon good penv venv eenv) :
    ∀ (m : Member) (seen : List String) (r : StructVal) (cur : List Byte) (r1 : StructVal)
      (cur1 : List Byte), wfMember res sz good seen m = true →
      (∀ p ∈ fieldsMember m, r.lookup p.1 = zero res p.2) →
      parseMember penv m (r, cur) = .ok (r1, cur1) →
      ∀ r2 : StructVal,
        (∀ n, n ∈ seen ∨ n ∈ (fieldsMember m).map Prod.fst → r2.lookup n = r1.lookup n) →
        (sz = true → validateMember venv r2 m = .ok ()) ∧
          ∃ bs, encodeMember eenv (some r2) m = .ok bs ∧
            (canon → noIgnoreMember m = true → bs ++ cur1 = cur)
  | .Field name t, seen, r, cur, r1, cur1, hwf, hzero, h, r2, hagree => by
    simp only [wfMember, Bool.and_eq_true, decide_eq_true_eq] at hwf
    obtain ⟨hfresh, hwt⟩ := hwf
    simp only [parseMember, bind_eq] at h
    obtain ⟨lhs, hlhs, h⟩ := bind_eq_ok h
    obtain ⟨⟨v, c1⟩, hpt, h⟩ := bind_eq_ok h
    simp only [pure_eq, Outcome.ok.injEq, Prod.mk.injEq] at h
    obtain ⟨hr1, hc1⟩ := h
    subst hr1 hc1
    have hl := readField_ok_lookup r name lhs hlhs
    have hz : zero res t = some lhs := by
      rw [← hzero (name, t) (by simp [fieldsMember]), hl]
    have hname : r2.lookup name = some v := by
      rw [hagree name (Or.inr (by simp [fieldsMember])), lookup_setField]
      simp [hl]
    have hseen : ∀ n ∈ seen, r2.lookup n = r.lookup n := by
      intro n hn
      have hne : n ≠ name := fun e => hfresh (e ▸ hn)
      rw [hagree n (Or.inl hn), lookup_setField]
      simp [hne]
    obtain ⟨h1, bs, h2, h3⟩ := parseType_valid canon res sz penv venv eenv hv he hp good hc r name t
      seen lhs cur v c1 hwt hz hpt r2 hname hseen
    exact ⟨fun hsz => by simpa [validateMember] using h1 hsz, bs,
      by simpa [encodeMember] using h2, fun hcanon _ => h3 hcanon⟩
  | .UnionMember _ tag len cases, seen, r, cur, r1, cur1, hwf, hzero, h, r2, hagree => by
    simp only [wfMember, Bool.and_eq_true] at hwf
    obtain ⟨htag, hwc⟩ := hwf
    obtain ⟨hscope, hmem⟩ := (wfRef_iff seen tag).1 htag
    simp only [fieldsMember] at hzero hagree
    have hfresh := (wfCases_fresh res sz good cases seen hwc).1
    have hsw : ∀ c0 c1, parseSwitch penv tag cases
        (fun i st1 => parseCase penv cases i st1) (r, c0) = .ok (r1, c1) →
        (sz = true → validateMember venv r2 (.UnionMember "" tag len cases) = .ok ()) ∧
          ∃ bs, encodeMember eenv (some r2) (.UnionMember "" tag len cases) = .ok bs ∧
            (canon → noIgnoreCases cases = true → bs ++ c1 = c0) := by
      intro c0 c1 h2
      simp only [parseSwitch, bind_eq] at h2
      obtain ⟨x, hx, h2⟩ := bind_eq_ok h2
      obtain ⟨sel, hsel, h2⟩ := bind_eq_ok h2
      rw [hp] at hsel
      have htagframe : r1.lookup tag.Name = r.lookup tag.Name := by
        cases sel with
        | none =>
          simp only [pure_eq, Outcome.ok.injEq, Prod.mk.injEq] at h2
          rw [h2.1]
        | some i =>
          exact parseCase_frame penv cases i _ _ h2 tag.Name (fun hin => hfresh _ hin hmem)
      have hx2 : ref [] (some r2) tag = .ok x := by
        rw [ref_unscoped penv.ctxs r r2 tag hscope
          (by rw [hagree _ (Or.inl hmem), htagframe]), hx]
      cases sel with
      | none =>
        simp only [pure_eq, Outcome.ok.injEq, Prod.mk.injEq] at h2
        obtain ⟨_, hc01⟩ := h2
        subst hc01
        refine ⟨fun _ => ?_, [], ?_, fun _ _ => rfl⟩
        · simp [validateMember, validateUnionMember, hx2, hv, hsel]
        · simp [encodeMember, encodeUnionMember, hx2, he, hsel]
      | some i =>
        obtain ⟨h3, bs, h4, h5⟩ := parseCase_valid canon res sz penv venv eenv hv he hp good hc cases i
          seen r c0 r1 c1 hwc hzero h2 r2 hagree
        refine ⟨fun hsz => ?_, bs, ?_, h5⟩
        · simpa [validateMember, validateUnionMember, hx2, hv, hsel] using h3 hsz
        · simpa [encodeMember, encodeUnionMember, hx2, he, hsel] using h4
    have hvm : ∀ a : String, validateMember venv r2 (.UnionMember a tag len cases) =
        validateMember venv r2 (.UnionMember "" tag len cases) := fun a => by
      simp [validateMember]
    have hem : ∀ a : String, encodeMember eenv (some r2) (.UnionMember a tag len cases) =
        encodeMember eenv (some r2) (.UnionMember "" tag len cases) := fun a => by
      simp [encodeMember]
    simp only [parseMember, parseUnionMember] at h
    rw [hvm, hem]
    cases len with
    | none =>
      obtain ⟨h1, bs, h2, h3⟩ := hsw _ _ h
      exact ⟨h1, bs, h2, fun hcanon hni => h3 hcanon (by simpa [noIgnoreMember] using hni)⟩
    | some c =>
      obtain ⟨k, hf, hdrop⟩ := constrained_ok _ _ _ _ _ _ _ h
      obtain ⟨h1, bs, h2, h3⟩ := hsw _ _ hf
      refine ⟨h1, bs, h2, fun hcanon hni => ?_⟩
      have := h3 hcanon (by simpa [noIgnoreMember] using hni)
      simp only [List.append_nil] at this
      rw [this, hdrop, List.take_append_drop]
  | .EOS, seen, r, cur, r1, cur1, _, _, h, r2, _ => by
    simp only [parseMember, bind_eq] at h
    obtain ⟨_, _, h⟩ := bind_eq_ok h
    simp only [pure_eq, Outcome.ok.injEq, Prod.mk.injEq] at h
    exact ⟨fun _ => rfl, [], rfl, fun _ _ => by simp [h.2]⟩
  | .Ignore, seen, r, cur, r1, cur1, _, _, h, r2, _ => by
    exact ⟨fun _ => rfl, [], rfl, fun _ hni => by simp [noIgnoreMember] at hni⟩
  | .Fail, _, _, _, _, _, _, _, h, _, _ => by simp [parseMember] at h
theorem parseMembers_valid (canon : Prop) (res : Resolver) (sz : Bool) (penv : ParseEnv)
    (venv : MethodEnv StructVal Unit) (eenv : MethodEnv (Option StructVal) (List Byte))
    (hv : venv.res = res) (he : eenv.res = res) (hp : penv.res = res)
    (good : Struct → Bool) (hc : CalleeValid (sz = true) canon good penv venv eenv) :
    ∀ (ms : List Member) (seen : List String) (r : StructVal) (cur : List Byte)
      (r1 : StructVal) (cur1 : List Byte), wfMembers res sz good seen ms = true →
      (∀ p ∈ fieldsMembers ms, r.lookup p.1 = zero res p.2) →
      parseMembers penv ms (r, cur) = .ok (r1, cur1) →
      ∀ r2 : StructVal,
        (∀ n, n ∈ seen ∨ n ∈ (fieldsMembers ms).map Prod.fst → r2.lookup n = r1.lookup n) →
        (sz = true → validateMembers venv r2 ms = .ok ()) ∧
          ∃ bs, encodeMembers eenv (some r2) ms = .ok bs ∧
            (canon → noIgnoreMembers ms = true → bs ++ cur1 = cur)
  | [], seen, r, cur, r1, cur1, _, _, h, r2, _ => by
    simp only [parseMembers, pure_eq, Outcome.ok.injEq, Prod.mk.injEq] at h
    exact ⟨fun _ => rfl, [], rfl, fun _ _ => by simp [h.2]⟩
  | m :: ms, seen, r, cur, r1, cur1, hwf, hzero, h, r2, hagree => by
    simp only [wfMembers, Bool.and_eq_true] at hwf
    obtain ⟨hwm, hwms⟩ := hwf
    simp only [parseMembers, bind_eq] at h
    obtain ⟨⟨ra, ca⟩, hm, hms⟩ := bind_eq_ok h
    simp only [fieldsMembers, List.map_append, List.mem_append] at hzero hagree
    have hfresh := (wfMembers_fresh res sz good ms _ hwms).1
    have hframe1 := parseMember_frame penv m _ _ hm
    have hframe2 := parseMembers_frame penv ms _ _ hms
    simp only at hframe1 hframe2
    obtain ⟨h1, b1, h2, h3⟩ := parseMember_valid canon res sz penv venv eenv hv he hp good hc m seen
      r cur ra ca hwm (fun p hp1 => hzero p (Or.inl hp1)) hm r2 (by
        intro n hn
        have hin : n ∈ seen ++ List.map Prod.fst (fieldsMember m) := by
          simpa [List.mem_append] using hn
        rw [hagree n (by tauto), hframe2 n (fun hx => hfresh n hx hin)])
    obtain ⟨h4, b2, h5, h6⟩ := parseMembers_valid canon res sz penv venv eenv hv he hp good hc ms
      (seen ++ (fieldsMember m).map Prod.fst) ra ca r1 cur1 hwms (by
        intro p hp1
        have hn : p.1 ∈ (fieldsMembers ms).map Prod.fst := List.mem_map_of_mem _ hp1
        rw [hframe1 p.1 (fun hx => hfresh p.1 hn (List.mem_append_right _ hx))]
        exact hzero p (Or.inr hp1)) hms r2 (by
        intro n hn
        apply hagree
        simp only [List.mem_append] at hn
        tauto)
    refine ⟨fun hsz => ?_, b1 ++ b2, ?_, ?_⟩
    · simp [validateMembers, h1 hsz, h4 hsz]
    · simp [encodeMembers, h2, h5]
    · intro hcanon hni
      simp only [noIgnoreMembers, Bool.and_eq_true] at hni
      rw [List.append_assoc, h6 hcanon hni.2, h3 hcanon hni.1]
theorem parseCase_valid (canon : Prop) (res : Resolver) (sz : Bool) (penv : ParseEnv)
    (venv : MethodEnv StructVal Unit) (eenv : MethodEnv (Option StructVal) (List Byte))
    (hv : venv.res = res) (he : eenv.res = res) (hp : penv.res = res)
    (good : Struct → Bool) (hc : CalleeValid (sz = true) canon good penv venv eenv) :
    ∀ (cs : List UnionCase) (i : Nat) (seen : List String) (r : StructVal) (cur : List Byte)
      (r1 : StructVal) (cur1 : List Byte), wfCases res sz good seen cs = true →
      (∀ p ∈ fieldsCases cs, r.lookup p.1 = zero res p.2) →
      parseCase penv cs i (r, cur) = .ok (r1, cur1) →
      ∀ r2 : StructVal,
        (∀ n, n ∈ seen ∨ n ∈ (fieldsCases cs).map Prod.fst → r2.lookup n = r1.lookup n) →
        (sz = true → validateCase venv r2 cs i = .ok ()) ∧
          ∃ bs, encodeCase eenv (some r2) cs i = .ok bs ∧
            (canon → noIgnoreCases cs = true → bs ++ cur1 = cur)
  | [], _, seen, r, cur, r1, cur1, _, _, h, r2, _ => by
    simp only [parseCase, pure_eq, Outcome.ok.injEq, Prod.mk.injEq] at h
    exact ⟨fun _ => rfl, [], rfl, fun _ _ => by simp [h.2]⟩
  | .mk _ ms :: cs, 0, seen, r, cur, r1, cur1, hwf, hzero, h, r2, hagree => by
    simp only [wfCases, Bool.and_eq_true] at hwf
    simp only [parseCase] at h
    simp only [fieldsCases, List.map_append, List.mem_append] at hzero hagree
    obtain ⟨h1, bs, h2, h3⟩ := parseMembers_valid canon res sz penv venv eenv hv he hp good hc ms seen
      r cur r1 cur1 hwf.1 (fun p hp1 => hzero p (Or.inl hp1)) h r2
      (fun n hn => hagree n (by tauto))
    refine ⟨fun hsz => by simpa [validateCase] using h1 hsz, bs,
      by simpa [encodeCase] using h2, ?_⟩
    intro hcanon hni
    simp only [noIgnoreCases, Bool.and_eq_true] at hni
    exact h3 hcanon hni.1
  | .mk _ ms :: cs, i + 1, seen, r, cur, r1, cur1, hwf, hzero, h, r2, hagree => by
    simp only [wfCases, Bool.and_eq_true] at hwf
    simp only [parseCase] at h
    simp only [fieldsCases, List.map_append, List.mem_append] at hzero hagree
    obtain ⟨h1, bs, h2, h3⟩ := parseCase_valid canon res sz penv venv eenv hv he hp good hc cs i
      (seen ++ (fieldsMembers ms).map Prod.fst) r cur r1 cur1 hwf.2
      (fun p hp1 => hzero p (Or.inr hp1)) h r2 (by
        intro n hn
        apply hagree
        simp only [List.mem_append] at hn
        tauto)
    refine ⟨fun hsz => by simpa [validateCase] using h1 hsz, bs,
      by simpa [encodeCase] using h2, ?_⟩
    intro hcanon hni
    simp only [noIgnoreCases, Bool.and_eq_true] at hni
    exact h3 hcanon hni.2
end

/-- Decode, then validate and encode, for a well formed struct: the decoded value
encodes; it is valid when constant array lengths are not negative, and when no reachable
struct holds an `Ignore` member the encoding followed by the remainder is the input. -/
theorem Parse_valid (res : Resolver) (sz ni : Bool) :
    ∀ (fuel : Nat) (s : Struct), wellFormed res sz ni fuel s = true →
      ∀ (ctxs : List (String × StructVal)) (data : List Byte) (v : StructVal)
        (rest : List Byte), Parse res fuel s ctxs data = .ok (v, rest) →
        (sz = true → validate res fuel s v = .ok ()) ∧
          ∃ bs, encodeBinary res fuel s (some v) = .ok bs ∧ (ni = true → bs ++ rest = data)
  | 0, _, _, _, _, _, _, h => by simp [Parse] at h
  | n + 1, s, hwf, ctxs, data, v, rest, h => by
    simp only [wellFormed, Bool.and_eq_true, Bool.or_eq_true, Bool.not_eq_true'] at hwf
    obtain ⟨hwm, hni⟩ := hwf
    have hc : CalleeValid (sz = true) (ni = true) (wellFormed res sz ni n)
        ⟨res, ctxs, data.length, n, Parse res n⟩ ⟨res, validate res n⟩
        ⟨res, encodeBinary res n⟩ :=
      fun t ht args cur w rest1 hcall => Parse_valid res sz ni n t ht args cur w rest1 hcall
    simp only [Parse, bind_eq] at h
    obtain ⟨r0, hnew, h⟩ := bind_eq_ok h
    have hzero : ∀ p ∈ fieldsMembers s.Members, r0.lookup p.1 = zero res p.2 := by
      simp only [newStruct] at hnew
      cases hd : structDecl s.Members with
      | none => simp [hd] at hnew
      | some fs =>
        simp only [hd] at hnew
        cases hz : zeroFields res fs with
        | none => simp [hz, Outcome.ofOption] at hnew
        | some z =>
          simp only [hz, Outcome.ofOption, Outcome.ok.injEq] at hnew
          subst hnew
          have hfs := structDecl_fields s.Members fs hd
          subst hfs
          exact lookup_zeroFields res _ _ hz (wfMembers_fresh res sz _ s.Members [] hwm).2
    obtain ⟨h1, bs, h2, h3⟩ := parseMembers_valid (ni = true) res sz
      ⟨res, ctxs, data.length, n, Parse res n⟩ ⟨res, validate res n⟩ ⟨res, encodeBinary res n⟩
      rfl rfl rfl (wellFormed res sz ni n) hc s.Members [] r0 data v rest hwm hzero h v
      (fun _ _ => rfl)
    refine ⟨fun hsz => by simpa [validate] using h1 hsz, bs,
      by simpa [encodeBinary] using h2, ?_⟩
    intro hn
    apply h3 hn
    rcases hni with hni | hni
    · rw [hn] at hni
      cases hni
    · exact hni

/-- C27: decoded values are valid.  For every struct that is well formed together with
the structs it refers to (distinct field names; every array length and union tag
reference names a field of the struct that is declared earlier; the length of a union
region may name a field of a context), every context arguments and every input on which
the generated `Parse` succeeds, the generated `validate` succeeds on the resulting value,
and `MarshalBinary` of it returns bytes and no error.  The well formed structs are taken
among those whose generated file compiles: an array length or union tag with a scope has
no runnable `validate`, and a negative constant array length no Go type `[N]T`, so for
such a struct there is no generated `Parse` that could succeed. -/
theorem Parse_then_validate (res : Resolver) (fuel : Nat) (s : Struct)
    (ctxs : List (String × StructVal)) (data : List Byte) (v : StructVal) (rest : List Byte)
    (hwf : wellFormed res true false fuel s = true)
    (h : Parse res fuel s ctxs data = .ok (v, rest)) :
    validate res fuel s v = .ok () ∧ (∃ bs, MarshalBinary res fuel s v = .ok bs) ∧
      ∀ e, MarshalBinary res fuel s v ≠ .error e := by
  obtain ⟨h1, bs, h2, _⟩ := Parse_valid res true false fuel s hwf ctxs data v rest h
  have h1 := h1 rfl
  have hm : MarshalBinary res fuel s v = .ok bs := by simp [MarshalBinary, h1, h2]
  exact ⟨h1, ⟨bs, hm⟩, fun e => by simp [hm]⟩

/-- Instance of `Parse_then_validate`: `Packet`, a struct with a union, decoded from the
bytes `[1, 255]`, and `Bounded`, whose union region has the length `ctx.n`, decoded from
`[1, 9, 77]` with `ctx.n = 1`. -/
theorem Parse_then_validate_witness :
    (wellFormed exampleRes true false 1 Packet = true ∧
      Parse exampleRes 1 Packet [] [1, 255] = .ok (packetByteParsed, []) ∧
      validate exampleRes 1 Packet packetByteParsed = .ok ()) ∧
    (wellFormed boundedRes true false 1 Bounded = true ∧
      Parse boundedRes 1 Bounded [("ctx", ctxValue 1)] [1, 9, 77] =
        .ok ([("Tag", .int 1), ("A", .int 9)], [77]) ∧
      validate boundedRes 1 Bounded [("Tag", .int 1), ("A", .int 9)] = .ok ()) :=
  ⟨⟨by decide, rfl,
    (Parse_then_validate exampleRes 1 Packet [] [1, 255] packetByteParsed [] (by decide)
      rfl).1⟩,
   ⟨by decide, rfl,
    (Parse_then_validate boundedRes 1 Bounded [("ctx", ctxValue 1)] [1, 9, 77]
      [("Tag", .int 1), ("A", .int 9)] [77] (by decide) rfl).1⟩⟩

/-- C29 (amended): canonical encoding, decode then encode.  For every struct that is well
formed together with the structs it refers to (distinct field names; every array length
and union tag reference names a field of the struct itself that is declared earlier),
when neither the struct nor a struct it refers to, directly or through other structs,
holds an `Ignore` member: on every input on which the generated `Parse` succeeds with the
value `v` and the remainder `rest`, `encodeBinary` of `v` returns bytes, and these bytes
followed by `rest` are the input. -/
theorem Parse_then_encodeBinary (res : Resolver) (fuel : Nat) (s : Struct)
    (ctxs : List (String × StructVal)) (data : List Byte) (v : StructVal) (rest : List Byte)
    (hwf : wellFormed res false true fuel s = true)
    (h : Parse res fuel s ctxs data = .ok (v, rest)) :
    ∃ bs, encodeBinary res fuel s (some v) = .ok bs ∧ bs ++ rest = data := by
  obtain ⟨_, bs, h2, h3⟩ := Parse_valid res false true fuel s hwf ctxs data v rest h
  exact ⟨bs, h2, h3 rfl⟩

/-- Instance of `Parse_then_encodeBinary`: `Outer`, which holds a nested struct and a
counted array of nested structs, decoded from its bytes followed by the byte 9. -/
theorem Parse_then_encodeBinary_witness :
    wellFormed exampleRes false true 2 Outer = true ∧
    Parse exampleRes 2 Outer [] (outerBytes ++ [9]) = .ok (outerValue, [9]) ∧
    ∃ bs, encodeBinary exampleRes 2 Outer (some outerValue) = .ok bs ∧
      bs ++ [9] = outerBytes ++ [9] :=
  ⟨by decide, rfl,
    Parse_then_encodeBinary exampleRes 2 Outer [] (outerBytes ++ [9]) outerValue [9]
      (by decide) rfl⟩

/-- C29 (counterexample): re-encoding does not always give the consumed bytes back.
`Carrier` holds no `Ignore` member; the struct `Skipper` that it refers to holds one in
the case 1 of its union: `Carrier.Parse` succeeds on `[1, 9, 9]` with an empty remainder,
the two bytes 9 being skipped inside `Skipper`, and `encodeBinary` of the decoded value
is `[1]`.  `Tagged` holds no `Ignore` member and its union tag is a field of a context: its
`Parse` succeeds on `[9]`, and the printed `encodeBinary`, which has no context
parameter, has no runnable code. -/
theorem encodeBinary_not_canonical :
    (noIgnoreMembers Carrier.Members = true ∧
      Parse carrierRes 2 Carrier [] [1, 9, 9] = .ok (carrierParsed, []) ∧
      encodeBinary carrierRes 2 Carrier (some carrierParsed) = .ok [1] ∧
      ([1] : List Byte) ++ [] ≠ [1, 9, 9]) ∧
    (noIgnoreMembers Tagged.Members = true ∧
      Parse taggedRes 1 Tagged [("ctx", ctxValue 1)] [9] = .ok ([("A", .int 9)], []) ∧
      encodeBinary taggedRes 1 Tagged (some [("A", .int 9)]) = .nocode) :=
  ⟨⟨rfl, rfl, rfl, by decide⟩, rfl, rfl, rfl⟩

end Trunnel
